import Mathlib

/-!
# Maze_Challenge: dead-end elimination solver and path validator

A shallow embedding of `src/MazeSolver.cpp` / `src/MazeSolver.h`.

* `Maze` is `std::vector<std::vector<int>>`: a list of cells, each a list of
  side values in the order Left, Up, Right, Down (`0` Open, `1` Wall,
  `-1` Blocked).
* Every `operator[]` of the source is an `Option`-returning lookup; an index
  outside the vector is the outcome `outOfRange`.
* `exit(1)` is the outcome `exit1`; a loop that has not finished when the
  fuel is used up is the outcome `running`.
* `unsigned int` arithmetic on cell indices wraps modulo `2^32`, `size_t`
  arithmetic (`walls.size() - 1`) modulo `2^64`.
* The eight worker threads of a round are modelled by the order in which the
  shared stack is popped (last in, first out, serialised by the mutex) and by
  an arbitrary assignment of the popped dead ends to workers.
-/

namespace MazeSolver

/-- The type `MazeSolver::Maze` of the header: each cell holds its side values. -/
abbrev Maze := List (List Int)

/-- The enumeration `Direction` of the header, `LEFT = 0, UP, RIGHT, DOWN`. -/
inductive Direction where
  | LEFT
  | UP
  | RIGHT
  | DOWN
deriving DecidableEq, Repr

/-- The integer value of a `Direction`, used as the side index. -/
def Direction.toNat : Direction → Nat
  | .LEFT => 0
  | .UP => 1
  | .RIGHT => 2
  | .DOWN => 3

/-- The struct `NewDeadEnd` of the header. -/
structure NewDeadEnd where
  direction : Direction
  id : Nat
deriving DecidableEq, Repr

/-- The constant `MazeSolver::NUM_THREADS`. -/
def NUM_THREADS : Nat := 8

/-- How a piece of the program ends: normally with a value, through `exit(1)`,
by indexing a vector out of range, by reading the local
`directionComingFrom` before any assignment, or not within the fuel given. -/
inductive Outcome (α : Type) where
  | ok (a : α)
  | exit1
  | outOfRange
  | uninitialised
  | running
deriving DecidableEq, Repr

/-- Sequencing of outcomes: a failure of the first part is the failure of the whole. -/
def Outcome.bind {α β : Type} : Outcome α → (α → Outcome β) → Outcome β
  | .ok a, f => f a
  | .exit1, _ => .exit1
  | .outOfRange, _ => .outOfRange
  | .uninitialised, _ => .uninitialised
  | .running, _ => .running

/-- Number of values of an `unsigned int`. -/
def UINT_RANGE : Nat := 4294967296

/-- Number of values of a `size_t`. -/
def SIZE_RANGE : Nat := 18446744073709551616

/-- Subtraction of `unsigned int`s; the second operand is first converted to
`unsigned int` (it is the `int mazeDimension` or the literal `1`). -/
def usub (a b : Nat) : Nat := (a + UINT_RANGE - b % UINT_RANGE) % UINT_RANGE

/-- Addition of `unsigned int`s. -/
def uadd (a b : Nat) : Nat := (a + b) % UINT_RANGE

/-- The expression `walls.size() - 1`, computed in `size_t`. -/
def lastIndex (walls : Maze) : Nat := (walls.length + SIZE_RANGE - 1) % SIZE_RANGE

/-- The lookup `walls[cell][k]`. -/
def side (walls : Maze) (cell k : Nat) : Option Int :=
  match walls[cell]? with
  | none => none
  | some row => row[k]?

/-- The lookup `walls[idx][k]` for an `int` index, as `ValidatePath` does it
with `path[i]`: a negative index converts to a huge `size_t`. -/
def sideAt (walls : Maze) (idx : Int) (k : Nat) : Option Int :=
  if 0 ≤ idx then side walls idx.toNat k else none

/-- The function `isIntersection` (lines 73-82). -/
def isIntersection (cell : Nat) (walls : Maze) : Option Bool :=
  if cell = 0 ∨ cell = lastIndex walls then some true
  else
    match side walls cell 0, side walls cell 1, side walls cell 2, side walls cell 3 with
    | some a, some b, some c, some d =>
      some (decide ((if a = 0 then 1 else 0) + (if b = 0 then 1 else 0)
        + (if c = 0 then 1 else 0) + (if d = 0 then 1 else 0) > 2))
    | _, _, _, _ => none

/-- The test of `findDeadEnds` (lines 159-162): more than two sides differ from `0`. -/
def isDeadEnd (walls : Maze) (i : Nat) : Option Bool :=
  match side walls i 0, side walls i 1, side walls i 2, side walls i 3 with
  | some a, some b, some c, some d =>
    some (decide ((if a ≠ 0 then 1 else 0) + (if b ≠ 0 then 1 else 0)
      + (if c ≠ 0 then 1 else 0) + (if d ≠ 0 then 1 else 0) > 2))
  | _, _, _, _ => none

/-- The `for` loop of `findDeadEnds` (lines 158-169) with `n` iterations left,
standing at index `i`. The stack has its top at the head; the processed set
`treatedDeadEnds` is kept as the list of its members. The counter `i` is a
natural number here, which is exact for grids of fewer than `2^31` cells. -/
def findDeadEndsFrom (walls : Maze) : Nat → Nat → List Nat → List Nat →
    Outcome (List Nat × List Nat)
  | 0, _, outDeadEnds, treated => .ok (outDeadEnds, treated)
  | n + 1, i, outDeadEnds, treated =>
    match isDeadEnd walls i with
    | none => .outOfRange
    | some true =>
      if i ∈ treated then findDeadEndsFrom walls n (i + 1) outDeadEnds treated
      else findDeadEndsFrom walls n (i + 1) (i :: outDeadEnds) (i :: treated)
    | some false => findDeadEndsFrom walls n (i + 1) outDeadEnds treated

/-- The function `MazeSolver::findDeadEnds` (lines 155-170): `i` runs from `1`
while `i < walls.size() - 1`. Returns the stack and the processed set. -/
def findDeadEnds (outDeadEnds treated : List Nat) (walls : Maze) :
    Outcome (List Nat × List Nat) :=
  findDeadEndsFrom walls (lastIndex walls - 1) 1 outDeadEnds treated

/-- The chain of four tests that both walks of the source use (lines 45-64 and
133-148): the first side, in the order Left, Up, Right, Down, that is `0` and
does not lead to `previous`. Gives the cell moved to and the direction the
move enters it from; the final `else` is `exit(1)`. -/
def firstMove (mazeDimension : Nat) (walls : Maze) (cell previous : Nat) :
    Outcome (Nat × Direction) :=
  match side walls cell 0 with
  | none => .outOfRange
  | some s0 =>
    if s0 = 0 ∧ previous ≠ usub cell 1 then .ok (usub cell 1, .RIGHT)
    else
      match side walls cell 1 with
      | none => .outOfRange
      | some s1 =>
        if s1 = 0 ∧ previous ≠ usub cell mazeDimension then
          .ok (usub cell mazeDimension, .DOWN)
        else
          match side walls cell 2 with
          | none => .outOfRange
          | some s2 =>
            if s2 = 0 ∧ previous ≠ uadd cell 1 then .ok (uadd cell 1, .LEFT)
            else
              match side walls cell 3 with
              | none => .outOfRange
              | some s3 =>
                if s3 = 0 ∧ previous ≠ uadd cell mazeDimension then
                  .ok (uadd cell mazeDimension, .UP)
                else .exit1

/-- The inner `while(!isIntersection(currentCell, walls))` loop of
`backtrackFromDeadEnds` and the record built after it (lines 40-68).
`directionComingFrom` is `none` until a move assigns it. -/
def backtrackWalk (mazeDimension : Nat) (walls : Maze) :
    Nat → Option Direction → Nat → Nat → Outcome NewDeadEnd
  | 0, _, _, _ => .running
  | fuel + 1, directionComingFrom, currentCell, previousCell =>
    match isIntersection currentCell walls with
    | none => .outOfRange
    | some true =>
      match directionComingFrom with
      | none => .uninitialised
      | some d => .ok ⟨d, currentCell⟩
    | some false =>
      (firstMove mazeDimension walls currentCell previousCell).bind
        (fun m => backtrackWalk mazeDimension walls fuel (some m.2) m.1 currentCell)

/-- The walk a worker makes for one popped dead end (lines 39-69). -/
def backtrackOne (fuel mazeDimension : Nat) (walls : Maze) (deadEnd : Nat) :
    Outcome NewDeadEnd :=
  backtrackWalk mazeDimension walls fuel none deadEnd deadEnd

/-- The eight workers of one round draining the shared stack (lines 24-70,
102-112). The stack is popped from its top, one dead end at a time. `busy`
counts the workers whose walk has not ended within the fuel: such a worker
pops nothing more, and when all `NUM_THREADS` are busy nothing is popped any
more. `exit(1)` in any worker ends the process. With no worker busy at the
end the join returns; the records are listed in the order of the pops. -/
def drain (fuel mazeDimension : Nat) (walls : Maze) :
    List Nat → Nat → Outcome (List NewDeadEnd)
  | [], busy => if busy = 0 then .ok [] else .running
  | deadEnd :: rest, busy =>
    if NUM_THREADS ≤ busy then .running
    else
      match backtrackOne fuel mazeDimension walls deadEnd with
      | .ok r => (drain fuel mazeDimension walls rest busy).bind (fun rs => .ok (r :: rs))
      | .running => (drain fuel mazeDimension walls rest (busy + 1)).bind (fun _ => .running)
      | .exit1 => .exit1
      | .outOfRange => .outOfRange
      | .uninitialised => .uninitialised

/-- The private stack `newDeadEnds[w]` of worker `w` after the join, top first:
the records of the pops that `assign` gives to `w`, the last one pushed on top. -/
def workerStack (assign : Nat → Nat) (w : Nat) (recs : List NewDeadEnd) : List NewDeadEnd :=
  ((recs.enum.filter (fun p => assign p.1 % NUM_THREADS = w)).map Prod.snd).reverse

/-- The order in which the block applier (lines 115-122) meets the records:
worker `0` to worker `NUM_THREADS - 1`, each stack from its top. -/
def applyOrder (assign : Nat → Nat) (recs : List NewDeadEnd) : List NewDeadEnd :=
  (List.range NUM_THREADS).flatMap (fun w => workerStack assign w recs)

/-- The assignment `walls[cell][k] = v`. -/
def setSide (walls : Maze) (cell k : Nat) (v : Int) : Option Maze :=
  match walls[cell]? with
  | none => none
  | some row => if k < row.length then some (walls.set cell (row.set k v)) else none

/-- The block applier (lines 115-122): `walls[deadEnd.id][deadEnd.direction] = -1`
for every record, in the given order. -/
def applyBlocks (walls : Maze) : List NewDeadEnd → Option Maze
  | [] => some walls
  | r :: rest =>
    match setSide walls r.id r.direction.toNat (-1) with
    | none => none
    | some walls1 => applyBlocks walls1 rest

/-- What one pass through the body of the fixpoint loop leaves behind. -/
structure Round where
  walls : Maze
  treated : List Nat
  deadEnds : List Nat
  emitted : List Nat
  records : List NewDeadEnd

/-- The body of the loop `while(!isDeadEndsEmpty)` (lines 99-122): scan, the
workers, the block applier. `emitted` is the stack the scan leaves (top
first), `records` the records in the order they are applied. -/
def loopBody (fuel : Nat) (assign : Nat → Nat) (mazeDimension : Nat) (walls : Maze)
    (treated deadEnds : List Nat) : Outcome Round :=
  (findDeadEnds deadEnds treated walls).bind fun found =>
    (drain fuel mazeDimension walls found.1 0).bind fun recs =>
      match applyBlocks walls (applyOrder assign recs) with
      | none => .outOfRange
      | some walls1 => .ok ⟨walls1, found.2, [], found.1, applyOrder assign recs⟩

/-- The loop `while(!isDeadEndsEmpty)` (lines 98-124). The flag is tested
before every pass; no statement of the body assigns it. The statement
`if(deadEnds.empty()) break;` of lines 93-94 stands before the loop, where
there is no loop for the `break` to leave, and has no effect here.
`sched round` is the assignment of pops to workers in pass number `round`. -/
def fixpointLoop (sched : Nat → Nat → Nat) (mazeDimension walkFuel : Nat) :
    Nat → Nat → Bool → Maze → List Nat → List Nat → Outcome (Maze × List Nat)
  | 0, _, _, _, _, _ => .running
  | fuel + 1, round, isDeadEndsEmpty, walls, treated, deadEnds =>
    if isDeadEndsEmpty then .ok (walls, treated)
    else
      (loopBody walkFuel (sched round) mazeDimension walls treated deadEnds).bind fun r =>
        fixpointLoop sched mazeDimension walkFuel fuel (round + 1) isDeadEndsEmpty
          r.walls r.treated r.deadEnds

/-- The path construction loop `while(cell != walls.size() - 1)` and the final
`push_back` (lines 129-152). -/
def pathWalk (mazeDimension : Nat) (walls : Maze) :
    Nat → Nat → Nat → List Int → Outcome (List Int)
  | 0, _, _, _ => .running
  | fuel + 1, cell, previous, path =>
    if cell = lastIndex walls then .ok (path ++ [(lastIndex walls : Int)])
    else
      (firstMove mazeDimension walls cell previous).bind
        (fun m => pathWalk mazeDimension walls fuel m.1 cell (path ++ [(cell : Int)]))

/-- The function `MazeSolver::SolveMaze` (lines 84-153), started with the static
set `treatedDeadEnds` holding `treated`. After the loop the set is cleared
(line 126) and the path is built from the grid the loop left. -/
def SolveMazeFrom (fuel : Nat) (sched : Nat → Nat → Nat) (treated : List Nat)
    (walls : Maze) : Outcome (List Int) :=
  (fixpointLoop sched (Nat.sqrt walls.length) fuel fuel 0 false walls treated []).bind
    fun s => pathWalk (Nat.sqrt walls.length) s.1 fuel 0 0 []

/-- The function `MazeSolver::SolveMaze` called while `treatedDeadEnds` is empty,
as it is when the program starts. -/
def SolveMaze (fuel : Nat) (sched : Nat → Nat → Nat) (walls : Maze) : Outcome (List Int) :=
  SolveMazeFrom fuel sched [] walls

/-- The `for` loop of `ValidatePath` (lines 187-215) over the consecutive pairs
of the path. -/
def validateSteps (dimension : Int) (walls : Maze) : List Int → Option Bool
  | a :: b :: rest =>
    if b - a = 1 then
      match sideAt walls a 2 with
      | none => none
      | some s => if s = 1 then some false else validateSteps dimension walls (b :: rest)
    else if b - a = -1 then
      match sideAt walls a 0 with
      | none => none
      | some s => if s = 1 then some false else validateSteps dimension walls (b :: rest)
    else if b - a = dimension then
      match sideAt walls a 3 with
      | none => none
      | some s => if s = 1 then some false else validateSteps dimension walls (b :: rest)
    else if b - a = 0 - dimension then
      match sideAt walls a 1 with
      | none => none
      | some s => if s = 1 then some false else validateSteps dimension walls (b :: rest)
    else some false
  | _ => some true

/-- The function `MazeSolver::ValidatePath` (lines 174-219). `none` stands for
an index out of range (`path[0]` of an empty path, or a cell outside the grid). -/
def ValidatePath (dimension : Int) (walls : Maze) (path : List Int) : Option Bool :=
  match path with
  | [] => none
  | first :: rest =>
    if first ≠ 0 ∨ (first :: rest).getLast (List.cons_ne_nil first rest) ≠ (walls.length : Int) - 1 then
      some false
    else validateSteps dimension walls (first :: rest)

/-- The grid with every Blocked side (`-1`) replaced by Open (`0`). -/
def unblock (walls : Maze) : Maze :=
  walls.map (fun row => row.map (fun s => if s = -1 then 0 else s))

/-- The cell a move through side `k` leads to, as both walks compute it:
`cell - 1`, `cell - mazeDimension`, `cell + 1`, `cell + mazeDimension`. -/
def target (mazeDimension cell k : Nat) : Nat :=
  if k = 0 then usub cell 1
  else if k = 1 then usub cell mazeDimension
  else if k = 2 then uadd cell 1
  else uadd cell mazeDimension

/-- The side that faces back after a move through side `k`; its value is the
`directionComingFrom` the walk stores (Left 0 - Right 2, Up 1 - Down 3). -/
def opposite (k : Nat) : Nat :=
  match k with
  | 0 => 2
  | 1 => 3
  | 2 => 0
  | _ => 1

/-- The state `(directionComingFrom, currentCell, previousCell)` of the inner
loop of `backtrackFromDeadEnds` (lines 43-65) after `j` more passes through
its body; `none` when the loop ends before it has made `j` moves. -/
def walkAfter (mazeDimension : Nat) (walls : Maze) :
    Nat → Option Direction × Nat × Nat → Option (Option Direction × Nat × Nat)
  | 0, s => some s
  | j + 1, s =>
    match isIntersection s.2.1 walls with
    | some false =>
      match firstMove mazeDimension walls s.2.1 s.2.2 with
      | .ok m => walkAfter mazeDimension walls j (some m.2, m.1, s.2.1)
      | _ => none
    | _ => none

/-- The input contract of the solver on wall bits: `N * N` four-sided cells,
few enough for an `int` index, and every Open side (`0`) leads to a cell of
the grid whose facing side is Open too. -/
def Consistent (N : Nat) (walls : Maze) : Prop :=
  walls.length = N * N ∧ walls.length < 2147483648 ∧ (∀ row ∈ walls, row.length = 4) ∧
  ∀ c, c < walls.length →
    (side walls c 0 = some 0 → 1 ≤ c ∧ side walls (c - 1) 2 = some 0) ∧
    (side walls c 1 = some 0 → N ≤ c ∧ side walls (c - N) 3 = some 0) ∧
    (side walls c 2 = some 0 → c + 1 < walls.length ∧ side walls (c + 1) 0 = some 0) ∧
    (side walls c 3 = some 0 → c + N < walls.length ∧ side walls (c + N) 1 = some 0)

instance (N : Nat) (walls : Maze) : Decidable (Consistent N walls) := by
  unfold Consistent
  infer_instance

/-- Number of Open sides (`0`) in the grid. -/
def openCount (walls : Maze) : Nat := (walls.map (fun row => row.count 0)).sum

/-- The grids and processed sets the fixpoint loop can stand at, started from
`walls0` and `treated0`: after any number of completed passes of its body. -/
inductive Reachable (mazeDimension : Nat) (walls0 : Maze) (treated0 : List Nat) :
    Maze → List Nat → Prop where
  | start : Reachable mazeDimension walls0 treated0 walls0 treated0
  | pass (walkFuel : Nat) (assign : Nat → Nat) (walls : Maze) (treated : List Nat) (r : Round) :
      Reachable mazeDimension walls0 treated0 walls treated →
      loopBody walkFuel assign mazeDimension walls treated [] = .ok r →
      Reachable mazeDimension walls0 treated0 r.walls r.treated

/-- A cell of the grid that is still part of the maze the loop works on: each
of its Open sides leads to such a cell, inside the grid, whose facing side is
Open and leads back. -/
def SoundAt (N : Nat) (W : Maze) (A : Nat → Prop) (c : Nat) : Prop :=
  c < W.length ∧ ∀ k, k < 4 → side W c k = some 0 →
    target N c k < W.length ∧ target N c k ≠ c ∧ A (target N c k) ∧
    side W (target N c k) (opposite k) = some 0 ∧ target N (target N c k) (opposite k) = c

/-- The invariant of the fixpoint loop, for a set `A` of cells not yet cut
off: they are sound, and a cut-off cell that the scan would emit is already
in the processed set. -/
structure LoopInv (N : Nat) (W : Maze) (P : List Nat) (A : Nat → Prop) : Prop where
  rows : ∀ row ∈ W, row.length = 4
  small : W.length < 2147483648
  sound : ∀ c, A c → SoundAt N W A c
  processed : ∀ c, ¬ A c → 1 ≤ c → c + 1 < W.length → isDeadEnd W c = some true → c ∈ P

/-- The cells a backtrack walk has left behind, last one first, each with the
side it was left through. The first cell of the walk is a dead end with one
Open side; every later one has exactly the side it was entered from and the
side it was left through Open. -/
def TraceOK (N : Nat) (W : Maze) (A : Nat → Prop) : List (Nat × Nat) → Prop
  | [] => True
  | [(v, km)] =>
    A v ∧ isIntersection v W = some false ∧ isDeadEnd W v = some true ∧ 1 ≤ v ∧
      v + 1 < W.length ∧ km < 4 ∧ side W v km = some 0 ∧
      (∀ k, k < 4 → side W v k = some 0 → k = km)
  | (v, km) :: (p, kp) :: rest =>
    A v ∧ isIntersection v W = some false ∧ isDeadEnd W v = some false ∧ km < 4 ∧
      side W v km = some 0 ∧ v = target N p kp ∧ kp < 4 ∧
      (∀ k, k < 4 → side W v k = some 0 → k = km ∨ k = opposite kp) ∧
      TraceOK N W A ((p, kp) :: rest)

/-- Where a backtrack walk stands: at its first cell, an emitted dead end, or
at the cell the last move led to. -/
def WalkAt (N : Nat) (W : Maze) (A : Nat → Prop) (tr : List (Nat × Nat))
    (dir : Option Direction) (cur prev : Nat) : Prop :=
  match tr with
  | [] => dir = none ∧ prev = cur ∧ A cur ∧ isDeadEnd W cur = some true ∧ 1 ≤ cur ∧
      cur + 1 < W.length
  | (p, kp) :: _ => prev = p ∧ cur = target N p kp ∧ ∃ d, dir = some d ∧ d.toNat = opposite kp

/-- What is known while a backtrack walk stands at `cur`: where it stands, the
cells it has left behind, that it has been at no cell twice, and that `cur`
is not cut off. -/
structure WalkInv (N : Nat) (W : Maze) (A : Nat → Prop) (tr : List (Nat × Nat))
    (dir : Option Direction) (cur prev : Nat) : Prop where
  pos : WalkAt N W A tr dir cur prev
  trace : TraceOK N W A tr
  nodup : (cur :: tr.map Prod.fst).Nodup
  alive : A cur

/-- The state `(cell, previous, path)` of the path construction loop (lines
131-149) after `j` more passes through its body; `none` when the loop ends
before it has made `j` moves. -/
def pathAfter (mazeDimension : Nat) (walls : Maze) :
    Nat → Nat × Nat × List Int → Option (Nat × Nat × List Int)
  | 0, s => some s
  | j + 1, s =>
    if s.1 = lastIndex walls then none
    else
      match firstMove mazeDimension walls s.1 s.2.1 with
      | .ok m => pathAfter mazeDimension walls j (m.1, s.1, s.2.2 ++ [(s.1 : Int)])
      | _ => none

/-- The cells the path construction loop stands on, in order, from a cell it
came to from `previous` up to the last cell of the grid: every move goes
through an Open side and not back to the cell before. -/
def PathCells (N : Nat) (W : Maze) : Nat → List Nat → Prop
  | _, [] => False
  | _, [c] => c = lastIndex W
  | previous, c :: b :: rest =>
    c ≠ lastIndex W ∧ (∃ k, k < 4 ∧ side W c k = some 0 ∧ b = target N c k) ∧ b ≠ previous ∧
      PathCells N W c (b :: rest)

/-- The trace a completed backtrack walk leaves: it starts at the dead end
`d`, and the cell it left last is the neighbour of the recorded cell on the
recorded side. The recorded cell is an intersection that is not cut off. -/
def WalkTrace (N : Nat) (W : Maze) (A : Nat → Prop) (d : Nat) (r : NewDeadEnd)
    (tr : List (Nat × Nat)) : Prop :=
  TraceOK N W A tr ∧ (∃ k pre, tr = pre ++ [(d, k)]) ∧
  (∃ v kv rest, tr = (v, kv) :: rest ∧ r.id = target N v kv ∧
    r.direction.toNat = opposite kv) ∧
  A r.id ∧ isIntersection r.id W = some true

/-- A grid of dimension 4 with one-way sides: cell 2 has four Walls, the cells
4, 5, 9, 8 and 6, 7, 11, 10 each have one Open side and lead round in a ring. -/
def ringGrid : Maze :=
  [[1, 1, 1, 1], [0, 0, 1, 1], [1, 1, 1, 1], [0, 0, 1, 1],
   [1, 1, 0, 1], [1, 1, 1, 0], [1, 1, 0, 1], [1, 1, 1, 0],
   [1, 0, 1, 1], [0, 1, 1, 1], [1, 0, 1, 1], [0, 1, 1, 1],
   [0, 0, 1, 1], [0, 0, 1, 1], [0, 0, 1, 1], [1, 1, 1, 1]]

/-- A 2 x 2 maze with Open edges 0-1, 1-3 and 2-3: cell 2 is a dead end off
the path `[0, 1, 3]`. -/
def branchGrid : Maze := [[1, 1, 0, 1], [0, 1, 1, 0], [1, 1, 0, 1], [0, 0, 1, 1]]

/-- The grid of the concrete scenario: 2 x 2, Open edges 0-1 and 1-3 only. -/
def grid2x2 : Maze := [[1, 1, 0, 1], [0, 1, 1, 0], [1, 1, 1, 1], [1, 0, 1, 1]]

end MazeSolver

namespace MazeSolver

/-! ## Lookups -/

theorem side_eq_some_of_lt (walls : Maze) (cell k : Nat) (hc : cell < walls.length)
    (hrow : ∀ row ∈ walls, row.length = 4) (hk : k < 4) :
    ∃ s, side walls cell k = some s := by
  unfold side
  rw [List.getElem?_eq_getElem hc]
  have h4 : (walls[cell]).length = 4 := hrow _ (List.getElem_mem _)
  exact ⟨(walls[cell])[k], by simp [List.getElem?_eq_getElem, h4, hk]⟩

theorem sideAt_eq_some_of_range (walls : Maze) (a : Int) (k : Nat) (h0 : 0 ≤ a)
    (hc : a < (walls.length : Int)) (hrow : ∀ row ∈ walls, row.length = 4) (hk : k < 4) :
    ∃ s, sideAt walls a k = some s := by
  unfold sideAt
  rw [if_pos h0]
  exact side_eq_some_of_lt walls a.toNat k (by omega) hrow hk

/-! ## ValidatePath -/

theorem stepChain_eq_true_iff (N d s0 s1 s2 s3 : Int) (hN : 1 ≤ N) (hd : 2 ≤ N ∨ d = 0)
    (X : Option Bool) :
    (if d = 1 then (if s2 = 1 then some false else X)
      else if d = -1 then (if s0 = 1 then some false else X)
      else if d = N then (if s3 = 1 then some false else X)
      else if d = 0 - N then (if s1 = 1 then some false else X)
      else some false) = some true ↔
    ((d = 1 ∧ ¬ s2 = 1) ∨ (d = -1 ∧ ¬ s0 = 1) ∨ (d = N ∧ ¬ s3 = 1) ∨ (d = -N ∧ ¬ s1 = 1)) ∧
      X = some true := by
  have hz : (0 : Int) - N = -N := by omega
  rw [hz]
  have key : ∀ (p1 p2 p3 p4 : Prop) [Decidable p1] [Decidable p2] [Decidable p3] [Decidable p4],
      (p1 → ¬ p2 ∧ ¬ p3 ∧ ¬ p4) → (p2 → ¬ p3 ∧ ¬ p4) → (p3 → ¬ p4) →
      ((if p1 then (if s2 = 1 then some false else X)
        else if p2 then (if s0 = 1 then some false else X)
        else if p3 then (if s3 = 1 then some false else X)
        else if p4 then (if s1 = 1 then some false else X)
        else some false) = some true ↔
      ((p1 ∧ ¬ s2 = 1) ∨ (p2 ∧ ¬ s0 = 1) ∨ (p3 ∧ ¬ s3 = 1) ∨ (p4 ∧ ¬ s1 = 1)) ∧
        X = some true) := by
    intro p1 p2 p3 p4 _ _ _ _ h1 h2 h3
    by_cases q1 : p1
    · obtain ⟨n2, n3, n4⟩ := h1 q1
      by_cases w : s2 = 1 <;> simp [q1, n2, n3, n4, w]
    · by_cases q2 : p2
      · obtain ⟨n3, n4⟩ := h2 q2
        by_cases w : s0 = 1 <;> simp [q1, q2, n3, n4, w]
      · by_cases q3 : p3
        · have n4 := h3 q3
          by_cases w : s3 = 1 <;> simp [q1, q2, q3, n4, w]
        · by_cases q4 : p4
          · by_cases w : s1 = 1 <;> simp [q1, q2, q3, q4, w]
          · simp [q1, q2, q3, q4]
  exact key (d = 1) (d = -1) (d = N) (d = -N) (fun h => by omega) (fun h => by omega)
    (fun h => by omega)

theorem stepChain_isSome (N d s0 s1 s2 s3 : Int) (X : Option Bool)
    (hX : X = some true ∨ X = some false) :
    (if d = 1 then (if s2 = 1 then some false else X)
      else if d = -1 then (if s0 = 1 then some false else X)
      else if d = N then (if s3 = 1 then some false else X)
      else if d = 0 - N then (if s1 = 1 then some false else X)
      else some false) = some true ∨
    (if d = 1 then (if s2 = 1 then some false else X)
      else if d = -1 then (if s0 = 1 then some false else X)
      else if d = N then (if s3 = 1 then some false else X)
      else if d = 0 - N then (if s1 = 1 then some false else X)
      else some false) = some false := by
  split_ifs <;> simp_all

/-- The step relation the validator enforces, as the specification words it. -/
theorem validateSteps_eq_true_iff (N : Nat) (hN : 1 ≤ N) (walls : Maze)
    (hN2 : 2 ≤ N ∨ walls.length = 1)
    (hrow : ∀ row ∈ walls, row.length = 4) (path : List Int)
    (hrange : ∀ c ∈ path, 0 ≤ c ∧ c < (walls.length : Int)) :
    (validateSteps N walls path = some true ∨ validateSteps N walls path = some false) ∧
    (validateSteps N walls path = some true ↔
      List.Chain' (fun a b =>
        (b - a = 1 ∧ sideAt walls a 2 ≠ some 1) ∨ (b - a = -1 ∧ sideAt walls a 0 ≠ some 1) ∨
        (b - a = N ∧ sideAt walls a 3 ≠ some 1) ∨ (b - a = -N ∧ sideAt walls a 1 ≠ some 1))
        path) := by
  induction path with
  | nil => simp [validateSteps]
  | cons a tl ih =>
    cases tl with
    | nil => simp [validateSteps]
    | cons b rest =>
      have ha := hrange a (by simp)
      have ih' := ih (fun c hc => hrange c (List.mem_cons_of_mem _ hc))
      obtain ⟨s0, h0⟩ := sideAt_eq_some_of_range walls a 0 ha.1 ha.2 hrow (by omega)
      obtain ⟨s1, h1⟩ := sideAt_eq_some_of_range walls a 1 ha.1 ha.2 hrow (by omega)
      obtain ⟨s2, h2⟩ := sideAt_eq_some_of_range walls a 2 ha.1 ha.2 hrow (by omega)
      obtain ⟨s3, h3⟩ := sideAt_eq_some_of_range walls a 3 ha.1 ha.2 hrow (by omega)
      have hb := hrange b (by simp)
      have hN' : (1 : Int) ≤ (N : Int) := by exact_mod_cast hN
      have hd : (2 : Int) ≤ (N : Int) ∨ b - a = 0 := by
        rcases hN2 with h | h
        · exact Or.inl (by exact_mod_cast h)
        · right
          rw [h] at ha hb
          omega
      rw [List.chain'_cons]
      unfold validateSteps
      simp only [h0, h1, h2, h3, ne_eq, Option.some.injEq]
      refine ⟨stepChain_isSome N (b - a) s0 s1 s2 s3 _ ih'.1, ?_⟩
      rw [stepChain_eq_true_iff N (b - a) s0 s1 s2 s3 hN' hd, ih'.2]


/-- C2: for a grid of `N * N` four-sided cells, `N ≥ 1`, and a non-empty path
of cells in `[0, N * N)`, `ValidatePath` returns a boolean, and it returns
`true` exactly when the path starts at `0`, ends at `N * N - 1`, and every
consecutive pair `(a, b)` has `b - a` among `+1, -1, +N, -N` with the side of
`a` in that direction (Right, Left, Down, Up) different from Wall (`1`). -/
theorem ValidatePath_true_iff (N : Nat) (hN : 1 ≤ N) (walls : Maze)
    (hsize : walls.length = N * N) (hrow : ∀ row ∈ walls, row.length = 4)
    (path : List Int) (hne : path ≠ [])
    (hrange : ∀ c ∈ path, 0 ≤ c ∧ c < ((N * N : Nat) : Int)) :
    (ValidatePath N walls path = some true ∨ ValidatePath N walls path = some false) ∧
    (ValidatePath N walls path = some true ↔
      path.head hne = 0 ∧ path.getLast hne = ((N * N : Nat) : Int) - 1 ∧
      List.Chain' (fun a b =>
        (b - a = 1 ∧ sideAt walls a 2 ≠ some 1) ∨ (b - a = -1 ∧ sideAt walls a 0 ≠ some 1) ∨
        (b - a = N ∧ sideAt walls a 3 ≠ some 1) ∨ (b - a = -N ∧ sideAt walls a 1 ≠ some 1))
        path) := by
  have hN2 : 2 ≤ N ∨ walls.length = 1 := by
    rcases Nat.lt_or_ge N 2 with h | h
    · right
      have : N = 1 := by omega
      rw [hsize, this]
    · exact Or.inl h
  have hsteps := validateSteps_eq_true_iff N hN walls hN2 hrow path
    (fun c hc => by rw [hsize]; exact hrange c hc)
  cases path with
  | nil => exact absurd rfl hne
  | cons first rest =>
    unfold ValidatePath
    simp only [List.head_cons]
    by_cases hends : first ≠ 0 ∨
        (first :: rest).getLast (List.cons_ne_nil first rest) ≠ (walls.length : Int) - 1
    · rw [if_pos hends]
      refine ⟨Or.inr rfl, ?_⟩
      constructor
      · intro h
        cases h
      · rintro ⟨h1, h2, -⟩
        rw [hsize] at hends
        rcases hends with h | h
        · exact absurd h1 h
        · exact absurd h2 h
    · rw [if_neg hends]
      refine ⟨hsteps.1, ?_⟩
      rw [hsteps.2]
      rw [not_or, not_not, not_not, hsize] at hends
      constructor
      · intro h
        exact ⟨hends.1, hends.2, h⟩
      · rintro ⟨-, -, h⟩
        exact h

/-- C2, witness: on the 2 x 2 grid with Open edges 0-1 and 1-3 only, the
characterisation holds for `[0, 1, 3]`, which is accepted, while `[0, 2, 3]`
is rejected. -/
theorem ValidatePath_true_iff_witness :
    ((ValidatePath 2 grid2x2 [0, 1, 3] = some true ∨
        ValidatePath 2 grid2x2 [0, 1, 3] = some false) ∧
      (ValidatePath 2 grid2x2 [0, 1, 3] = some true ↔
        ([0, 1, 3] : List Int).head (by simp) = 0 ∧
        ([0, 1, 3] : List Int).getLast (by simp) = ((2 * 2 : Nat) : Int) - 1 ∧
        List.Chain' (fun a b =>
          (b - a = 1 ∧ sideAt grid2x2 a 2 ≠ some 1) ∨
          (b - a = -1 ∧ sideAt grid2x2 a 0 ≠ some 1) ∨
          (b - a = (2 : Nat) ∧ sideAt grid2x2 a 3 ≠ some 1) ∨
          (b - a = -(2 : Nat) ∧ sideAt grid2x2 a 1 ≠ some 1)) [0, 1, 3])) ∧
    ValidatePath 2 grid2x2 [0, 1, 3] = some true ∧
    ValidatePath 2 grid2x2 [0, 2, 3] = some false :=
  ⟨ValidatePath_true_iff 2 (by decide) grid2x2 (by decide) (by decide) [0, 1, 3] (by simp)
      (by decide),
    by decide, by decide⟩

/-- C3: a path whose first cell is not `0` or whose last cell is not
`N * N - 1` is rejected by `ValidatePath`, whatever its steps are. -/
theorem ValidatePath_rejects_wrong_ends (N : Nat) (walls : Maze)
    (hsize : walls.length = N * N) (first : Int) (rest : List Int)
    (hends : first ≠ 0 ∨
      (first :: rest).getLast (List.cons_ne_nil first rest) ≠ ((N * N : Nat) : Int) - 1) :
    ValidatePath N walls (first :: rest) = some false := by
  unfold ValidatePath
  rw [hsize]
  exact if_pos hends

/-- C3, witness: on the 2 x 2 grid the path `[1, 3]` crosses only the Open
edge 1-3 and is rejected because it starts at `1`. -/
theorem ValidatePath_rejects_wrong_ends_witness :
    ValidatePath (2 : Nat) grid2x2 [1, 3] = some false ∧
    validateSteps (2 : Nat) grid2x2 [1, 3] = some true :=
  ⟨ValidatePath_rejects_wrong_ends 2 grid2x2 (by decide) 1 [3] (Or.inl (by decide)),
    by decide⟩

end MazeSolver

namespace MazeSolver

/-! ## The validator reads Wall bits only -/

theorem forall₂_getElem? {α β : Type} {R : α → β → Prop} {l : List α} {l' : List β}
    (h : List.Forall₂ R l l') (i : Nat) :
    (l[i]? = none ∧ l'[i]? = none) ∨ ∃ x y, l[i]? = some x ∧ l'[i]? = some y ∧ R x y := by
  induction h generalizing i with
  | nil => left; simp
  | cons hxy _ ih =>
    cases i with
    | zero => right; exact ⟨_, _, by simp, by simp, hxy⟩
    | succ j => simpa using ih j

theorem sideAt_sameWalls {walls walls' : Maze}
    (h : List.Forall₂ (List.Forall₂ (fun s s' : Int => (s = 1 ↔ s' = 1))) walls walls')
    (a : Int) (k : Nat) :
    (sideAt walls a k = none ∧ sideAt walls' a k = none) ∨
      ∃ s s', sideAt walls a k = some s ∧ sideAt walls' a k = some s' ∧ (s = 1 ↔ s' = 1) := by
  unfold sideAt
  by_cases h0 : 0 ≤ a
  · rw [if_pos h0, if_pos h0]
    unfold side
    rcases forall₂_getElem? h a.toNat with ⟨e1, e2⟩ | ⟨row, row', e1, e2, hr⟩
    · left; rw [e1, e2]; exact ⟨rfl, rfl⟩
    · rw [e1, e2]
      exact forall₂_getElem? hr k
  · rw [if_neg h0, if_neg h0]
    exact Or.inl ⟨rfl, rfl⟩

theorem validateSteps_sameWalls {walls walls' : Maze}
    (h : List.Forall₂ (List.Forall₂ (fun s s' : Int => (s = 1 ↔ s' = 1))) walls walls')
    (dimension : Int) (path : List Int) :
    validateSteps dimension walls' path = validateSteps dimension walls path := by
  induction path with
  | nil => simp [validateSteps]
  | cons a tl ih =>
    cases tl with
    | nil => simp [validateSteps]
    | cons b rest =>
      unfold validateSteps
      rw [ih]
      rcases sideAt_sameWalls h a 0 with ⟨a0, b0⟩ | ⟨s0, t0, a0, b0, r0⟩ <;>
      rcases sideAt_sameWalls h a 1 with ⟨a1, b1⟩ | ⟨s1, t1, a1, b1, r1⟩ <;>
      rcases sideAt_sameWalls h a 2 with ⟨a2, b2⟩ | ⟨s2, t2, a2, b2, r2⟩ <;>
      rcases sideAt_sameWalls h a 3 with ⟨a3, b3⟩ | ⟨s3, t3, a3, b3, r3⟩ <;>
      simp only [a0, b0, a1, b1, a2, b2, a3, b3] <;>
      simp [*]

theorem sameWalls_unblock (walls : Maze) :
    List.Forall₂ (List.Forall₂ (fun s s' : Int => (s = 1 ↔ s' = 1))) walls (unblock walls) := by
  unfold unblock
  rw [List.forall₂_map_right_iff]
  apply List.forall₂_same.mpr
  intro row _
  rw [List.forall₂_map_right_iff]
  apply List.forall₂_same.mpr
  intro s _
  by_cases hs : s = -1
  · simp [hs]
  · simp [hs]

/-- C9: `ValidatePath` gives the same verdict on a grid and on the grid with
every Blocked side replaced by Open; more generally its verdict is the same on
any two grids of the same shape whose sides agree on being Wall (`1`) or not,
so only Wall sides can reject a step. -/
theorem ValidatePath_ignores_blocked (dimension : Int) (walls : Maze) (path : List Int) :
    ValidatePath dimension (unblock walls) path = ValidatePath dimension walls path ∧
    ∀ walls' : Maze,
      List.Forall₂ (List.Forall₂ (fun s s' : Int => (s = 1 ↔ s' = 1))) walls walls' →
      ValidatePath dimension walls' path = ValidatePath dimension walls path := by
  have gen : ∀ walls' : Maze,
      List.Forall₂ (List.Forall₂ (fun s s' : Int => (s = 1 ↔ s' = 1))) walls walls' →
      ValidatePath dimension walls' path = ValidatePath dimension walls path := by
    intro walls' h
    unfold ValidatePath
    cases path with
    | nil => rfl
    | cons first rest =>
      simp only [h.length_eq, validateSteps_sameWalls h]
  exact ⟨gen _ (sameWalls_unblock walls), gen⟩

end MazeSolver

namespace MazeSolver

/-! ## Outcomes -/

theorem Outcome.bind_eq_ok {α β : Type} {o : Outcome α} {f : α → Outcome β} {b : β}
    (h : o.bind f = .ok b) : ∃ a, o = .ok a ∧ f a = .ok b := by
  cases o with
  | ok a => exact ⟨a, rfl, h⟩
  | exit1 => cases h
  | outOfRange => cases h
  | uninitialised => cases h
  | running => cases h

/-! ## Unfolding the loops by one pass -/

theorem backtrackWalk_succ (mazeDimension : Nat) (walls : Maze) (fuel : Nat)
    (directionComingFrom : Option Direction) (currentCell previousCell : Nat) :
    backtrackWalk mazeDimension walls (fuel + 1) directionComingFrom currentCell previousCell =
      match isIntersection currentCell walls with
      | none => .outOfRange
      | some true =>
        match directionComingFrom with
        | none => .uninitialised
        | some d => .ok ⟨d, currentCell⟩
      | some false =>
        (firstMove mazeDimension walls currentCell previousCell).bind
          (fun m => backtrackWalk mazeDimension walls fuel (some m.2) m.1 currentCell) := rfl

theorem fixpointLoop_succ (sched : Nat → Nat → Nat) (mazeDimension walkFuel fuel round : Nat)
    (walls : Maze) (treated deadEnds : List Nat) :
    fixpointLoop sched mazeDimension walkFuel (fuel + 1) round false walls treated deadEnds =
      (loopBody walkFuel (sched round) mazeDimension walls treated deadEnds).bind fun r =>
        fixpointLoop sched mazeDimension walkFuel fuel (round + 1) false
          r.walls r.treated r.deadEnds := rfl

theorem pathWalk_succ (mazeDimension : Nat) (walls : Maze) (fuel cell previous : Nat)
    (path : List Int) :
    pathWalk mazeDimension walls (fuel + 1) cell previous path =
      if cell = lastIndex walls then .ok (path ++ [(lastIndex walls : Int)])
      else
        (firstMove mazeDimension walls cell previous).bind
          (fun m => pathWalk mazeDimension walls fuel m.1 cell (path ++ [(cell : Int)])) := rfl

/-! ## The fixpoint loop has no way out -/

theorem fixpointLoop_ne_ok (sched : Nat → Nat → Nat) (mazeDimension walkFuel fuel round : Nat)
    (walls : Maze) (treated deadEnds : List Nat) (s : Maze × List Nat) :
    fixpointLoop sched mazeDimension walkFuel fuel round false walls treated deadEnds ≠ .ok s := by
  induction fuel generalizing round walls treated deadEnds with
  | zero =>
    intro h
    cases h
  | succ n ih =>
    intro h
    rw [fixpointLoop_succ] at h
    obtain ⟨r, -, hr⟩ := Outcome.bind_eq_ok h
    exact ih _ _ _ _ hr

theorem sqrt_one_cell : Nat.sqrt ([[1, 1, 1, 1]] : Maze).length = 1 := by
  show Nat.sqrt 1 = 1
  exact Nat.sqrt_one

theorem sqrt_grid2x2 : Nat.sqrt grid2x2.length = 2 := by
  show Nat.sqrt (2 * 2) = 2
  exact Nat.sqrt_eq 2

theorem applyOrder_nil (assign : Nat → Nat) : applyOrder assign [] = [] := by
  simp [applyOrder, workerStack]

theorem loopBody_one_cell (walkFuel : Nat) (assign : Nat → Nat) (treated : List Nat) :
    loopBody walkFuel assign 1 [[1, 1, 1, 1]] treated [] =
      .ok ⟨[[1, 1, 1, 1]], treated, [], [], []⟩ := by
  have h1 : findDeadEnds [] treated [[1, 1, 1, 1]] = .ok ([], treated) := rfl
  unfold loopBody
  rw [h1]
  simp only [Outcome.bind, drain, if_true, applyOrder_nil, applyBlocks]

theorem fixpointLoop_one_cell (sched : Nat → Nat → Nat) (walkFuel fuel round : Nat)
    (treated : List Nat) :
    fixpointLoop sched 1 walkFuel fuel round false [[1, 1, 1, 1]] treated [] = .running := by
  induction fuel generalizing round with
  | zero => rfl
  | succ n ih =>
    rw [fixpointLoop_succ, loopBody_one_cell]
    exact ih _

/-- C1: on the 1 x 1 maze, a well-formed perfect maze of dimension 1, the
solver is still inside its fixpoint loop whatever fuel it is given: it never
returns the path `[0]`. -/
theorem SolveMaze_one_cell_runs_forever (fuel : Nat) (sched : Nat → Nat → Nat) :
    SolveMaze fuel sched [[1, 1, 1, 1]] = .running := by
  unfold SolveMaze SolveMazeFrom
  rw [sqrt_one_cell, fixpointLoop_one_cell]
  rfl

/-- C6: the fixpoint loop never stops by itself. For every grid, processed
set, schedule and fuel it is not left with a result, so `SolveMaze` returns no
path; on the 1 x 1 maze the very first scan emits no dead end and the loop
goes on all the same. -/
theorem fixpointLoop_never_stops :
    (∀ (sched : Nat → Nat → Nat) (mazeDimension walkFuel fuel round : Nat) (walls : Maze)
        (treated deadEnds : List Nat) (s : Maze × List Nat),
      fixpointLoop sched mazeDimension walkFuel fuel round false walls treated deadEnds ≠ .ok s) ∧
    (∀ (fuel : Nat) (sched : Nat → Nat → Nat) (treated : List Nat) (walls : Maze)
        (path : List Int), SolveMazeFrom fuel sched treated walls ≠ .ok path) ∧
    findDeadEnds [] [] [[1, 1, 1, 1]] = .ok ([], []) ∧
    (∀ (sched : Nat → Nat → Nat) (walkFuel fuel : Nat),
      fixpointLoop sched 1 walkFuel fuel 0 false [[1, 1, 1, 1]] [] [] = .running) := by
  refine ⟨fixpointLoop_ne_ok, ?_, rfl, fun sched walkFuel fuel =>
    fixpointLoop_one_cell sched walkFuel fuel 0 []⟩
  intro fuel sched treated walls path h
  unfold SolveMazeFrom at h
  obtain ⟨s, hs, -⟩ := Outcome.bind_eq_ok h
  exact fixpointLoop_ne_ok _ _ _ _ _ _ _ _ _ hs

/-! ## The concrete 2 x 2 scenario -/

theorem loopBody_grid2x2 (walkFuel : Nat) (assign : Nat → Nat) :
    loopBody (walkFuel + 1) assign 2 grid2x2 [] [] = .exit1 := by
  have h1 : findDeadEnds [] [] grid2x2 = .ok ([2], [2]) := by decide
  have h2 : backtrackOne (walkFuel + 1) 2 grid2x2 2 = .exit1 := by
    unfold backtrackOne
    rw [backtrackWalk_succ]
    have hi : isIntersection 2 grid2x2 = some false := by decide
    have hm : firstMove 2 grid2x2 2 2 = .exit1 := by decide
    rw [hi]
    simp only [hm, Outcome.bind]
  unfold loopBody
  rw [h1]
  simp only [Outcome.bind, drain, h2]
  rfl

theorem SolveMaze_grid2x2_succ (fuel : Nat) (sched : Nat → Nat → Nat) :
    SolveMaze (fuel + 1) sched grid2x2 = .exit1 := by
  unfold SolveMaze SolveMazeFrom
  rw [sqrt_grid2x2, fixpointLoop_succ, loopBody_grid2x2]
  rfl

/-- C4, as amended: on the 2 x 2 grid with Open edges 0-1 and 1-3 only the
solver ends through `exit(1)` in its first round, under every schedule: the
scan emits cell 2, whose four sides are Wall, and its walk has no move. -/
theorem SolveMaze_grid2x2_exits (fuel : Nat) (sched : Nat → Nat → Nat) :
    findDeadEnds [] [] grid2x2 = .ok ([2], [2]) ∧
    backtrackOne (fuel + 1) 2 grid2x2 2 = .exit1 ∧
    SolveMaze (fuel + 1) sched grid2x2 = .exit1 := by
  refine ⟨by decide, ?_, SolveMaze_grid2x2_succ fuel sched⟩
  unfold backtrackOne
  rw [backtrackWalk_succ]
  have hi : isIntersection 2 grid2x2 = some false := by decide
  have hm : firstMove 2 grid2x2 2 2 = .exit1 := by decide
  rw [hi]
  simp only [hm, Outcome.bind]

/-- C4, counterexample: on that grid no fuel and no schedule make the solver
return `[0, 1, 3]`. -/
theorem SolveMaze_grid2x2_not_path :
    ¬ ∃ (fuel : Nat) (sched : Nat → Nat → Nat), SolveMaze fuel sched grid2x2 = .ok [0, 1, 3] := by
  rintro ⟨fuel, sched, h⟩
  cases fuel with
  | zero => cases h
  | succ n =>
    rw [SolveMaze_grid2x2_succ] at h
    cases h

end MazeSolver

namespace MazeSolver

/-! ## Scheduling: the records and the block applier -/

theorem filter_lt_succ_perm {α : Type} (f : α → Nat) (n : Nat) (l : List α) :
    (l.filter (fun p => f p < n) ++ l.filter (fun p => f p = n)).Perm
      (l.filter (fun p => f p < n + 1)) := by
  induction l with
  | nil => simp
  | cons x l ih =>
    rcases Nat.lt_trichotomy (f x) n with h | h | h
    · have e1 : decide (f x < n) = true := decide_eq_true h
      have e2 : decide (f x = n) = false := decide_eq_false (by omega)
      have e3 : decide (f x < n + 1) = true := decide_eq_true (by omega)
      simp only [List.filter_cons, e1, e2, e3, if_true, Bool.false_eq_true, if_false,
        List.cons_append]
      exact ih.cons x
    · have e1 : decide (f x < n) = false := decide_eq_false (by omega)
      have e2 : decide (f x = n) = true := decide_eq_true h
      have e3 : decide (f x < n + 1) = true := decide_eq_true (by omega)
      simp only [List.filter_cons, e1, e2, e3, if_true, Bool.false_eq_true, if_false]
      exact List.perm_middle.trans (ih.cons x)
    · have e1 : decide (f x < n) = false := decide_eq_false (by omega)
      have e2 : decide (f x = n) = false := decide_eq_false (by omega)
      have e3 : decide (f x < n + 1) = false := decide_eq_false (by omega)
      simp only [List.filter_cons, e1, e2, e3, Bool.false_eq_true, if_false]
      exact ih

theorem flatMap_filter_perm {α β : Type} (f : α → Nat) (g : α → β) (l : List α) (n : Nat) :
    ((List.range n).flatMap (fun w => ((l.filter (fun p => f p = w)).map g).reverse)).Perm
      ((l.filter (fun p => f p < n)).map g) := by
  induction n with
  | zero => simp
  | succ n ih =>
    rw [List.range_succ, List.flatMap_append, List.flatMap_singleton]
    refine ((ih.append (List.reverse_perm _)).trans ?_)
    rw [← List.map_append]
    exact (filter_lt_succ_perm f n l).map g

/-- Whatever the assignment of pops to workers, the block applier meets the
same records, each as often as it was produced. -/
theorem applyOrder_perm (assign : Nat → Nat) (recs : List NewDeadEnd) :
    (applyOrder assign recs).Perm recs := by
  unfold applyOrder workerStack
  have h := flatMap_filter_perm (fun p : Nat × NewDeadEnd => assign p.1 % NUM_THREADS)
    Prod.snd recs.enum NUM_THREADS
  have hall : recs.enum.filter (fun p => assign p.1 % NUM_THREADS < NUM_THREADS) = recs.enum := by
    rw [List.filter_eq_self]
    intro a _
    exact decide_eq_true (Nat.mod_lt _ (by decide))
  rw [hall, List.enum_map_snd] at h
  exact h

theorem setSide_length {walls walls1 : Maze} {cell k : Nat} {v : Int}
    (h : setSide walls cell k v = some walls1) : walls1.length = walls.length := by
  unfold setSide at h
  split at h
  · cases h
  · split at h
    · cases h
      exact List.length_set _ _ _
    · cases h

theorem setSide_comm (walls : Maze) (c1 k1 c2 k2 : Nat) (v : Int) :
    (setSide walls c1 k1 v).bind (fun w => setSide w c2 k2 v) =
      (setSide walls c2 k2 v).bind (fun w => setSide w c1 k1 v) := by
  unfold setSide
  by_cases hc : c1 = c2
  · subst hc
    cases hrow : walls[c1]? with
    | none => simp
    | some row =>
      have hlt : c1 < walls.length := by
        rcases List.getElem?_eq_some.mp hrow with ⟨h, -⟩
        exact h
      by_cases h1 : k1 < row.length <;> by_cases h2 : k2 < row.length <;>
        simp only [h1, h2, if_true, if_false, Option.bind, List.getElem?_set_self hlt,
          List.length_set, List.set_set, Option.some_bind, Option.none_bind]
      by_cases hk : k1 = k2
      · subst hk
        rfl
      · rw [List.set_comm _ _ _ hk]
  · have hc' : c2 ≠ c1 := fun h => hc h.symm
    cases hrow1 : walls[c1]? with
    | none =>
      cases hrow2 : walls[c2]? with
      | none => simp
      | some row2 =>
        by_cases h2 : k2 < row2.length <;>
          simp [h2, List.getElem?_set_ne hc', hrow1]
    | some row1 =>
      cases hrow2 : walls[c2]? with
      | none =>
        by_cases h1 : k1 < row1.length <;>
          simp [h1, List.getElem?_set_ne hc, hrow2]
      | some row2 =>
        by_cases h1 : k1 < row1.length <;> by_cases h2 : k2 < row2.length <;>
          simp [h1, h2, List.getElem?_set_ne hc, List.getElem?_set_ne hc', hrow1, hrow2]
        exact List.set_comm _ _ _ hc

theorem applyBlocks_cons (walls : Maze) (r : NewDeadEnd) (rest : List NewDeadEnd) :
    applyBlocks walls (r :: rest) =
      (setSide walls r.id r.direction.toNat (-1)).bind (fun w => applyBlocks w rest) := by
  rw [applyBlocks]
  cases setSide walls r.id r.direction.toNat (-1) <;> rfl

/-- The grid the block applier leaves does not depend on the order in which
the records are applied. -/
theorem applyBlocks_perm {recs recs' : List NewDeadEnd} (h : recs.Perm recs') (walls : Maze) :
    applyBlocks walls recs = applyBlocks walls recs' := by
  induction h generalizing walls with
  | nil => rfl
  | cons r _ ih =>
    rw [applyBlocks_cons, applyBlocks_cons]
    cases setSide walls r.id r.direction.toNat (-1) with
    | none => rfl
    | some w => exact ih w
  | swap a b l =>
    rw [applyBlocks_cons, applyBlocks_cons]
    have h := setSide_comm walls b.id b.direction.toNat a.id a.direction.toNat (-1)
    cases h1 : setSide walls b.id b.direction.toNat (-1) with
    | none =>
      cases h2 : setSide walls a.id a.direction.toNat (-1) with
      | none => rfl
      | some w2 =>
        rw [h1, h2] at h
        simp only [Option.none_bind, Option.some_bind] at h
        simp only [Option.none_bind, Option.some_bind, applyBlocks_cons, ← h]
    | some w1 =>
      cases h2 : setSide walls a.id a.direction.toNat (-1) with
      | none =>
        rw [h1, h2] at h
        simp only [Option.none_bind, Option.some_bind] at h
        simp only [Option.none_bind, Option.some_bind, applyBlocks_cons, h]
      | some w2 =>
        rw [h1, h2] at h
        simp only [Option.some_bind] at h
        simp only [Option.some_bind, applyBlocks_cons, h]
  | trans _ _ ih1 ih2 => exact (ih1 walls).trans (ih2 walls)

theorem applyBlocks_applyOrder (assign : Nat → Nat) (walls : Maze) (recs : List NewDeadEnd) :
    applyBlocks walls (applyOrder assign recs) = applyBlocks walls recs :=
  applyBlocks_perm (applyOrder_perm assign recs) walls


theorem Outcome.bind_assoc {α β γ : Type} (o : Outcome α) (f : α → Outcome β)
    (g : β → Outcome γ) : (o.bind f).bind g = o.bind (fun a => (f a).bind g) := by
  cases o <;> rfl

/-- What follows a pass of the loop body sees the same thing under every
assignment of pops to workers, as long as it does not look at the order of
the records. -/
theorem loopBody_bind (β : Type) (F : Maze → List Nat → List Nat → List Nat → Outcome β)
    (walkFuel : Nat) (assign : Nat → Nat) (mazeDimension : Nat) (walls : Maze)
    (treated deadEnds : List Nat) :
    (loopBody walkFuel assign mazeDimension walls treated deadEnds).bind
        (fun r => F r.walls r.treated r.deadEnds r.emitted) =
      (findDeadEnds deadEnds treated walls).bind fun found =>
        (drain walkFuel mazeDimension walls found.1 0).bind fun recs =>
          match applyBlocks walls recs with
          | none => .outOfRange
          | some walls1 => F walls1 found.2 [] found.1 := by
  unfold loopBody
  rw [Outcome.bind_assoc]
  congr 1
  funext found
  rw [Outcome.bind_assoc]
  congr 1
  funext recs
  rw [applyBlocks_applyOrder]
  cases applyBlocks walls recs <;> rfl

theorem loopBody_ok_records {walkFuel : Nat} {assign : Nat → Nat} {mazeDimension : Nat}
    {walls : Maze} {treated deadEnds : List Nat} {r : Round}
    (h : loopBody walkFuel assign mazeDimension walls treated deadEnds = .ok r) :
    ∃ recs, drain walkFuel mazeDimension walls r.emitted 0 = .ok recs ∧
      r.records = applyOrder assign recs ∧
      findDeadEnds deadEnds treated walls = .ok (r.emitted, r.treated) ∧
      applyBlocks walls recs = some r.walls ∧ r.deadEnds = [] := by
  unfold loopBody at h
  obtain ⟨found, hf, h⟩ := Outcome.bind_eq_ok h
  obtain ⟨recs, hd, h⟩ := Outcome.bind_eq_ok h
  rw [applyBlocks_applyOrder] at h
  cases ha : applyBlocks walls recs with
  | none =>
    rw [ha] at h
    cases h
  | some walls1 =>
    rw [ha] at h
    cases h
    exact ⟨recs, hd, rfl, hf, ha, rfl⟩

theorem fixpointLoop_sched (sched sched' : Nat → Nat → Nat) (mazeDimension walkFuel fuel : Nat)
    (round : Nat) (walls : Maze) (treated deadEnds : List Nat) :
    fixpointLoop sched mazeDimension walkFuel fuel round false walls treated deadEnds =
      fixpointLoop sched' mazeDimension walkFuel fuel round false walls treated deadEnds := by
  induction fuel generalizing round walls treated deadEnds with
  | zero => rfl
  | succ n ih =>
    rw [fixpointLoop_succ, fixpointLoop_succ]
    rw [loopBody_bind _ (fun w t d _ =>
        fixpointLoop sched mazeDimension walkFuel n (round + 1) false w t d),
      loopBody_bind _ (fun w t d _ =>
        fixpointLoop sched' mazeDimension walkFuel n (round + 1) false w t d)]
    simp only [ih]

/-- C7: worker scheduling does not show in what the solver computes. Under
every assignment of the popped dead ends to the workers the block applier
meets the same records (a permutation of the records in pop order); the grid
it leaves is the same for every order of application; a pass of the loop
body leaves the same grid, processed set and stack and ends the same way;
and `SolveMaze` has the same outcome, path included, under any two schedules. -/
theorem SolveMaze_schedule_independent :
    (∀ (assign : Nat → Nat) (recs : List NewDeadEnd), (applyOrder assign recs).Perm recs) ∧
    (∀ (walls : Maze) (recs recs' : List NewDeadEnd), recs.Perm recs' →
      applyBlocks walls recs = applyBlocks walls recs') ∧
    (∀ (walkFuel : Nat) (assign assign' : Nat → Nat) (mazeDimension : Nat) (walls : Maze)
        (treated deadEnds : List Nat),
      (loopBody walkFuel assign mazeDimension walls treated deadEnds).bind
          (fun r => .ok (r.walls, r.treated, r.deadEnds, r.emitted)) =
        (loopBody walkFuel assign' mazeDimension walls treated deadEnds).bind
          (fun r => .ok (r.walls, r.treated, r.deadEnds, r.emitted)) ∧
      ∀ r r', loopBody walkFuel assign mazeDimension walls treated deadEnds = .ok r →
        loopBody walkFuel assign' mazeDimension walls treated deadEnds = .ok r' →
        r.records.Perm r'.records) ∧
    (∀ (fuel : Nat) (sched sched' : Nat → Nat → Nat) (treated : List Nat) (walls : Maze),
      SolveMazeFrom fuel sched treated walls = SolveMazeFrom fuel sched' treated walls) ∧
    (∀ (fuel : Nat) (sched sched' : Nat → Nat → Nat) (walls : Maze),
      SolveMaze fuel sched walls = SolveMaze fuel sched' walls) := by
  have hfrom : ∀ (fuel : Nat) (sched sched' : Nat → Nat → Nat) (treated : List Nat)
      (walls : Maze),
      SolveMazeFrom fuel sched treated walls = SolveMazeFrom fuel sched' treated walls := by
    intro fuel sched sched' treated walls
    unfold SolveMazeFrom
    rw [fixpointLoop_sched sched sched']
  refine ⟨applyOrder_perm, fun walls recs recs' h => applyBlocks_perm h walls, ?_, hfrom,
    fun fuel sched sched' walls => hfrom fuel sched sched' [] walls⟩
  intro walkFuel assign assign' mazeDimension walls treated deadEnds
  constructor
  · rw [loopBody_bind _ (fun w t d e => Outcome.ok (w, t, d, e)),
      loopBody_bind _ (fun w t d e => Outcome.ok (w, t, d, e))]
  · intro r r' h h'
    obtain ⟨recs, hd, hr, hf, -, -⟩ := loopBody_ok_records h
    obtain ⟨recs', hd', hr', hf', -, -⟩ := loopBody_ok_records h'
    rw [hf] at hf'
    have he : r.emitted = r'.emitted := congrArg Prod.fst (Outcome.ok.inj hf')
    rw [← he, hd] at hd'
    have hrecs : recs = recs' := Outcome.ok.inj hd'
    rw [hr, hr', ← hrecs]
    exact (applyOrder_perm assign recs).trans (applyOrder_perm assign' recs).symm

/-- The order of application itself does depend on the assignment: with one
worker taking both pops the records come out reversed, with two workers in
pop order. -/
theorem applyOrder_two_records (r1 r2 : NewDeadEnd) :
    applyOrder (fun _ => 0) [r1, r2] = [r2, r1] ∧ applyOrder (fun k => k) [r1, r2] = [r1, r2] := by
  constructor <;>
    simp [applyOrder, workerStack, NUM_THREADS, List.range_succ, List.enum, List.enumFrom,
      List.filter_cons]

end MazeSolver

namespace MazeSolver

/-! ## The processed set at the call -/

theorem isDeadEnd_some_lt {walls : Maze} {i : Nat} {b : Bool}
    (h : isDeadEnd walls i = some b) : i < walls.length := by
  by_contra hlt
  have hnone : side walls i 0 = none := by
    unfold side
    rw [List.getElem?_eq_none (by omega)]
  unfold isDeadEnd at h
  rw [hnone] at h
  cases h

theorem lastIndex_le (walls : Maze) (h : 0 < walls.length) :
    lastIndex walls ≤ walls.length - 1 := by
  unfold lastIndex SIZE_RANGE
  omega

theorem findDeadEndsFrom_agree (walls : Maze) (n i : Nat) (stack treated treated' : List Nat)
    (hi : 1 ≤ i) (hb : n ≠ 0 → i + n ≤ lastIndex walls)
    (hag : ∀ j, 1 ≤ j → j + 1 < walls.length → (j ∈ treated ↔ j ∈ treated')) :
    (∃ stack1 treated1 treated1',
        findDeadEndsFrom walls n i stack treated = .ok (stack1, treated1) ∧
        findDeadEndsFrom walls n i stack treated' = .ok (stack1, treated1') ∧
        ∀ j, 1 ≤ j → j + 1 < walls.length → (j ∈ treated1 ↔ j ∈ treated1')) ∨
    (findDeadEndsFrom walls n i stack treated = findDeadEndsFrom walls n i stack treated' ∧
      ∀ p, findDeadEndsFrom walls n i stack treated ≠ .ok p) := by
  induction n generalizing i stack treated treated' with
  | zero => exact Or.inl ⟨stack, treated, treated', rfl, rfl, hag⟩
  | succ n ih =>
    have hb' : n ≠ 0 → i + 1 + n ≤ lastIndex walls := fun _ => by
      have := hb (by omega)
      omega
    unfold findDeadEndsFrom
    cases hde : isDeadEnd walls i with
    | none => exact Or.inr ⟨rfl, fun p h => by cases h⟩
    | some b =>
      have hlt := isDeadEnd_some_lt hde
      have hlast := lastIndex_le walls (by omega)
      have hbn := hb (by omega)
      have hmem : i ∈ treated ↔ i ∈ treated' := hag i hi (by omega)
      cases b with
      | false => exact ih (i + 1) stack treated treated' (by omega) hb' hag
      | true =>
        by_cases hin : i ∈ treated
        · have hin' : i ∈ treated' := hmem.mp hin
          simp only [hin, hin', if_true]
          exact ih (i + 1) stack treated treated' (by omega) hb' hag
        · have hin' : ¬ i ∈ treated' := fun h => hin (hmem.mpr h)
          simp only [hin, hin', if_false]
          refine ih (i + 1) (i :: stack) (i :: treated) (i :: treated') (by omega) hb' ?_
          intro j h1 h2
          simp only [List.mem_cons, hag j h1 h2]

theorem findDeadEnds_agree (walls : Maze) (stack treated treated' : List Nat)
    (hag : ∀ j, 1 ≤ j → j + 1 < walls.length → (j ∈ treated ↔ j ∈ treated')) :
    (∃ stack1 treated1 treated1',
        findDeadEnds stack treated walls = .ok (stack1, treated1) ∧
        findDeadEnds stack treated' walls = .ok (stack1, treated1') ∧
        ∀ j, 1 ≤ j → j + 1 < walls.length → (j ∈ treated1 ↔ j ∈ treated1')) ∨
    (findDeadEnds stack treated walls = findDeadEnds stack treated' walls ∧
      ∀ p, findDeadEnds stack treated walls ≠ .ok p) := by
  unfold findDeadEnds
  exact findDeadEndsFrom_agree walls _ 1 stack treated treated' (le_refl 1)
    (fun h => by omega) hag

theorem applyBlocks_length {walls walls1 : Maze} {recs : List NewDeadEnd}
    (h : applyBlocks walls recs = some walls1) : walls1.length = walls.length := by
  induction recs generalizing walls with
  | nil =>
    cases h
    rfl
  | cons r rest ih =>
    rw [applyBlocks_cons] at h
    cases hs : setSide walls r.id r.direction.toNat (-1) with
    | none =>
      rw [hs] at h
      cases h
    | some w =>
      rw [hs] at h
      rw [ih h, setSide_length hs]

theorem loopBody_length {walkFuel : Nat} {assign : Nat → Nat} {mazeDimension : Nat}
    {walls : Maze} {treated deadEnds : List Nat} {r : Round}
    (h : loopBody walkFuel assign mazeDimension walls treated deadEnds = .ok r) :
    r.walls.length = walls.length := by
  obtain ⟨recs, -, -, -, ha, -⟩ := loopBody_ok_records h
  exact applyBlocks_length ha

/-- A pass of the loop body started from two processed sets with the same
members among the scanned cells `1 .. size - 2`: either both passes end
normally with the same grid, stack and emitted dead ends and with processed
sets that still agree, or both fail in the same way. -/
theorem loopBody_agree (walkFuel : Nat) (assign : Nat → Nat) (mazeDimension : Nat)
    (walls : Maze) (treated treated' deadEnds : List Nat)
    (hag : ∀ j, 1 ≤ j → j + 1 < walls.length → (j ∈ treated ↔ j ∈ treated')) :
    (∃ r r', loopBody walkFuel assign mazeDimension walls treated deadEnds = .ok r ∧
        loopBody walkFuel assign mazeDimension walls treated' deadEnds = .ok r' ∧
        r'.walls = r.walls ∧ r'.deadEnds = r.deadEnds ∧ r'.emitted = r.emitted ∧
        r'.records = r.records ∧
        ∀ j, 1 ≤ j → j + 1 < walls.length → (j ∈ r.treated ↔ j ∈ r'.treated)) ∨
    (∀ (β : Type) (f g : Round → Outcome β),
      (loopBody walkFuel assign mazeDimension walls treated deadEnds).bind f =
        (loopBody walkFuel assign mazeDimension walls treated' deadEnds).bind g) := by
  unfold loopBody
  rcases findDeadEnds_agree walls deadEnds treated treated' hag with
    ⟨stack1, t1, t1', h1, h1', hag1⟩ | ⟨heq, hne⟩
  · rw [h1, h1']
    simp only [Outcome.bind]
    cases hd : drain walkFuel mazeDimension walls stack1 0 with
    | ok recs =>
      simp only [Outcome.bind]
      cases ha : applyBlocks walls (applyOrder assign recs) with
      | none => exact Or.inr (fun _ _ _ => rfl)
      | some walls1 => exact Or.inl ⟨_, _, rfl, rfl, rfl, rfl, rfl, rfl, hag1⟩
    | exit1 => exact Or.inr (fun _ _ _ => rfl)
    | outOfRange => exact Or.inr (fun _ _ _ => rfl)
    | uninitialised => exact Or.inr (fun _ _ _ => rfl)
    | running => exact Or.inr (fun _ _ _ => rfl)
  · right
    intro β f g
    rw [← heq]
    cases hf : findDeadEnds deadEnds treated walls with
    | ok p => exact absurd hf (hne p)
    | exit1 => rfl
    | outOfRange => rfl
    | uninitialised => rfl
    | running => rfl

theorem fixpointLoop_agree (sched : Nat → Nat → Nat) (mazeDimension walkFuel fuel round : Nat)
    (walls : Maze) (treated treated' deadEnds : List Nat)
    (hag : ∀ j, 1 ≤ j → j + 1 < walls.length → (j ∈ treated ↔ j ∈ treated')) :
    fixpointLoop sched mazeDimension walkFuel fuel round false walls treated deadEnds =
      fixpointLoop sched mazeDimension walkFuel fuel round false walls treated' deadEnds := by
  induction fuel generalizing round walls treated treated' deadEnds with
  | zero => rfl
  | succ n ih =>
    rw [fixpointLoop_succ, fixpointLoop_succ]
    rcases loopBody_agree walkFuel (sched round) mazeDimension walls treated treated' deadEnds hag
      with ⟨r, r', h, h', hw, hd, -, -, hag1⟩ | hfail
    · rw [h, h']
      simp only [Outcome.bind]
      rw [hw, hd]
      apply ih
      rw [loopBody_length h]
      exact hag1
    · exact hfail _ _ _

theorem loopBody_grid2x2_treated (walkFuel : Nat) (assign : Nat → Nat) :
    loopBody walkFuel assign 2 grid2x2 [2] [] = .ok ⟨grid2x2, [2], [], [], []⟩ := by
  have h1 : findDeadEnds [] [2] grid2x2 = .ok ([], [2]) := by decide
  unfold loopBody
  rw [h1]
  simp only [Outcome.bind, drain, if_true, applyOrder_nil, applyBlocks]

theorem fixpointLoop_grid2x2_treated (sched : Nat → Nat → Nat) (walkFuel fuel round : Nat) :
    fixpointLoop sched 2 walkFuel fuel round false grid2x2 [2] [] = .running := by
  induction fuel generalizing round with
  | zero => rfl
  | succ n ih =>
    rw [fixpointLoop_succ, loopBody_grid2x2_treated]
    exact ih _

theorem SolveMazeFrom_grid2x2_treated (fuel : Nat) (sched : Nat → Nat → Nat) :
    SolveMazeFrom fuel sched [2] grid2x2 = .running := by
  unfold SolveMazeFrom
  rw [sqrt_grid2x2, fixpointLoop_grid2x2_treated]
  rfl

/-- C8, as amended: `SolveMaze` does not clear the processed set at entry (it
clears it after the loop, line 126), and what it does depends on the set only
through the scanned cells `1 .. size - 2`: started from two contents with the
same members among those cells, every pass of the loop body ends the same way
with the same grid, and the solve has the same outcome. -/
theorem SolveMazeFrom_agree (fuel : Nat) (sched : Nat → Nat → Nat) (walls : Maze)
    (treated treated' : List Nat)
    (hag : ∀ j, 1 ≤ j → j + 1 < walls.length → (j ∈ treated ↔ j ∈ treated')) :
    SolveMazeFrom fuel sched treated walls = SolveMazeFrom fuel sched treated' walls ∧
    ((loopBody fuel (sched 0) (Nat.sqrt walls.length) walls treated []).bind
        (fun r => .ok (r.walls, r.deadEnds, r.emitted, r.records)) =
      (loopBody fuel (sched 0) (Nat.sqrt walls.length) walls treated' []).bind
        (fun r => .ok (r.walls, r.deadEnds, r.emitted, r.records))) := by
  constructor
  · unfold SolveMazeFrom
    rw [fixpointLoop_agree sched _ fuel fuel 0 walls treated treated' [] hag]
  · rcases loopBody_agree fuel (sched 0) (Nat.sqrt walls.length) walls treated treated' [] hag
      with ⟨r, r', h, h', hw, hd, he, hr, -⟩ | hfail
    · rw [h, h']
      simp only [Outcome.bind, hw, hd, he, hr]
    · exact hfail _ _ _

/-- C8, witness: on the 2 x 2 grid the contents `[0]` and `[3, 7]` hold none
of the scanned cells 1 and 2, and the solve ends alike from both. -/
theorem SolveMazeFrom_agree_witness :
    (∀ j, 1 ≤ j → j + 1 < grid2x2.length → (j ∈ [0] ↔ j ∈ [3, 7])) ∧
    SolveMazeFrom 3 (fun _ _ => 0) [0] grid2x2 = SolveMazeFrom 3 (fun _ _ => 0) [3, 7] grid2x2 ∧
    SolveMazeFrom 3 (fun _ _ => 0) [0] grid2x2 = .exit1 := by
  have hag : ∀ j, 1 ≤ j → j + 1 < grid2x2.length → (j ∈ [0] ↔ j ∈ [3, 7]) := by
    intro j h1 h2
    have h3 : j + 1 < 4 := h2
    have hj : j = 1 ∨ j = 2 := by omega
    rcases hj with rfl | rfl <;> simp
  exact ⟨hag, (SolveMazeFrom_agree 3 (fun _ _ => 0) grid2x2 [0] [3, 7] hag).1, by decide⟩

/-- C8, counterexample: on the 2 x 2 grid the solve called with an empty
processed set ends through `exit(1)`, and called while the set holds cell 2 it
stays in its loop for ever; so the outcome is not the same for any two
contents of the set. -/
theorem SolveMazeFrom_depends_on_treated :
    (∀ fuel : Nat, SolveMazeFrom (fuel + 1) (fun _ _ => 0) [] grid2x2 = .exit1) ∧
    (∀ fuel : Nat, SolveMazeFrom fuel (fun _ _ => 0) [2] grid2x2 = .running) ∧
    ¬ (∀ (fuel : Nat) (sched : Nat → Nat → Nat) (walls : Maze) (treated treated' : List Nat),
        SolveMazeFrom fuel sched treated walls = SolveMazeFrom fuel sched treated' walls) := by
  refine ⟨fun fuel => SolveMaze_grid2x2_succ fuel _, fun fuel =>
    SolveMazeFrom_grid2x2_treated fuel _, fun h => ?_⟩
  have h1 := h 1 (fun _ _ => 0) grid2x2 [] [2]
  rw [SolveMazeFrom_grid2x2_treated] at h1
  have h2 : SolveMazeFrom 1 (fun _ _ => 0) [] grid2x2 = .exit1 := SolveMaze_grid2x2_succ 0 _
  rw [h2] at h1
  cases h1

end MazeSolver

namespace MazeSolver

/-! ## Sides of a cell -/

theorem sides_of_lt {W : Maze} (hrows : ∀ row ∈ W, row.length = 4) {c : Nat}
    (hc : c < W.length) :
    ∃ s0 s1 s2 s3, side W c 0 = some s0 ∧ side W c 1 = some s1 ∧ side W c 2 = some s2 ∧
      side W c 3 = some s3 := by
  obtain ⟨s0, h0⟩ := side_eq_some_of_lt W c 0 hc hrows (by omega)
  obtain ⟨s1, h1⟩ := side_eq_some_of_lt W c 1 hc hrows (by omega)
  obtain ⟨s2, h2⟩ := side_eq_some_of_lt W c 2 hc hrows (by omega)
  obtain ⟨s3, h3⟩ := side_eq_some_of_lt W c 3 hc hrows (by omega)
  exact ⟨s0, s1, s2, s3, h0, h1, h2, h3⟩

theorem side_some_lt {W : Maze} {c k : Nat} {s : Int} (h : side W c k = some s) :
    c < W.length := by
  by_contra hlt
  unfold side at h
  rw [List.getElem?_eq_none (by omega)] at h
  cases h

theorem lastIndex_eq {W : Maze} (h0 : 0 < W.length) (hs : W.length < 2147483648) :
    lastIndex W = W.length - 1 := by
  unfold lastIndex SIZE_RANGE
  omega

/-- A cell the scan emits has at most one Open side. -/
theorem isDeadEnd_open_unique {W : Maze} {c k k' : Nat} (hd : isDeadEnd W c = some true)
    (hk : k < 4) (hk' : k' < 4) (h : side W c k = some 0) (h' : side W c k' = some 0) :
    k = k' := by
  unfold isDeadEnd at hd
  cases e0 : side W c 0 with
  | none => rw [e0] at hd; cases hd
  | some s0 =>
    cases e1 : side W c 1 with
    | none => rw [e0, e1] at hd; cases hd
    | some s1 =>
      cases e2 : side W c 2 with
      | none => rw [e0, e1, e2] at hd; cases hd
      | some s2 =>
        cases e3 : side W c 3 with
        | none => rw [e0, e1, e2, e3] at hd; cases hd
        | some s3 =>
          rw [e0, e1, e2, e3] at hd
          simp only [Option.some.injEq, decide_eq_true_eq] at hd
          interval_cases k <;> interval_cases k' <;> first
            | rfl
            | (exfalso
               simp only [e0, e1, e2, e3, Option.some.injEq] at h h'
               subst h
               subst h'
               simp only [ne_eq, not_true_eq_false, if_false] at hd
               split_ifs at hd <;> omega)

end MazeSolver

namespace MazeSolver

theorem isDeadEnd_sides {W : Maze} {c : Nat} {b : Bool} (hd : isDeadEnd W c = some b) :
    ∃ s0 s1 s2 s3, side W c 0 = some s0 ∧ side W c 1 = some s1 ∧ side W c 2 = some s2 ∧
      side W c 3 = some s3 ∧
      b = decide ((if s0 ≠ 0 then 1 else 0) + (if s1 ≠ 0 then 1 else 0)
        + (if s2 ≠ 0 then 1 else 0) + (if s3 ≠ 0 then 1 else 0) > 2) := by
  unfold isDeadEnd at hd
  cases e0 : side W c 0 with
  | none => rw [e0] at hd; cases hd
  | some s0 =>
    cases e1 : side W c 1 with
    | none => rw [e0, e1] at hd; cases hd
    | some s1 =>
      cases e2 : side W c 2 with
      | none => rw [e0, e1, e2] at hd; cases hd
      | some s2 =>
        cases e3 : side W c 3 with
        | none => rw [e0, e1, e2, e3] at hd; cases hd
        | some s3 =>
          rw [e0, e1, e2, e3] at hd
          exact ⟨s0, s1, s2, s3, rfl, rfl, rfl, rfl, (Option.some.inj hd).symm⟩

theorem isIntersection_false_sides {W : Maze} {c : Nat}
    (hi : isIntersection c W = some false) :
    c ≠ 0 ∧ c ≠ lastIndex W ∧
    ∃ s0 s1 s2 s3, side W c 0 = some s0 ∧ side W c 1 = some s1 ∧ side W c 2 = some s2 ∧
      side W c 3 = some s3 ∧
      ¬ ((if s0 = 0 then 1 else 0) + (if s1 = 0 then 1 else 0)
        + (if s2 = 0 then 1 else 0) + (if s3 = 0 then 1 else 0) > 2) := by
  unfold isIntersection at hi
  by_cases h : c = 0 ∨ c = lastIndex W
  · rw [if_pos h] at hi
    cases hi
  · rw [if_neg h] at hi
    rw [not_or] at h
    refine ⟨h.1, h.2, ?_⟩
    cases e0 : side W c 0 with
    | none => rw [e0] at hi; cases hi
    | some s0 =>
      cases e1 : side W c 1 with
      | none => rw [e0, e1] at hi; cases hi
      | some s1 =>
        cases e2 : side W c 2 with
        | none => rw [e0, e1, e2] at hi; cases hi
        | some s2 =>
          cases e3 : side W c 3 with
          | none => rw [e0, e1, e2, e3] at hi; cases hi
          | some s3 =>
            rw [e0, e1, e2, e3] at hi
            refine ⟨s0, s1, s2, s3, rfl, rfl, rfl, rfl, ?_⟩
            exact of_decide_eq_false (Option.some.inj hi)

/-- A cell that is not an intersection has at most two Open sides. -/
theorem isIntersection_open_two {W : Maze} {c k1 k2 k3 : Nat}
    (hi : isIntersection c W = some false) (hk1 : k1 < 4) (hk2 : k2 < 4) (hk3 : k3 < 4)
    (h1 : side W c k1 = some 0) (h2 : side W c k2 = some 0) (h3 : side W c k3 = some 0)
    (hne : k1 ≠ k2) : k3 = k1 ∨ k3 = k2 := by
  obtain ⟨-, -, s0, s1, s2, s3, e0, e1, e2, e3, hcount⟩ := isIntersection_false_sides hi
  interval_cases k1 <;> interval_cases k2 <;> interval_cases k3 <;> first
    | exact Or.inl rfl
    | exact Or.inr rfl
    | exact absurd rfl hne
    | (exfalso
       simp only [e0, e1, e2, e3, Option.some.injEq] at h1 h2 h3
       subst h1
       subst h2
       subst h3
       simp only [if_true] at hcount
       split_ifs at hcount <;> omega)

/-- Two different Open sides keep a cell off the scan. -/
theorem isDeadEnd_false_of_two {W : Maze} {c k1 k2 : Nat} {b : Bool}
    (hd : isDeadEnd W c = some b) (hk1 : k1 < 4) (hk2 : k2 < 4)
    (h1 : side W c k1 = some 0) (h2 : side W c k2 = some 0) (hne : k1 ≠ k2) :
    b = false := by
  obtain ⟨s0, s1, s2, s3, e0, e1, e2, e3, hb⟩ := isDeadEnd_sides hd
  rw [hb]
  apply decide_eq_false
  interval_cases k1 <;> interval_cases k2 <;> first
    | exact absurd rfl hne
    | (simp only [e0, e1, e2, e3, Option.some.injEq] at h1 h2
       subst h1
       subst h2
       simp only [ne_eq, not_true_eq_false, if_false]
       split_ifs <;> omega)

/-- A cell the scan emits is not an intersection. -/
theorem isIntersection_of_isDeadEnd {W : Maze} {c : Nat} (hd : isDeadEnd W c = some true)
    (h1 : 1 ≤ c) (h2 : c + 1 < W.length) (hs : W.length < 2147483648) :
    isIntersection c W = some false := by
  obtain ⟨s0, s1, s2, s3, e0, e1, e2, e3, hb⟩ := isDeadEnd_sides hd
  have hl := lastIndex_eq (W := W) (by omega) hs
  unfold isIntersection
  have hne : ¬ (c = 0 ∨ c = lastIndex W) := by
    rw [hl]
    omega
  rw [if_neg hne, e0, e1, e2, e3]
  have hb' := of_decide_eq_true hb.symm
  simp only [Option.some.injEq, decide_eq_false_iff_not]
  split_ifs at hb' ⊢ <;> omega

theorem isIntersection_some_of_lt {W : Maze} (hrows : ∀ row ∈ W, row.length = 4) {c : Nat}
    (hc : c < W.length) : ∃ b, isIntersection c W = some b := by
  obtain ⟨s0, s1, s2, s3, e0, e1, e2, e3⟩ := sides_of_lt hrows hc
  unfold isIntersection
  rw [e0, e1, e2, e3]
  split_ifs <;> exact ⟨_, rfl⟩

/-! ## The move tests -/

theorem target_zero (N c : Nat) : target N c 0 = usub c 1 := by
  unfold target
  exact if_pos rfl

theorem target_one (N c : Nat) : target N c 1 = usub c N := by
  unfold target
  rw [if_neg (by decide), if_pos rfl]

theorem target_two (N c : Nat) : target N c 2 = uadd c 1 := by
  unfold target
  rw [if_neg (by decide), if_neg (by decide), if_pos rfl]

theorem target_three (N c : Nat) : target N c 3 = uadd c N := by
  unfold target
  rw [if_neg (by decide), if_neg (by decide), if_neg (by decide)]

theorem firstMove_none0 {N : Nat} {W : Maze} {c p : Nat} (e0 : side W c 0 = none) :
    firstMove N W c p = .outOfRange := by
  unfold firstMove
  rw [e0]

theorem firstMove_take0 {N : Nat} {W : Maze} {c p : Nat} {s0 : Int}
    (e0 : side W c 0 = some s0) (c0 : s0 = 0 ∧ p ≠ usub c 1) :
    firstMove N W c p = .ok (usub c 1, .RIGHT) := by
  unfold firstMove
  rw [e0]
  exact if_pos c0

theorem firstMove_none1 {N : Nat} {W : Maze} {c p : Nat} {s0 : Int}
    (e0 : side W c 0 = some s0) (c0 : ¬ (s0 = 0 ∧ p ≠ usub c 1)) (e1 : side W c 1 = none) :
    firstMove N W c p = .outOfRange := by
  unfold firstMove
  rw [e0]
  simp only
  rw [if_neg c0, e1]

theorem firstMove_take1 {N : Nat} {W : Maze} {c p : Nat} {s0 s1 : Int}
    (e0 : side W c 0 = some s0) (c0 : ¬ (s0 = 0 ∧ p ≠ usub c 1))
    (e1 : side W c 1 = some s1) (c1 : s1 = 0 ∧ p ≠ usub c N) :
    firstMove N W c p = .ok (usub c N, .DOWN) := by
  unfold firstMove
  rw [e0]
  simp only
  rw [if_neg c0, e1]
  exact if_pos c1

theorem firstMove_none2 {N : Nat} {W : Maze} {c p : Nat} {s0 s1 : Int}
    (e0 : side W c 0 = some s0) (c0 : ¬ (s0 = 0 ∧ p ≠ usub c 1))
    (e1 : side W c 1 = some s1) (c1 : ¬ (s1 = 0 ∧ p ≠ usub c N))
    (e2 : side W c 2 = none) : firstMove N W c p = .outOfRange := by
  unfold firstMove
  rw [e0]
  simp only
  rw [if_neg c0, e1]
  simp only
  rw [if_neg c1, e2]

theorem firstMove_take2 {N : Nat} {W : Maze} {c p : Nat} {s0 s1 s2 : Int}
    (e0 : side W c 0 = some s0) (c0 : ¬ (s0 = 0 ∧ p ≠ usub c 1))
    (e1 : side W c 1 = some s1) (c1 : ¬ (s1 = 0 ∧ p ≠ usub c N))
    (e2 : side W c 2 = some s2) (c2 : s2 = 0 ∧ p ≠ uadd c 1) :
    firstMove N W c p = .ok (uadd c 1, .LEFT) := by
  unfold firstMove
  rw [e0]
  simp only
  rw [if_neg c0, e1]
  simp only
  rw [if_neg c1, e2]
  exact if_pos c2

theorem firstMove_none3 {N : Nat} {W : Maze} {c p : Nat} {s0 s1 s2 : Int}
    (e0 : side W c 0 = some s0) (c0 : ¬ (s0 = 0 ∧ p ≠ usub c 1))
    (e1 : side W c 1 = some s1) (c1 : ¬ (s1 = 0 ∧ p ≠ usub c N))
    (e2 : side W c 2 = some s2) (c2 : ¬ (s2 = 0 ∧ p ≠ uadd c 1))
    (e3 : side W c 3 = none) : firstMove N W c p = .outOfRange := by
  unfold firstMove
  rw [e0]
  simp only
  rw [if_neg c0, e1]
  simp only
  rw [if_neg c1, e2]
  simp only
  rw [if_neg c2, e3]

theorem firstMove_take3 {N : Nat} {W : Maze} {c p : Nat} {s0 s1 s2 s3 : Int}
    (e0 : side W c 0 = some s0) (c0 : ¬ (s0 = 0 ∧ p ≠ usub c 1))
    (e1 : side W c 1 = some s1) (c1 : ¬ (s1 = 0 ∧ p ≠ usub c N))
    (e2 : side W c 2 = some s2) (c2 : ¬ (s2 = 0 ∧ p ≠ uadd c 1))
    (e3 : side W c 3 = some s3) (c3 : s3 = 0 ∧ p ≠ uadd c N) :
    firstMove N W c p = .ok (uadd c N, .UP) := by
  unfold firstMove
  rw [e0]
  simp only
  rw [if_neg c0, e1]
  simp only
  rw [if_neg c1, e2]
  simp only
  rw [if_neg c2, e3]
  exact if_pos c3

theorem firstMove_stuck {N : Nat} {W : Maze} {c p : Nat} {s0 s1 s2 s3 : Int}
    (e0 : side W c 0 = some s0) (c0 : ¬ (s0 = 0 ∧ p ≠ usub c 1))
    (e1 : side W c 1 = some s1) (c1 : ¬ (s1 = 0 ∧ p ≠ usub c N))
    (e2 : side W c 2 = some s2) (c2 : ¬ (s2 = 0 ∧ p ≠ uadd c 1))
    (e3 : side W c 3 = some s3) (c3 : ¬ (s3 = 0 ∧ p ≠ uadd c N)) :
    firstMove N W c p = .exit1 := by
  unfold firstMove
  rw [e0]
  simp only
  rw [if_neg c0, e1]
  simp only
  rw [if_neg c1, e2]
  simp only
  rw [if_neg c2, e3]
  exact if_neg c3

/-- The ways `firstMove` can end, with the side test that decides each. -/
theorem firstMove_cases (N : Nat) (W : Maze) (c p : Nat) :
    firstMove N W c p = .outOfRange ∨
    (∃ k, k < 4 ∧ side W c k = some 0 ∧ p ≠ target N c k ∧
      ∃ d : Direction, d.toNat = opposite k ∧ firstMove N W c p = .ok (target N c k, d)) ∨
    (firstMove N W c p = .exit1 ∧ ∀ k, k < 4 → side W c k = some 0 → p = target N c k) := by
  cases e0 : side W c 0 with
  | none => exact Or.inl (firstMove_none0 e0)
  | some s0 =>
    by_cases c0 : s0 = 0 ∧ p ≠ usub c 1
    · exact Or.inr (Or.inl ⟨0, by omega, by rw [e0, c0.1], by rw [target_zero]; exact c0.2,
        .RIGHT, rfl, by rw [target_zero]; exact firstMove_take0 e0 c0⟩)
    · cases e1 : side W c 1 with
      | none => exact Or.inl (firstMove_none1 e0 c0 e1)
      | some s1 =>
        by_cases c1 : s1 = 0 ∧ p ≠ usub c N
        · exact Or.inr (Or.inl ⟨1, by omega, by rw [e1, c1.1], by rw [target_one]; exact c1.2,
            .DOWN, rfl, by rw [target_one]; exact firstMove_take1 e0 c0 e1 c1⟩)
        · cases e2 : side W c 2 with
          | none => exact Or.inl (firstMove_none2 e0 c0 e1 c1 e2)
          | some s2 =>
            by_cases c2 : s2 = 0 ∧ p ≠ uadd c 1
            · exact Or.inr (Or.inl ⟨2, by omega, by rw [e2, c2.1],
                by rw [target_two]; exact c2.2, .LEFT, rfl,
                by rw [target_two]; exact firstMove_take2 e0 c0 e1 c1 e2 c2⟩)
            · cases e3 : side W c 3 with
              | none => exact Or.inl (firstMove_none3 e0 c0 e1 c1 e2 c2 e3)
              | some s3 =>
                by_cases c3 : s3 = 0 ∧ p ≠ uadd c N
                · exact Or.inr (Or.inl ⟨3, by omega, by rw [e3, c3.1],
                    by rw [target_three]; exact c3.2, .UP, rfl,
                    by rw [target_three]; exact firstMove_take3 e0 c0 e1 c1 e2 c2 e3 c3⟩)
                · refine Or.inr (Or.inr ⟨firstMove_stuck e0 c0 e1 c1 e2 c2 e3 c3, ?_⟩)
                  intro k hk hside
                  rw [not_and, not_not] at c0 c1 c2 c3
                  interval_cases k
                  · rw [e0] at hside
                    rw [target_zero]
                    exact c0 (Option.some.inj hside)
                  · rw [e1] at hside
                    rw [target_one]
                    exact c1 (Option.some.inj hside)
                  · rw [e2] at hside
                    rw [target_two]
                    exact c2 (Option.some.inj hside)
                  · rw [e3] at hside
                    rw [target_three]
                    exact c3 (Option.some.inj hside)

theorem firstMove_ok {N : Nat} {W : Maze} {c p m : Nat} {d : Direction}
    (h : firstMove N W c p = .ok (m, d)) :
    ∃ k, k < 4 ∧ side W c k = some 0 ∧ m = target N c k ∧ d.toNat = opposite k ∧ p ≠ m := by
  rcases firstMove_cases N W c p with h1 | ⟨k, hk, hside, hp, d', hd', h1⟩ | ⟨h1, -⟩
  · rw [h1] at h
    cases h
  · rw [h1] at h
    have e := Outcome.ok.inj h
    have e1 : target N c k = m := congrArg Prod.fst e
    have e2 : d' = d := congrArg Prod.snd e
    rw [← e1, ← e2]
    exact ⟨k, hk, hside, rfl, hd', hp⟩
  · rw [h1] at h
    cases h

theorem firstMove_exit1 {N : Nat} {W : Maze} {c p : Nat} (h : firstMove N W c p = .exit1) :
    ∀ k, k < 4 → side W c k = some 0 → p = target N c k := by
  rcases firstMove_cases N W c p with h1 | ⟨k, hk, hside, hp, d', hd', h1⟩ | ⟨-, h2⟩
  · rw [h1] at h
    cases h
  · rw [h1] at h
    cases h
  · exact h2

theorem firstMove_total {N : Nat} {W : Maze} {c : Nat} (p : Nat)
    (hrows : ∀ row ∈ W, row.length = 4) (hc : c < W.length) :
    firstMove N W c p = .exit1 ∨ ∃ m d, firstMove N W c p = .ok (m, d) := by
  rcases firstMove_cases N W c p with h1 | ⟨k, -, -, -, d, -, h1⟩ | ⟨h1, -⟩
  · exfalso
    obtain ⟨s0, s1, s2, s3, e0, e1, e2, e3⟩ := sides_of_lt hrows hc
    by_cases c0 : s0 = 0 ∧ p ≠ usub c 1
    · rw [firstMove_take0 e0 c0] at h1
      cases h1
    · by_cases c1 : s1 = 0 ∧ p ≠ usub c N
      · rw [firstMove_take1 e0 c0 e1 c1] at h1
        cases h1
      · by_cases c2 : s2 = 0 ∧ p ≠ uadd c 1
        · rw [firstMove_take2 e0 c0 e1 c1 e2 c2] at h1
          cases h1
        · by_cases c3 : s3 = 0 ∧ p ≠ uadd c N
          · rw [firstMove_take3 e0 c0 e1 c1 e2 c2 e3 c3] at h1
            cases h1
          · rw [firstMove_stuck e0 c0 e1 c1 e2 c2 e3 c3] at h1
            cases h1
  · exact Or.inr ⟨_, _, h1⟩
  · exact Or.inl h1

end MazeSolver

namespace MazeSolver

/-! ## Moves without wrap-around -/

theorem opposite_lt (k : Nat) : opposite k < 4 := by
  unfold opposite
  split <;> omega

theorem opposite_opposite {k : Nat} (hk : k < 4) : opposite (opposite k) = k := by
  interval_cases k <;> rfl

theorem Direction_toNat_lt (d : Direction) : d.toNat < 4 := by
  cases d <;> decide

theorem Direction_toNat_inj {d d' : Direction} (h : d.toNat = d'.toNat) : d = d' := by
  cases d <;> cases d' <;> first | rfl | cases h

/-- A grid that meets the input contract satisfies the loop invariant with
every cell of the grid alive, whatever the processed set holds. -/
theorem LoopInv_of_consistent {N : Nat} {W : Maze} (h : Consistent N W) (P : List Nat) :
    LoopInv N W P (fun c => c < W.length) := by
  obtain ⟨hsize, hsmall, hrows, hcons⟩ := h
  refine ⟨hrows, hsmall, ?_, ?_⟩
  · intro c hc
    have hN : 1 ≤ N := by
      rcases Nat.eq_zero_or_pos N with h0 | h0
      · subst h0
        simp only [Nat.mul_zero] at hsize
        omega
      · exact h0
    have hNle : N ≤ W.length := by
      rw [hsize]
      exact Nat.le_mul_self N
    obtain ⟨c0, c1, c2, c3⟩ := hcons c hc
    refine ⟨hc, ?_⟩
    intro k hk hopen
    interval_cases k
    · obtain ⟨h1, h2⟩ := c0 hopen
      have e : target N c 0 = c - 1 := by
        rw [target_zero]
        unfold usub UINT_RANGE
        omega
      have e' : target N (c - 1) 2 = c := by
        rw [target_two]
        unfold uadd UINT_RANGE
        omega
      rw [e]
      exact ⟨by omega, by omega, by omega, h2, e'⟩
    · obtain ⟨h1, h2⟩ := c1 hopen
      have e : target N c 1 = c - N := by
        rw [target_one]
        unfold usub UINT_RANGE
        omega
      have e' : target N (c - N) 3 = c := by
        rw [target_three]
        unfold uadd UINT_RANGE
        omega
      rw [e]
      exact ⟨by omega, by omega, by omega, h2, e'⟩
    · obtain ⟨h1, h2⟩ := c2 hopen
      have e : target N c 2 = c + 1 := by
        rw [target_two]
        unfold uadd UINT_RANGE
        omega
      have e' : target N (c + 1) 0 = c := by
        rw [target_zero]
        unfold usub UINT_RANGE
        omega
      rw [e]
      exact ⟨h1, by omega, h1, h2, e'⟩
    · obtain ⟨h1, h2⟩ := c3 hopen
      have e : target N c 3 = c + N := by
        rw [target_three]
        unfold uadd UINT_RANGE
        omega
      have e' : target N (c + N) 1 = c := by
        rw [target_one]
        unfold usub UINT_RANGE
        omega
      rw [e]
      exact ⟨h1, by omega, h1, h2, e'⟩
  · intro c hc h1 h2 _
    exact absurd (by omega) hc

/-! ## The cells a walk leaves behind -/

theorem TraceOK_tail {N : Nat} {W : Maze} {A : Nat → Prop} {x : Nat × Nat}
    {tr : List (Nat × Nat)} (h : TraceOK N W A (x :: tr)) : TraceOK N W A tr := by
  cases tr with
  | nil => trivial
  | cons y rest =>
    obtain ⟨v, km⟩ := x
    obtain ⟨p, kp⟩ := y
    exact h.2.2.2.2.2.2.2.2

theorem TraceOK_head {N : Nat} {W : Maze} {A : Nat → Prop} {v km : Nat}
    {tr : List (Nat × Nat)} (h : TraceOK N W A ((v, km) :: tr)) :
    A v ∧ isIntersection v W = some false ∧ km < 4 ∧ side W v km = some 0 := by
  cases tr with
  | nil => exact ⟨h.1, h.2.1, h.2.2.2.2.2.1, h.2.2.2.2.2.2.1⟩
  | cons y rest =>
    obtain ⟨p, kp⟩ := y
    exact ⟨h.1, h.2.1, h.2.2.2.1, h.2.2.2.2.1⟩

theorem TraceOK_mem {N : Nat} {W : Maze} {A : Nat → Prop} {tr : List (Nat × Nat)}
    (h : TraceOK N W A tr) {v kv : Nat} (hm : (v, kv) ∈ tr) :
    A v ∧ isIntersection v W = some false ∧ kv < 4 ∧ side W v kv = some 0 := by
  induction tr with
  | nil => cases hm
  | cons x rest ih =>
    rcases List.mem_cons.mp hm with e | e
    · subst e
      exact TraceOK_head h
    · exact ih (TraceOK_tail h) e

/-- An Open side of a cell left behind leads to another cell left behind,
unless the cell is the last one left and the side is the one it was left
through. -/
theorem TraceOK_open {N : Nat} {W : Maze} {P : List Nat} {A : Nat → Prop}
    (inv : LoopInv N W P A) {tr : List (Nat × Nat)} (h : TraceOK N W A tr) {v kv : Nat}
    (hm : (v, kv) ∈ tr) {k : Nat} (hk : k < 4) (hopen : side W v k = some 0) :
    target N v k ∈ tr.map Prod.fst ∨ (tr.head? = some (v, kv) ∧ k = kv) := by
  induction tr with
  | nil => cases hm
  | cons x rest ih =>
    obtain ⟨x1, x2⟩ := x
    cases rest with
    | nil =>
      have e : (v, kv) = (x1, x2) := by simpa using hm
      cases e
      right
      exact ⟨rfl, h.2.2.2.2.2.2.2 k hk hopen⟩
    | cons y rest' =>
      obtain ⟨p, kp⟩ := y
      obtain ⟨hA, hI, hD, hkm, hside, hv, hkp, hall, hrest⟩ := h
      have hp := TraceOK_head hrest
      have hsp := (inv.sound p hp.1).2 kp hkp hp.2.2.2
      rcases List.mem_cons.mp hm with e | e
      · cases e
        rcases hall k hk hopen with e1 | e1
        · right
          exact ⟨rfl, e1⟩
        · left
          rw [e1, hv, hsp.2.2.2.2]
          simp
      · rcases ih hrest e with h1 | ⟨h1, h2⟩
        · left
          exact List.mem_cons_of_mem _ h1
        · left
          simp only [List.head?_cons, Option.some.injEq, Prod.mk.injEq] at h1
          have e : target N v k = x1 := by rw [h2, ← h1.1, ← h1.2, hv]
          rw [e]
          simp

theorem length_le_of_nodup_lt {l : List Nat} {n : Nat} (hnd : l.Nodup) (hlt : ∀ x ∈ l, x < n) :
    l.length ≤ n := by
  have h1 : l.toFinset ⊆ Finset.range n := by
    intro x hx
    rw [List.mem_toFinset] at hx
    rw [Finset.mem_range]
    exact hlt x hx
  have h2 := Finset.card_le_card h1
  rw [List.toFinset_card_of_nodup hnd, Finset.card_range] at h2
  exact h2

end MazeSolver

namespace MazeSolver

/-! ## One move of a backtrack walk -/

theorem WalkInv_lt {N : Nat} {W : Maze} {P : List Nat} {A : Nat → Prop}
    (inv : LoopInv N W P A) {tr : List (Nat × Nat)} {dir : Option Direction} {cur prev : Nat}
    (w : WalkInv N W A tr dir cur prev) : ∀ x ∈ cur :: tr.map Prod.fst, x < W.length := by
  intro x hx
  rcases List.mem_cons.mp hx with e | e
  · rw [e]
    exact (inv.sound cur w.alive).1
  · obtain ⟨⟨v, kv⟩, hv, rfl⟩ := List.mem_map.mp e
    exact (inv.sound v (TraceOK_mem w.trace hv).1).1

/-- A move of the walk from a cell that is not an intersection keeps the walk
invariant: the cell moved to is alive, it was not visited before, and the cell
left has exactly the Open sides the trace records. -/
theorem WalkInv_step {N : Nat} {W : Maze} {P : List Nat} {A : Nat → Prop}
    (inv : LoopInv N W P A) {tr : List (Nat × Nat)} {dir : Option Direction} {cur prev : Nat}
    (w : WalkInv N W A tr dir cur prev) (hi : isIntersection cur W = some false)
    {m : Nat} {d : Direction} (hm : firstMove N W cur prev = .ok (m, d)) :
    ∃ k, WalkInv N W A ((cur, k) :: tr) (some d) m cur := by
  obtain ⟨k, hk, hopen, hmk, hdk, hpm⟩ := firstMove_ok hm
  obtain ⟨hcur, hsound⟩ := inv.sound cur w.alive
  obtain ⟨hmlt, hmne, hmA, hback, hret⟩ := hsound k hk hopen
  rw [← hmk] at hmlt hmne hmA hback hret
  refine ⟨k, ⟨?_, ?_, ?_, hmA⟩⟩
  · exact ⟨rfl, hmk, d, rfl, hdk⟩
  · cases tr with
    | nil =>
      obtain ⟨-, -, -, hde, h1, h2⟩ := w.pos
      exact ⟨w.alive, hi, hde, h1, h2, hk, hopen,
        fun k' hk' hopen' => isDeadEnd_open_unique hde hk' hk hopen' hopen⟩
    | cons y rest =>
      obtain ⟨p, kp⟩ := y
      obtain ⟨hprev, hcurp, d0, -, -⟩ := w.pos
      have hp := TraceOK_head w.trace
      have hsp := (inv.sound p hp.1).2 kp hp.2.2.1 hp.2.2.2
      rw [← hcurp] at hsp
      have hkne : k ≠ opposite kp := by
        intro e
        apply hpm
        rw [hprev, hmk, e, hsp.2.2.2.2]
      obtain ⟨b, hb⟩ : ∃ b, isDeadEnd W cur = some b := by
        obtain ⟨s0, s1, s2, s3, e0, e1, e2, e3⟩ := sides_of_lt inv.rows hcur
        unfold isDeadEnd
        rw [e0, e1, e2, e3]
        exact ⟨_, rfl⟩
      have hbf := isDeadEnd_false_of_two hb hk (opposite_lt kp) hopen hsp.2.2.2.1 hkne
      rw [hbf] at hb
      exact ⟨w.alive, hi, hb, hk, hopen, hcurp, hp.2.2.1,
        fun k' hk' hopen' =>
          isIntersection_open_two hi hk (opposite_lt kp) hk' hopen hsp.2.2.2.1 hopen' hkne,
        w.trace⟩
  · have hnd := w.nodup
    rw [List.nodup_cons] at hnd
    simp only [List.map_cons, List.nodup_cons, List.mem_cons, not_or]
    refine ⟨⟨hmne, ?_⟩, hnd.1, hnd.2⟩
    intro hmem
    obtain ⟨⟨v, kv⟩, hv, hv1⟩ := List.mem_map.mp hmem
    simp only at hv1
    subst hv1
    rcases TraceOK_open inv w.trace hv (opposite_lt k) hback with h1 | ⟨h1, -⟩
    · rw [hret] at h1
      exact hnd.1 h1
    · cases tr with
      | nil => cases hv
      | cons y rest =>
        obtain ⟨p, kp⟩ := y
        simp only [List.head?_cons, Option.some.injEq, Prod.mk.injEq] at h1
        apply hpm
        rw [w.pos.1, h1.1]

/-! ## A whole backtrack walk -/

/-- A walk that ends with a record stood at an intersection that is alive,
after at least one move; the record names the side of that intersection that
faces the last cell left, and this side is Open. -/
theorem backtrackWalk_ok {N : Nat} {W : Maze} {P : List Nat} {A : Nat → Prop}
    (inv : LoopInv N W P A) (fuel : Nat) {tr : List (Nat × Nat)} {dir : Option Direction}
    {cur prev : Nat} (w : WalkInv N W A tr dir cur prev) {r : NewDeadEnd}
    (h : backtrackWalk N W fuel dir cur prev = .ok r) :
    ∃ v kv rest pre, WalkInv N W A ((v, kv) :: rest) (some r.direction) r.id v ∧
      (v, kv) :: rest = pre ++ tr ∧ isIntersection r.id W = some true := by
  induction fuel generalizing tr dir cur prev with
  | zero => cases h
  | succ n ih =>
    rw [backtrackWalk_succ] at h
    cases hi : isIntersection cur W with
    | none =>
      rw [hi] at h
      cases h
    | some b =>
      rw [hi] at h
      cases b with
      | true =>
        cases dir with
        | none => cases h
        | some d =>
          simp only at h
          have hr := Outcome.ok.inj h
          subst hr
          cases tr with
          | nil =>
            obtain ⟨hd, -⟩ := w.pos
            cases hd
          | cons y rest =>
            obtain ⟨p, kp⟩ := y
            have hprev : prev = p := w.pos.1
            subst hprev
            exact ⟨prev, kp, rest, [], w, rfl, hi⟩
      | false =>
        simp only at h
        obtain ⟨⟨m, d⟩, hm, hrest⟩ := Outcome.bind_eq_ok h
        obtain ⟨k, w'⟩ := WalkInv_step inv w hi hm
        obtain ⟨v, kv, rest, pre, w'', hpre, hint⟩ := ih w' hrest
        exact ⟨v, kv, rest, pre ++ [(cur, k)], w'', by simpa using hpre, hint⟩

/-- A walk never runs out of fuel that exceeds the number of cells: it ends
with a record or through `exit(1)`. -/
theorem backtrackWalk_terminates {N : Nat} {W : Maze} {P : List Nat} {A : Nat → Prop}
    (inv : LoopInv N W P A) (fuel : Nat) {tr : List (Nat × Nat)} {dir : Option Direction}
    {cur prev : Nat} (w : WalkInv N W A tr dir cur prev) (hfuel : W.length < tr.length + fuel) :
    (∃ r, backtrackWalk N W fuel dir cur prev = .ok r) ∨
      backtrackWalk N W fuel dir cur prev = .exit1 := by
  induction fuel generalizing tr dir cur prev with
  | zero =>
    have h := length_le_of_nodup_lt w.nodup (WalkInv_lt inv w)
    simp only [List.length_cons, List.length_map] at h
    omega
  | succ n ih =>
    rw [backtrackWalk_succ]
    have hcur := (inv.sound cur w.alive).1
    obtain ⟨b, hi⟩ := isIntersection_some_of_lt inv.rows hcur
    rw [hi]
    cases b with
    | true =>
      cases tr with
      | nil =>
        obtain ⟨-, -, -, hde, h1, h2⟩ := w.pos
        rw [isIntersection_of_isDeadEnd hde h1 h2 inv.small] at hi
        cases hi
      | cons y rest =>
        obtain ⟨p, kp⟩ := y
        obtain ⟨-, -, d, hd, -⟩ := w.pos
        subst hd
        exact Or.inl ⟨_, rfl⟩
    | false =>
      simp only
      rcases firstMove_total prev inv.rows hcur with he | ⟨m, d, hm⟩
      · right
        rw [he]
        rfl
      · rw [hm]
        simp only [Outcome.bind]
        obtain ⟨k, w'⟩ := WalkInv_step inv w hi hm
        exact ih w' (by simp only [List.length_cons]; omega)

end MazeSolver

namespace MazeSolver

/-! ## What the scan emits -/

theorem isDeadEnd_some_of_lt {W : Maze} (hrows : ∀ row ∈ W, row.length = 4) {c : Nat}
    (hc : c < W.length) : ∃ b, isDeadEnd W c = some b := by
  obtain ⟨s0, s1, s2, s3, e0, e1, e2, e3⟩ := sides_of_lt hrows hc
  unfold isDeadEnd
  rw [e0, e1, e2, e3]
  exact ⟨_, rfl⟩

/-- On a grid of four-sided cells the scan of the cells `i .. i + n - 1` ends
normally; it pushes exactly the scanned cells with more than two sides not
Open that are not in the processed set, and adds exactly those to the set. -/
theorem findDeadEndsFrom_spec {W : Maze} (hrows : ∀ row ∈ W, row.length = 4) (n i : Nat)
    (stack treated : List Nat) (hb : i + n ≤ W.length) :
    ∃ stack1 treated1, findDeadEndsFrom W n i stack treated = .ok (stack1, treated1) ∧
      (∀ d, d ∈ stack1 ↔ d ∈ stack ∨
        (i ≤ d ∧ d < i + n ∧ isDeadEnd W d = some true ∧ d ∉ treated)) ∧
      (∀ d, d ∈ treated1 ↔ d ∈ treated ∨
        (i ≤ d ∧ d < i + n ∧ isDeadEnd W d = some true ∧ d ∉ treated)) := by
  induction n generalizing i stack treated with
  | zero =>
    refine ⟨stack, treated, rfl, fun d => ?_, fun d => ?_⟩ <;>
    · constructor
      · exact Or.inl
      · rintro (h | ⟨h1, h2, -⟩)
        · exact h
        · omega
  | succ n ih =>
    obtain ⟨b, hde⟩ := isDeadEnd_some_of_lt hrows (show i < W.length by omega)
    unfold findDeadEndsFrom
    rw [hde]
    have hstep : ∀ d, (i ≤ d ∧ d < i + (n + 1)) ↔ (d = i ∨ (i + 1 ≤ d ∧ d < i + 1 + n)) := by
      intro d
      omega
    cases b with
    | false =>
      obtain ⟨s1, t1, h1, hs, ht⟩ := ih (i + 1) stack treated (by omega)
      refine ⟨s1, t1, h1, fun d => ?_, fun d => ?_⟩
      · rw [hs d]
        constructor
        · rintro (h | ⟨a, b, c, e⟩)
          · exact Or.inl h
          · exact Or.inr ⟨by omega, by omega, c, e⟩
        · rintro (h | ⟨a, b, c, e⟩)
          · exact Or.inl h
          · rcases (hstep d).mp ⟨a, b⟩ with rfl | ⟨a', b'⟩
            · rw [hde] at c
              cases c
            · exact Or.inr ⟨a', b', c, e⟩
      · rw [ht d]
        constructor
        · rintro (h | ⟨a, b, c, e⟩)
          · exact Or.inl h
          · exact Or.inr ⟨by omega, by omega, c, e⟩
        · rintro (h | ⟨a, b, c, e⟩)
          · exact Or.inl h
          · rcases (hstep d).mp ⟨a, b⟩ with rfl | ⟨a', b'⟩
            · rw [hde] at c
              cases c
            · exact Or.inr ⟨a', b', c, e⟩
    | true =>
      by_cases hin : i ∈ treated
      · simp only [hin, if_true]
        obtain ⟨s1, t1, h1, hs, ht⟩ := ih (i + 1) stack treated (by omega)
        refine ⟨s1, t1, h1, fun d => ?_, fun d => ?_⟩
        · rw [hs d]
          constructor
          · rintro (h | ⟨a, b, c, e⟩)
            · exact Or.inl h
            · exact Or.inr ⟨by omega, by omega, c, e⟩
          · rintro (h | ⟨a, b, c, e⟩)
            · exact Or.inl h
            · rcases (hstep d).mp ⟨a, b⟩ with rfl | ⟨a', b'⟩
              · exact absurd hin e
              · exact Or.inr ⟨a', b', c, e⟩
        · rw [ht d]
          constructor
          · rintro (h | ⟨a, b, c, e⟩)
            · exact Or.inl h
            · exact Or.inr ⟨by omega, by omega, c, e⟩
          · rintro (h | ⟨a, b, c, e⟩)
            · exact Or.inl h
            · rcases (hstep d).mp ⟨a, b⟩ with rfl | ⟨a', b'⟩
              · exact absurd hin e
              · exact Or.inr ⟨a', b', c, e⟩
      · simp only [hin, if_false]
        obtain ⟨s1, t1, h1, hs, ht⟩ := ih (i + 1) (i :: stack) (i :: treated) (by omega)
        refine ⟨s1, t1, h1, fun d => ?_, fun d => ?_⟩
        · rw [hs d]
          simp only [List.mem_cons, not_or]
          constructor
          · rintro ((h | h) | ⟨a, b, c, -, e⟩)
            · exact Or.inr ⟨by omega, by omega, by rw [h]; exact hde, by rw [h]; exact hin⟩
            · exact Or.inl h
            · exact Or.inr ⟨by omega, by omega, c, e⟩
          · rintro (h | ⟨a, b, c, e⟩)
            · exact Or.inl (Or.inr h)
            · rcases (hstep d).mp ⟨a, b⟩ with h | ⟨a', b'⟩
              · exact Or.inl (Or.inl h)
              · exact Or.inr ⟨a', b', c, by omega, e⟩
        · rw [ht d]
          simp only [List.mem_cons, not_or]
          constructor
          · rintro ((h | h) | ⟨a, b, c, -, e⟩)
            · exact Or.inr ⟨by omega, by omega, by rw [h]; exact hde, by rw [h]; exact hin⟩
            · exact Or.inl h
            · exact Or.inr ⟨by omega, by omega, c, e⟩
          · rintro (h | ⟨a, b, c, e⟩)
            · exact Or.inl (Or.inr h)
            · rcases (hstep d).mp ⟨a, b⟩ with h | ⟨a', b'⟩
              · exact Or.inl (Or.inl h)
              · exact Or.inr ⟨a', b', c, by omega, e⟩

theorem findDeadEnds_spec {W : Maze} (hrows : ∀ row ∈ W, row.length = 4)
    (h0 : 0 < W.length) (hsmall : W.length < 2147483648) (stack treated : List Nat) :
    ∃ stack1 treated1, findDeadEnds stack treated W = .ok (stack1, treated1) ∧
      (∀ d, d ∈ stack1 ↔ d ∈ stack ∨
        (1 ≤ d ∧ d + 1 < W.length ∧ isDeadEnd W d = some true ∧ d ∉ treated)) ∧
      (∀ d, d ∈ treated1 ↔ d ∈ treated ∨
        (1 ≤ d ∧ d + 1 < W.length ∧ isDeadEnd W d = some true ∧ d ∉ treated)) := by
  unfold findDeadEnds
  rw [lastIndex_eq h0 hsmall]
  obtain ⟨s1, t1, h1, hs, ht⟩ :=
    findDeadEndsFrom_spec hrows (W.length - 1 - 1) 1 stack treated (by omega)
  refine ⟨s1, t1, h1, fun d => ?_, fun d => ?_⟩
  · rw [hs d]
    constructor
    · rintro (h | ⟨a, b, c, e⟩)
      · exact Or.inl h
      · exact Or.inr ⟨a, by omega, c, e⟩
    · rintro (h | ⟨a, b, c, e⟩)
      · exact Or.inl h
      · exact Or.inr ⟨a, by omega, c, e⟩
  · rw [ht d]
    constructor
    · rintro (h | ⟨a, b, c, e⟩)
      · exact Or.inl h
      · exact Or.inr ⟨a, by omega, c, e⟩
    · rintro (h | ⟨a, b, c, e⟩)
      · exact Or.inl h
      · exact Or.inr ⟨a, by omega, c, e⟩

/-! ## The workers -/

/-- The walk for an emitted dead end starts in a state that satisfies the
walk invariant. -/
theorem WalkInv_start {N : Nat} {W : Maze} {P : List Nat} {A : Nat → Prop}
    (inv : LoopInv N W P A) {d : Nat} (hde : isDeadEnd W d = some true) (h1 : 1 ≤ d)
    (h2 : d + 1 < W.length) (hP : d ∉ P) : WalkInv N W A [] none d d := by
  have hA : A d := by
    by_contra hA
    exact hP (inv.processed d hA h1 h2 hde)
  exact ⟨⟨rfl, rfl, hA, hde, h1, h2⟩, trivial, by simp, hA⟩

theorem drain_exit1 (fuel N : Nat) (W : Maze) (stack : List Nat)
    (hall : ∀ d ∈ stack, (∃ r, backtrackOne fuel N W d = .ok r) ∨
      backtrackOne fuel N W d = .exit1)
    (hex : ∃ d ∈ stack, backtrackOne fuel N W d = .exit1) :
    drain fuel N W stack 0 = .exit1 := by
  induction stack with
  | nil =>
    obtain ⟨d, hd, -⟩ := hex
    cases hd
  | cons d rest ih =>
    unfold drain
    have hbusy : ¬ NUM_THREADS ≤ 0 := by decide
    rw [if_neg hbusy]
    rcases hall d (List.mem_cons_self _ _) with ⟨r, hr⟩ | he
    · rw [hr]
      simp only
      have hrest : ∃ d' ∈ rest, backtrackOne fuel N W d' = .exit1 := by
        obtain ⟨d', hd', he'⟩ := hex
        rcases List.mem_cons.mp hd' with e | e
        · rw [e, hr] at he'
          cases he'
        · exact ⟨d', e, he'⟩
      rw [ih (fun d' hd' => hall d' (List.mem_cons_of_mem _ hd')) hrest]
      rfl
    · rw [he]

theorem drain_ok (fuel N : Nat) (W : Maze) (stack : List Nat)
    (hall : ∀ d ∈ stack, ∃ r, backtrackOne fuel N W d = .ok r) :
    ∃ recs, drain fuel N W stack 0 = .ok recs ∧
      List.Forall₂ (fun d r => backtrackOne fuel N W d = .ok r) stack recs := by
  induction stack with
  | nil => exact ⟨[], rfl, List.Forall₂.nil⟩
  | cons d rest ih =>
    obtain ⟨r, hr⟩ := hall d (List.mem_cons_self _ _)
    obtain ⟨recs, hrecs, hf⟩ := ih (fun d' hd' => hall d' (List.mem_cons_of_mem _ hd'))
    refine ⟨r :: recs, ?_, List.Forall₂.cons hr hf⟩
    unfold drain
    have hbusy : ¬ NUM_THREADS ≤ 0 := by decide
    rw [if_neg hbusy, hr]
    simp only
    rw [hrecs]
    rfl

/-- When the workers end with records, every popped dead end has its record,
in the order of the pops. -/
theorem drain_ok_inv (fuel N : Nat) (W : Maze) (stack : List Nat) (busy : Nat)
    (recs : List NewDeadEnd) (h : drain fuel N W stack busy = .ok recs) :
    List.Forall₂ (fun d r => backtrackOne fuel N W d = .ok r) stack recs := by
  induction stack generalizing busy recs with
  | nil =>
    unfold drain at h
    split_ifs at h
    cases h
    exact List.Forall₂.nil
  | cons d rest ih =>
    unfold drain at h
    split_ifs at h
    cases hr : backtrackOne fuel N W d with
    | ok r =>
      rw [hr] at h
      simp only at h
      obtain ⟨rs, hrs, hrec⟩ := Outcome.bind_eq_ok h
      cases hrec
      exact List.Forall₂.cons hr (ih busy rs hrs)
    | exit1 => rw [hr] at h; cases h
    | outOfRange => rw [hr] at h; cases h
    | uninitialised => rw [hr] at h; cases h
    | running =>
      rw [hr] at h
      simp only at h
      obtain ⟨rs, -, hrec⟩ := Outcome.bind_eq_ok h
      cases hrec

/-! ## A walled-in cell -/

theorem backtrackOne_walled {N : Nat} {W : Maze} {c : Nat} (fuel : Nat)
    (hcell : ∀ k, k < 4 → side W c k = some 1) (h1 : 1 ≤ c) (h2 : c + 1 < W.length)
    (hsmall : W.length < 2147483648) : backtrackOne (fuel + 1) N W c = .exit1 := by
  have hl := lastIndex_eq (show 0 < W.length by omega) hsmall
  have hi : isIntersection c W = some false := by
    unfold isIntersection
    have hne : ¬ (c = 0 ∨ c = lastIndex W) := by
      rw [hl]
      omega
    rw [if_neg hne, hcell 0 (by omega), hcell 1 (by omega), hcell 2 (by omega),
      hcell 3 (by omega)]
    rfl
  have hm : firstMove N W c c = .exit1 := by
    unfold firstMove
    rw [hcell 0 (by omega), hcell 1 (by omega), hcell 2 (by omega), hcell 3 (by omega)]
    simp
  unfold backtrackOne
  rw [backtrackWalk_succ, hi]
  simp only [hm, Outcome.bind]

theorem isDeadEnd_walled {W : Maze} {c : Nat} (hcell : ∀ k, k < 4 → side W c k = some 1) :
    isDeadEnd W c = some true := by
  unfold isDeadEnd
  rw [hcell 0 (by omega), hcell 1 (by omega), hcell 2 (by omega), hcell 3 (by omega)]
  rfl

/-- On a grid that keeps the invariant, a pass whose scan meets a walled-in
cell outside the processed set ends through `exit(1)`, given more fuel than
there are cells. -/
theorem loopBody_walled {N : Nat} {W : Maze} {P : List Nat} {A : Nat → Prop}
    (inv : LoopInv N W P A) {c : Nat} (hcell : ∀ k, k < 4 → side W c k = some 1)
    (h1 : 1 ≤ c) (h2 : c + 1 < W.length) (hP : c ∉ P) (fuel : Nat) (hfuel : W.length < fuel)
    (assign : Nat → Nat) : loopBody fuel assign N W P [] = .exit1 := by
  obtain ⟨stack1, treated1, hscan, hstack, -⟩ :=
    findDeadEnds_spec inv.rows (by omega) inv.small [] P
  have hall : ∀ d ∈ stack1, (∃ r, backtrackOne fuel N W d = .ok r) ∨
      backtrackOne fuel N W d = .exit1 := by
    intro d hd
    rcases (hstack d).mp hd with h | ⟨a, b, hde, e⟩
    · cases h
    · exact backtrackWalk_terminates inv fuel (WalkInv_start inv hde a b e)
        (by simp only [List.length_nil]; omega)
  have hex : ∃ d ∈ stack1, backtrackOne fuel N W d = .exit1 := by
    refine ⟨c, (hstack c).mpr (Or.inr ⟨h1, h2, isDeadEnd_walled hcell, hP⟩), ?_⟩
    obtain ⟨n, rfl⟩ : ∃ n, fuel = n + 1 := ⟨fuel - 1, by omega⟩
    exact backtrackOne_walled n hcell h1 h2 inv.small
  unfold loopBody
  rw [hscan]
  simp only [Outcome.bind]
  rw [drain_exit1 fuel N W stack1 hall hex]

theorem SolveMazeFrom_walled {N : Nat} {W : Maze} (hcons : Consistent N W) {c : Nat}
    (hcell : ∀ k, k < 4 → side W c k = some 1) (h1 : 1 ≤ c) (h2 : c + 1 < W.length)
    {P : List Nat} (hP : c ∉ P) (fuel : Nat) (hfuel : W.length < fuel)
    (sched : Nat → Nat → Nat) : SolveMazeFrom fuel sched P W = .exit1 := by
  obtain ⟨n, rfl⟩ : ∃ n, fuel = n + 1 := ⟨fuel - 1, by omega⟩
  have hsq : Nat.sqrt W.length = N := by
    rw [hcons.1]
    exact Nat.sqrt_eq N
  unfold SolveMazeFrom
  rw [hsq, fixpointLoop_succ,
    loopBody_walled (LoopInv_of_consistent hcons P) hcell h1 h2 hP (n + 1) hfuel]
  rfl

/-- C5, as amended: on every grid of dimension `N ≥ 2` that meets the input
contract on wall bits and in which cell 2 has four Wall sides, the solver ends
through `exit(1)` under every schedule as soon as its fuel exceeds the number
of cells: it returns no path and does not run for ever. -/
theorem SolveMaze_walled_cell_exits (N : Nat) (hN : 2 ≤ N) (walls : Maze)
    (hcons : Consistent N walls) (hcell : ∀ k, k < 4 → side walls 2 k = some 1)
    (fuel : Nat) (hfuel : N * N < fuel) (sched : Nat → Nat → Nat) :
    SolveMaze fuel sched walls = .exit1 := by
  have hlen : walls.length = N * N := hcons.1
  have h4 : 4 ≤ N * N := Nat.mul_le_mul hN hN
  exact SolveMazeFrom_walled hcons hcell (by omega) (by omega) (List.not_mem_nil 2) fuel
    (by omega) sched

/-- C5, witness: the 2 x 2 scenario grid meets the input contract, its cell 2
has four Wall sides, and the solver ends through `exit(1)`. -/
theorem SolveMaze_walled_cell_exits_witness :
    Consistent 2 grid2x2 ∧ (∀ k, k < 4 → side grid2x2 2 k = some 1) ∧
    SolveMaze 5 (fun _ _ => 0) grid2x2 = .exit1 := by
  have hcons : Consistent 2 grid2x2 := by decide
  have hcell : ∀ k, k < 4 → side grid2x2 2 k = some 1 := by decide
  exact ⟨hcons, hcell,
    SolveMaze_walled_cell_exits 2 (by decide) grid2x2 hcons hcell 5 (by decide) _⟩

end MazeSolver

namespace MazeSolver

/-! ## A grid with one-way sides on which the workers never finish -/

theorem backtrackWalk_move {N : Nat} {W : Maze} {cur prev m : Nat} {d : Direction}
    (hi : isIntersection cur W = some false) (hm : firstMove N W cur prev = .ok (m, d))
    (fuel : Nat) (dir : Option Direction) :
    backtrackWalk N W (fuel + 1) dir cur prev = backtrackWalk N W fuel (some d) m cur := by
  rw [backtrackWalk_succ, hi]
  simp only [hm, Outcome.bind]

theorem ring_walks (fuel : Nat) :
    (∀ dir, backtrackWalk 4 ringGrid fuel dir 5 4 = .running) ∧
    (∀ dir, backtrackWalk 4 ringGrid fuel dir 9 5 = .running) ∧
    (∀ dir, backtrackWalk 4 ringGrid fuel dir 8 9 = .running) ∧
    (∀ dir, backtrackWalk 4 ringGrid fuel dir 4 8 = .running) ∧
    (∀ dir, backtrackWalk 4 ringGrid fuel dir 7 6 = .running) ∧
    (∀ dir, backtrackWalk 4 ringGrid fuel dir 11 7 = .running) ∧
    (∀ dir, backtrackWalk 4 ringGrid fuel dir 10 11 = .running) ∧
    (∀ dir, backtrackWalk 4 ringGrid fuel dir 6 10 = .running) := by
  induction fuel with
  | zero => exact ⟨fun _ => rfl, fun _ => rfl, fun _ => rfl, fun _ => rfl, fun _ => rfl,
      fun _ => rfl, fun _ => rfl, fun _ => rfl⟩
  | succ n ih =>
    obtain ⟨a1, a2, a3, a4, b1, b2, b3, b4⟩ := ih
    refine ⟨fun dir => ?_, fun dir => ?_, fun dir => ?_, fun dir => ?_, fun dir => ?_,
      fun dir => ?_, fun dir => ?_, fun dir => ?_⟩
    · rw [backtrackWalk_move (by decide : isIntersection 5 ringGrid = some false)
        (by decide : firstMove 4 ringGrid 5 4 = .ok (9, .UP))]
      exact a2 _
    · rw [backtrackWalk_move (by decide : isIntersection 9 ringGrid = some false)
        (by decide : firstMove 4 ringGrid 9 5 = .ok (8, .RIGHT))]
      exact a3 _
    · rw [backtrackWalk_move (by decide : isIntersection 8 ringGrid = some false)
        (by decide : firstMove 4 ringGrid 8 9 = .ok (4, .DOWN))]
      exact a4 _
    · rw [backtrackWalk_move (by decide : isIntersection 4 ringGrid = some false)
        (by decide : firstMove 4 ringGrid 4 8 = .ok (5, .LEFT))]
      exact a1 _
    · rw [backtrackWalk_move (by decide : isIntersection 7 ringGrid = some false)
        (by decide : firstMove 4 ringGrid 7 6 = .ok (11, .UP))]
      exact b2 _
    · rw [backtrackWalk_move (by decide : isIntersection 11 ringGrid = some false)
        (by decide : firstMove 4 ringGrid 11 7 = .ok (10, .RIGHT))]
      exact b3 _
    · rw [backtrackWalk_move (by decide : isIntersection 10 ringGrid = some false)
        (by decide : firstMove 4 ringGrid 10 11 = .ok (6, .DOWN))]
      exact b4 _
    · rw [backtrackWalk_move (by decide : isIntersection 6 ringGrid = some false)
        (by decide : firstMove 4 ringGrid 6 10 = .ok (7, .LEFT))]
      exact b1 _

theorem ring_backtrackOne (fuel : Nat) :
    backtrackOne fuel 4 ringGrid 4 = .running ∧ backtrackOne fuel 4 ringGrid 5 = .running ∧
    backtrackOne fuel 4 ringGrid 6 = .running ∧ backtrackOne fuel 4 ringGrid 7 = .running ∧
    backtrackOne fuel 4 ringGrid 8 = .running ∧ backtrackOne fuel 4 ringGrid 9 = .running ∧
    backtrackOne fuel 4 ringGrid 10 = .running ∧ backtrackOne fuel 4 ringGrid 11 = .running := by
  cases fuel with
  | zero => exact ⟨rfl, rfl, rfl, rfl, rfl, rfl, rfl, rfl⟩
  | succ n =>
    obtain ⟨a1, a2, a3, a4, b1, b2, b3, b4⟩ := ring_walks n
    unfold backtrackOne
    refine ⟨?_, ?_, ?_, ?_, ?_, ?_, ?_, ?_⟩
    · rw [backtrackWalk_move (by decide : isIntersection 4 ringGrid = some false)
        (by decide : firstMove 4 ringGrid 4 4 = .ok (5, .LEFT))]
      exact a1 _
    · rw [backtrackWalk_move (by decide : isIntersection 5 ringGrid = some false)
        (by decide : firstMove 4 ringGrid 5 5 = .ok (9, .UP))]
      exact a2 _
    · rw [backtrackWalk_move (by decide : isIntersection 6 ringGrid = some false)
        (by decide : firstMove 4 ringGrid 6 6 = .ok (7, .LEFT))]
      exact b1 _
    · rw [backtrackWalk_move (by decide : isIntersection 7 ringGrid = some false)
        (by decide : firstMove 4 ringGrid 7 7 = .ok (11, .UP))]
      exact b2 _
    · rw [backtrackWalk_move (by decide : isIntersection 8 ringGrid = some false)
        (by decide : firstMove 4 ringGrid 8 8 = .ok (4, .DOWN))]
      exact a4 _
    · rw [backtrackWalk_move (by decide : isIntersection 9 ringGrid = some false)
        (by decide : firstMove 4 ringGrid 9 9 = .ok (8, .RIGHT))]
      exact a3 _
    · rw [backtrackWalk_move (by decide : isIntersection 10 ringGrid = some false)
        (by decide : firstMove 4 ringGrid 10 10 = .ok (6, .DOWN))]
      exact b4 _
    · rw [backtrackWalk_move (by decide : isIntersection 11 ringGrid = some false)
        (by decide : firstMove 4 ringGrid 11 11 = .ok (10, .RIGHT))]
      exact b3 _

theorem ring_loopBody (fuel : Nat) (assign : Nat → Nat) :
    loopBody fuel assign 4 ringGrid [] [] = .running := by
  have hscan : findDeadEnds [] [] ringGrid =
      .ok ([11, 10, 9, 8, 7, 6, 5, 4, 2], [11, 10, 9, 8, 7, 6, 5, 4, 2]) := by decide
  obtain ⟨h4, h5, h6, h7, h8, h9, h10, h11⟩ := ring_backtrackOne fuel
  unfold loopBody
  rw [hscan]
  simp only [Outcome.bind, drain, h4, h5, h6, h7, h8, h9, h10, h11, NUM_THREADS]
  rfl

theorem ring_SolveMaze (fuel : Nat) (sched : Nat → Nat → Nat) :
    SolveMaze fuel sched ringGrid = .running := by
  have hsq : Nat.sqrt ringGrid.length = 4 := by
    show Nat.sqrt (4 * 4) = 4
    exact Nat.sqrt_eq 4
  unfold SolveMaze SolveMazeFrom
  rw [hsq]
  cases fuel with
  | zero => rfl
  | succ n =>
    rw [fixpointLoop_succ, ring_loopBody]
    rfl

/-- C5, counterexample: a grid of dimension 4 whose cell 2 has four Wall
sides and on which the solver reports nothing: eight dead ends with one-way
sides are popped before cell 2, their walks go round in two rings for ever,
all eight workers stay busy, and cell 2 is never popped. -/
theorem SolveMaze_ringGrid_runs_forever :
    ringGrid.length = 4 * 4 ∧ (∀ row ∈ ringGrid, row.length = 4) ∧
    (∀ k, k < 4 → side ringGrid 2 k = some 1) ∧
    (∀ (fuel : Nat) (sched : Nat → Nat → Nat), SolveMaze fuel sched ringGrid = .running) ∧
    ¬ ∃ (fuel : Nat) (sched : Nat → Nat → Nat), SolveMaze fuel sched ringGrid = .exit1 := by
  refine ⟨rfl, by decide, by decide, ring_SolveMaze, ?_⟩
  rintro ⟨fuel, sched, h⟩
  rw [ring_SolveMaze] at h
  cases h

end MazeSolver

namespace MazeSolver

/-! ## The validator on in-range paths -/

theorem validateSteps_total (dimension : Int) (walls : Maze)
    (hrows : ∀ row ∈ walls, row.length = 4) (path : List Int)
    (hrange : ∀ c ∈ path, 0 ≤ c ∧ c < (walls.length : Int)) :
    validateSteps dimension walls path = some true ∨
      validateSteps dimension walls path = some false := by
  induction path with
  | nil => exact Or.inl rfl
  | cons a tl ih =>
    cases tl with
    | nil => exact Or.inl rfl
    | cons b rest =>
      have ha := hrange a (by simp)
      have ih' := ih (fun c hc => hrange c (List.mem_cons_of_mem _ hc))
      obtain ⟨s0, h0⟩ := sideAt_eq_some_of_range walls a 0 ha.1 ha.2 hrows (by omega)
      obtain ⟨s1, h1⟩ := sideAt_eq_some_of_range walls a 1 ha.1 ha.2 hrows (by omega)
      obtain ⟨s2, h2⟩ := sideAt_eq_some_of_range walls a 2 ha.1 ha.2 hrows (by omega)
      obtain ⟨s3, h3⟩ := sideAt_eq_some_of_range walls a 3 ha.1 ha.2 hrows (by omega)
      unfold validateSteps
      simp only [h0, h1, h2, h3]
      exact stepChain_isSome dimension (b - a) s0 s1 s2 s3 _ ih'

/-- C20: on a grid whose cells each hold four sides, for a non-empty path
whose cells all lie in `[0, size)`, no lookup of `ValidatePath` leaves its
vector and the validator returns a boolean, whatever the claimed dimension. -/
theorem ValidatePath_total (dimension : Int) (walls : Maze)
    (hrows : ∀ row ∈ walls, row.length = 4) (path : List Int) (hne : path ≠ [])
    (hrange : ∀ c ∈ path, 0 ≤ c ∧ c < (walls.length : Int)) :
    ValidatePath dimension walls path = some true ∨
      ValidatePath dimension walls path = some false := by
  cases path with
  | nil => exact absurd rfl hne
  | cons first rest =>
    unfold ValidatePath
    simp only
    split_ifs
    · exact Or.inr rfl
    · exact validateSteps_total dimension walls hrows _ hrange

/-- C20, witness: on the 2 x 2 scenario grid the in-range path `[0, 1, 3]` gets
a verdict; the path `[0, 1, 5, 4, 3]` with claimed dimension 4 passes the end
test and two steps and then makes the validator read `walls[5]`, outside the
grid: there is no range check, so the in-range hypothesis is needed. -/
theorem ValidatePath_total_witness :
    (ValidatePath 2 grid2x2 [0, 1, 3] = some true ∨
      ValidatePath 2 grid2x2 [0, 1, 3] = some false) ∧
    ValidatePath 4 grid2x2 [0, 1, 5, 4, 3] = none :=
  ⟨ValidatePath_total 2 grid2x2 (by decide) [0, 1, 3] (by simp) (by decide), by decide⟩

/-! ## The intersection test -/

theorem lastIndex_eq_of_lt {W : Maze} (h0 : 0 < W.length)
    (hs : W.length < 18446744073709551616) : lastIndex W = W.length - 1 := by
  unfold lastIndex SIZE_RANGE
  omega

theorem openSides_length {W : Maze} {c : Nat} {s0 s1 s2 s3 : Int}
    (e0 : side W c 0 = some s0) (e1 : side W c 1 = some s1) (e2 : side W c 2 = some s2)
    (e3 : side W c 3 = some s3) :
    ((List.range 4).filter (fun k => side W c k = some 0)).length =
      (if s0 = 0 then 1 else 0) + (if s1 = 0 then 1 else 0) + (if s2 = 0 then 1 else 0)
        + (if s3 = 0 then 1 else 0) := by
  have hr : List.range 4 = [0, 1, 2, 3] := rfl
  rw [hr]
  simp only [List.filter_cons, List.filter_nil, e0, e1, e2, e3, Option.some.injEq]
  by_cases h0 : s0 = 0 <;> by_cases h1 : s1 = 0 <;> by_cases h2 : s2 = 0 <;>
    by_cases h3 : s3 = 0 <;> simp [h0, h1, h2, h3]

/-- C13: for a cell of a grid of four-sided cells, `isIntersection` returns a
boolean, and it returns `true` exactly when the cell is `0`, or the last cell
`size - 1`, or at least three of its four sides are Open (`0`); a Wall and a
Blocked side both count as not Open. -/
theorem isIntersection_true_iff (walls : Maze) (hrows : ∀ row ∈ walls, row.length = 4)
    (hsmall : walls.length < 18446744073709551616) (cell : Nat) (hc : cell < walls.length) :
    (isIntersection cell walls = some true ∨ isIntersection cell walls = some false) ∧
    (isIntersection cell walls = some true ↔
      cell = 0 ∨ cell = walls.length - 1 ∨
        3 ≤ ((List.range 4).filter (fun k => side walls cell k = some 0)).length) := by
  obtain ⟨s0, s1, s2, s3, e0, e1, e2, e3⟩ := sides_of_lt hrows hc
  rw [openSides_length e0 e1 e2 e3]
  have hl := lastIndex_eq_of_lt (show 0 < walls.length by omega) hsmall
  unfold isIntersection
  rw [hl, e0, e1, e2, e3]
  by_cases h : cell = 0 ∨ cell = walls.length - 1
  · rw [if_pos h]
    refine ⟨Or.inl rfl, ?_⟩
    constructor
    · intro _
      rcases h with h | h
      · exact Or.inl h
      · exact Or.inr (Or.inl h)
    · intro _
      rfl
  · rw [if_neg h]
    rw [not_or] at h
    simp only [Option.some.injEq, decide_eq_true_eq, decide_eq_false_iff_not]
    refine ⟨Decidable.em _, ?_⟩
    constructor
    · intro h3
      exact Or.inr (Or.inr (by omega))
    · rintro (h1 | h1 | h1)
      · exact absurd h1 h.1
      · exact absurd h1 h.2
      · omega

/-- C13, witness: on the 2 x 2 scenario grid cell 1 has two Open sides and is
no intersection, cell 3 is the last cell and is one. -/
theorem isIntersection_true_iff_witness :
    ((isIntersection 1 grid2x2 = some true ∨ isIntersection 1 grid2x2 = some false) ∧
      (isIntersection 1 grid2x2 = some true ↔
        1 = 0 ∨ 1 = grid2x2.length - 1 ∨
          3 ≤ ((List.range 4).filter (fun k => side grid2x2 1 k = some 0)).length)) ∧
    isIntersection 1 grid2x2 = some false ∧ isIntersection 3 grid2x2 = some true :=
  ⟨isIntersection_true_iff grid2x2 (by decide) (by decide) 1 (by decide), by decide,
    by decide⟩

end MazeSolver

namespace MazeSolver

/-! ## The block applier, side by side -/

theorem setSide_side {W W1 : Maze} {c k : Nat} {v : Int} (h : setSide W c k v = some W1)
    (c' k' : Nat) : side W1 c' k' = if c' = c ∧ k' = k then some v else side W c' k' := by
  unfold setSide at h
  cases hrow : W[c]? with
  | none =>
    rw [hrow] at h
    cases h
  | some row =>
    rw [hrow] at h
    simp only at h
    by_cases hk : k < row.length
    · rw [if_pos hk] at h
      have hW : W1 = W.set c (row.set k v) := (Option.some.inj h).symm
      have hc : c < W.length := (List.getElem?_eq_some.mp hrow).1
      subst hW
      unfold side
      by_cases e : c' = c
      · subst e
        rw [List.getElem?_set_self hc, hrow]
        simp only [true_and]
        by_cases e2 : k' = k
        · subst e2
          rw [if_pos rfl, List.getElem?_set_self hk]
        · rw [if_neg e2, List.getElem?_set_ne (fun h => e2 h.symm)]
      · have hne : ¬ (c' = c ∧ k' = k) := fun h => e h.1
        rw [if_neg hne, List.getElem?_set_ne (fun h => e h.symm)]
    · rw [if_neg hk] at h
      cases h

theorem setSide_rows {W W1 : Maze} {c k : Nat} {v : Int} (h : setSide W c k v = some W1)
    (hrows : ∀ row ∈ W, row.length = 4) : ∀ row ∈ W1, row.length = 4 := by
  unfold setSide at h
  cases hrow : W[c]? with
  | none =>
    rw [hrow] at h
    cases h
  | some row =>
    rw [hrow] at h
    simp only at h
    split_ifs at h
    have hW : W1 = W.set c (row.set k v) := (Option.some.inj h).symm
    subst hW
    intro r hr
    rcases List.mem_or_eq_of_mem_set hr with h1 | h1
    · exact hrows r h1
    · rw [h1, List.length_set]
      obtain ⟨hc, he⟩ := List.getElem?_eq_some.mp hrow
      rw [← he]
      exact hrows _ (List.getElem_mem _)

theorem setSide_some {W : Maze} (hrows : ∀ row ∈ W, row.length = 4) {c k : Nat}
    (hc : c < W.length) (hk : k < 4) (v : Int) : ∃ W1, setSide W c k v = some W1 := by
  unfold setSide
  rw [List.getElem?_eq_getElem hc]
  have h4 : (W[c]).length = 4 := hrows _ (List.getElem_mem _)
  simp only
  rw [if_pos (by omega)]
  exact ⟨_, rfl⟩

theorem applyBlocks_unnamed {W W1 : Maze} {recs : List NewDeadEnd}
    (h : applyBlocks W recs = some W1) (c k : Nat)
    (hno : ∀ r ∈ recs, ¬ (r.id = c ∧ r.direction.toNat = k)) : side W1 c k = side W c k := by
  induction recs generalizing W with
  | nil =>
    cases h
    rfl
  | cons r rest ih =>
    rw [applyBlocks_cons] at h
    cases hs : setSide W r.id r.direction.toNat (-1) with
    | none =>
      rw [hs] at h
      cases h
    | some W2 =>
      rw [hs] at h
      rw [ih h (fun r' hr' => hno r' (List.mem_cons_of_mem _ hr')), setSide_side hs]
      have hne : ¬ (c = r.id ∧ k = r.direction.toNat) := fun e =>
        hno r (List.mem_cons_self _ _) ⟨e.1.symm, e.2.symm⟩
      rw [if_neg hne]

theorem applyBlocks_named_side {W W1 : Maze} {recs : List NewDeadEnd}
    (h : applyBlocks W recs = some W1) (c k : Nat)
    (hr : ∃ r ∈ recs, r.id = c ∧ r.direction.toNat = k) : side W1 c k = some (-1) := by
  induction recs generalizing W with
  | nil =>
    obtain ⟨r, hr, -⟩ := hr
    cases hr
  | cons r0 rest ih =>
    rw [applyBlocks_cons] at h
    cases hs : setSide W r0.id r0.direction.toNat (-1) with
    | none =>
      rw [hs] at h
      cases h
    | some W2 =>
      rw [hs] at h
      by_cases hin : ∃ r' ∈ rest, r'.id = c ∧ r'.direction.toNat = k
      · exact ih h hin
      · have hno : ∀ r' ∈ rest, ¬ (r'.id = c ∧ r'.direction.toNat = k) :=
          fun r' hr' e => hin ⟨r', hr', e⟩
        rw [applyBlocks_unnamed h _ _ hno, setSide_side hs]
        obtain ⟨r, hr, e1, e2⟩ := hr
        rcases List.mem_cons.mp hr with e | e
        · rw [← e, if_pos ⟨e1.symm, e2.symm⟩]
        · exact absurd ⟨e1, e2⟩ (hno r e)

theorem applyBlocks_named {W W1 : Maze} {recs : List NewDeadEnd}
    (h : applyBlocks W recs = some W1) {r : NewDeadEnd} (hr : r ∈ recs) :
    side W1 r.id r.direction.toNat = some (-1) :=
  applyBlocks_named_side h _ _ ⟨r, hr, rfl, rfl⟩

theorem applyBlocks_some {W : Maze} (hrows : ∀ row ∈ W, row.length = 4)
    (recs : List NewDeadEnd) (hin : ∀ r ∈ recs, r.id < W.length) :
    ∃ W1, applyBlocks W recs = some W1 := by
  induction recs generalizing W with
  | nil => exact ⟨W, rfl⟩
  | cons r rest ih =>
    obtain ⟨W2, hs⟩ := setSide_some hrows (hin r (List.mem_cons_self _ _))
      (Direction_toNat_lt r.direction) (-1)
    rw [applyBlocks_cons, hs]
    exact ih (setSide_rows hs hrows) (fun r' hr' => by
      rw [setSide_length hs]
      exact hin r' (List.mem_cons_of_mem _ hr'))

/-- C17: on a grid of four-sided cells the block applier, given records whose
cells are in range, ends normally; afterwards the side named by each record
is Blocked (`-1`), every side no record names is as before, and any other
order of the same records leaves the same grid. -/
theorem applyBlocks_frame (walls : Maze) (hrows : ∀ row ∈ walls, row.length = 4)
    (recs : List NewDeadEnd) (hin : ∀ r ∈ recs, r.id < walls.length) :
    ∃ walls1, applyBlocks walls recs = some walls1 ∧
      (∀ r ∈ recs, side walls1 r.id r.direction.toNat = some (-1)) ∧
      (∀ c k, (∀ r ∈ recs, ¬ (r.id = c ∧ r.direction.toNat = k)) →
        side walls1 c k = side walls c k) ∧
      (∀ recs' : List NewDeadEnd, recs.Perm recs' → applyBlocks walls recs' = some walls1) := by
  obtain ⟨W1, h⟩ := applyBlocks_some hrows recs hin
  exact ⟨W1, h, fun r hr => applyBlocks_named h hr, fun c k hno => applyBlocks_unnamed h c k hno,
    fun recs' hp => by rw [← applyBlocks_perm hp walls, h]⟩

/-- C17, witness: on the 2 x 2 maze with a dead end at cell 2, two records for
the same intersection 3 with different sides are applied in both orders. -/
theorem applyBlocks_frame_witness :
    (∃ walls1, applyBlocks branchGrid [⟨.LEFT, 3⟩, ⟨.UP, 3⟩] = some walls1 ∧
      (∀ r ∈ [(⟨.LEFT, 3⟩ : NewDeadEnd), ⟨.UP, 3⟩],
        side walls1 r.id r.direction.toNat = some (-1)) ∧
      (∀ c k, (∀ r ∈ [(⟨.LEFT, 3⟩ : NewDeadEnd), ⟨.UP, 3⟩],
          ¬ (r.id = c ∧ r.direction.toNat = k)) →
        side walls1 c k = side branchGrid c k) ∧
      (∀ recs' : List NewDeadEnd, [(⟨.LEFT, 3⟩ : NewDeadEnd), ⟨.UP, 3⟩].Perm recs' →
        applyBlocks branchGrid recs' = some walls1)) ∧
    applyBlocks branchGrid [⟨.LEFT, 3⟩, ⟨.UP, 3⟩] =
      some [[1, 1, 0, 1], [0, 1, 1, 0], [1, 1, 0, 1], [-1, -1, 1, 1]] ∧
    applyBlocks branchGrid [⟨.UP, 3⟩, ⟨.LEFT, 3⟩] =
      some [[1, 1, 0, 1], [0, 1, 1, 0], [1, 1, 0, 1], [-1, -1, 1, 1]] :=
  ⟨applyBlocks_frame branchGrid (by decide) [⟨.LEFT, 3⟩, ⟨.UP, 3⟩] (by decide), by decide,
    by decide⟩

end MazeSolver

namespace MazeSolver

/-! ## The scan as a filter -/

theorem findDeadEndsFrom_eq {W : Maze} (hrows : ∀ row ∈ W, row.length = 4) (n i : Nat)
    (stack treated : List Nat) (hb : i + n ≤ W.length) :
    findDeadEndsFrom W n i stack treated =
      .ok (((List.range' i n).filter
              (fun d => decide (isDeadEnd W d = some true ∧ d ∉ treated))).reverse ++ stack,
           ((List.range' i n).filter
              (fun d => decide (isDeadEnd W d = some true ∧ d ∉ treated))).reverse ++ treated) := by
  induction n generalizing i stack treated with
  | zero => rfl
  | succ n ih =>
    obtain ⟨b, hde⟩ := isDeadEnd_some_of_lt hrows (show i < W.length by omega)
    have hr : List.range' i (n + 1) = i :: List.range' (i + 1) n := rfl
    rw [hr, List.filter_cons]
    unfold findDeadEndsFrom
    rw [hde]
    cases b with
    | false =>
      have hp : decide (some false = some true ∧ i ∉ treated) = false := by simp
      simp only [hp, Bool.false_eq_true, if_false]
      exact ih (i + 1) stack treated (by omega)
    | true =>
      by_cases hin : i ∈ treated
      · have hp : decide (some true = some true ∧ i ∉ treated) = false := by simp [hin]
        simp only [hin, hp, if_true, Bool.false_eq_true, if_false]
        exact ih (i + 1) stack treated (by omega)
      · have hp : decide (some true = some true ∧ i ∉ treated) = true := by simp [hin]
        simp only [hin, hp, if_true, if_false]
        rw [ih (i + 1) (i :: stack) (i :: treated) (by omega)]
        have hcongr : (List.range' (i + 1) n).filter
              (fun d => decide (isDeadEnd W d = some true ∧ d ∉ i :: treated)) =
            (List.range' (i + 1) n).filter
              (fun d => decide (isDeadEnd W d = some true ∧ d ∉ treated)) := by
          apply List.filter_congr
          intro x hx
          have hx1 : i + 1 ≤ x := (List.mem_range'_1.mp hx).1
          have hne : x ≠ i := by omega
          simp [hne]
        rw [hcongr]
        simp

/-- The test of the scan in the words of the specification: more than two of
the four sides are not Open. -/
theorem isDeadEnd_eq_count {W : Maze} (hrows : ∀ row ∈ W, row.length = 4) {c : Nat}
    (hc : c < W.length) :
    isDeadEnd W c =
      some (decide (2 < ((List.range 4).filter (fun k => side W c k ≠ some 0)).length)) := by
  obtain ⟨s0, s1, s2, s3, e0, e1, e2, e3⟩ := sides_of_lt hrows hc
  have hr : List.range 4 = [0, 1, 2, 3] := rfl
  unfold isDeadEnd
  rw [hr, e0, e1, e2, e3]
  simp only [List.filter_cons, List.filter_nil, e0, e1, e2, e3, ne_eq, Option.some.injEq]
  by_cases h0 : s0 = 0 <;> by_cases h1 : s1 = 0 <;> by_cases h2 : s2 = 0 <;>
    by_cases h3 : s3 = 0 <;> simp [h0, h1, h2, h3]

/-- C11: on a grid of `N * N` four-sided cells, `N ≥ 1`, with any processed
set `P`, `findDeadEnds` ends normally. With `emitted` the cells `i`,
`0 < i < N * N - 1`, in increasing order, that have more than two sides not
Open and are not in `P`, it leaves the stack with these cells pushed on the
old content, the last one on top, and the processed set with these cells
added; each is emitted once, and cells `0` and `N * N - 1` never are. -/
theorem findDeadEnds_emits (N : Nat) (hN : 1 ≤ N) (walls : Maze)
    (hsize : walls.length = N * N) (hsmall : N * N < 2147483648)
    (hrows : ∀ row ∈ walls, row.length = 4) (stack P : List Nat) :
    ∃ emitted : List Nat,
      emitted = (List.range' 1 (N * N - 2)).filter (fun i =>
        decide (2 < ((List.range 4).filter (fun k => side walls i k ≠ some 0)).length ∧
          i ∉ P)) ∧
      findDeadEnds stack P walls = .ok (emitted.reverse ++ stack, emitted.reverse ++ P) ∧
      (∀ i, i ∈ emitted ↔ 0 < i ∧ i < N * N - 1 ∧
        2 < ((List.range 4).filter (fun k => side walls i k ≠ some 0)).length ∧ i ∉ P) ∧
      emitted.Pairwise (fun a b => a < b) ∧ emitted.Nodup ∧
      0 ∉ emitted ∧ N * N - 1 ∉ emitted := by
  have hpos : 0 < walls.length := by
    rw [hsize]
    exact Nat.mul_pos hN hN
  have hfilter : (List.range' 1 (N * N - 2)).filter (fun i =>
        decide (2 < ((List.range 4).filter (fun k => side walls i k ≠ some 0)).length ∧
          i ∉ P)) =
      (List.range' 1 (N * N - 2)).filter (fun d =>
        decide (isDeadEnd walls d = some true ∧ d ∉ P)) := by
    apply List.filter_congr
    intro x hx
    have hx2 := (List.mem_range'_1.mp hx).2
    rw [isDeadEnd_eq_count hrows (show x < walls.length by omega)]
    simp
  have hmem : ∀ i, i ∈ (List.range' 1 (N * N - 2)).filter (fun i =>
        decide (2 < ((List.range 4).filter (fun k => side walls i k ≠ some 0)).length ∧
          i ∉ P)) ↔ 0 < i ∧ i < N * N - 1 ∧
        2 < ((List.range 4).filter (fun k => side walls i k ≠ some 0)).length ∧ i ∉ P := by
    intro i
    rw [List.mem_filter, List.mem_range'_1, decide_eq_true_eq]
    constructor
    · rintro ⟨⟨a, b⟩, c, d⟩
      exact ⟨by omega, by omega, c, d⟩
    · rintro ⟨a, b, c, d⟩
      exact ⟨⟨by omega, by omega⟩, c, d⟩
  have hpw : ((List.range' 1 (N * N - 2)).filter (fun i =>
        decide (2 < ((List.range 4).filter (fun k => side walls i k ≠ some 0)).length ∧
          i ∉ P))).Pairwise (fun a b => a < b) :=
    List.Pairwise.filter _ (List.pairwise_lt_range' 1 (N * N - 2))
  refine ⟨_, rfl, ?_, hmem, hpw, ?_, ?_, ?_⟩
  · rw [hfilter]
    unfold findDeadEnds
    rw [lastIndex_eq hpos (by omega), hsize]
    have h2 : N * N - 1 - 1 = N * N - 2 := by omega
    rw [h2]
    exact findDeadEndsFrom_eq hrows (N * N - 2) 1 stack P (by omega)
  · exact hpw.imp (fun h => Nat.ne_of_lt h)
  · intro h
    have := (hmem 0).mp h
    omega
  · intro h
    have := (hmem (N * N - 1)).mp h
    omega

/-- C11, witness: on the 2 x 2 scenario grid with the processed set empty the
scan pushes cell 2 alone, on top of what the stack held. -/
theorem findDeadEnds_emits_witness :
    (∃ emitted : List Nat,
      emitted = (List.range' 1 (2 * 2 - 2)).filter (fun i =>
        decide (2 < ((List.range 4).filter (fun k => side grid2x2 i k ≠ some 0)).length ∧
          i ∉ ([] : List Nat))) ∧
      findDeadEnds [7] [] grid2x2 = .ok (emitted.reverse ++ [7], emitted.reverse ++ []) ∧
      (∀ i, i ∈ emitted ↔ 0 < i ∧ i < 2 * 2 - 1 ∧
        2 < ((List.range 4).filter (fun k => side grid2x2 i k ≠ some 0)).length ∧
          i ∉ ([] : List Nat)) ∧
      emitted.Pairwise (fun a b => a < b) ∧ emitted.Nodup ∧
      0 ∉ emitted ∧ 2 * 2 - 1 ∉ emitted) ∧
    findDeadEnds [7] [] grid2x2 = .ok ([2, 7], [2]) :=
  ⟨findDeadEnds_emits 2 (by decide) grid2x2 (by decide) (by decide) (by decide) [7] [],
    by decide⟩

/-- C12: on a grid of four-sided cells a scan ends normally, and a second scan
of the same grid, run with the stack and the processed set the first one
left, pushes nothing and leaves the processed set as it is. -/
theorem findDeadEnds_idempotent (walls : Maze) (hpos : 0 < walls.length)
    (hsmall : walls.length < 2147483648) (hrows : ∀ row ∈ walls, row.length = 4)
    (stack P : List Nat) :
    ∃ stack1 P1, findDeadEnds stack P walls = .ok (stack1, P1) ∧
      findDeadEnds stack1 P1 walls = .ok (stack1, P1) := by
  unfold findDeadEnds
  rw [lastIndex_eq hpos hsmall]
  have hb : 1 + (walls.length - 1 - 1) ≤ walls.length := by omega
  rw [findDeadEndsFrom_eq hrows _ 1 stack P hb]
  refine ⟨_, _, rfl, ?_⟩
  rw [findDeadEndsFrom_eq hrows _ 1 _ _ hb]
  have hnil : (List.range' 1 (walls.length - 1 - 1)).filter (fun d =>
      decide (isDeadEnd walls d = some true ∧
        d ∉ ((List.range' 1 (walls.length - 1 - 1)).filter
          (fun d => decide (isDeadEnd walls d = some true ∧ d ∉ P))).reverse ++ P)) = [] := by
    rw [List.filter_eq_nil_iff]
    intro d hd
    simp only [decide_eq_true_eq, not_and, not_not, List.mem_append, List.mem_reverse,
      List.mem_filter]
    intro hde
    by_cases hP : d ∈ P
    · exact Or.inr hP
    · exact Or.inl ⟨hd, hde, hP⟩
  rw [hnil]
  rfl

/-- C12, witness: the 2 x 2 scenario grid, scanned twice. -/
theorem findDeadEnds_idempotent_witness :
    (∃ stack1 P1, findDeadEnds [] [] grid2x2 = .ok (stack1, P1) ∧
      findDeadEnds stack1 P1 grid2x2 = .ok (stack1, P1)) ∧
    findDeadEnds [] [] grid2x2 = .ok ([2], [2]) ∧
    findDeadEnds [2] [2] grid2x2 = .ok ([2], [2]) :=
  ⟨findDeadEnds_idempotent grid2x2 (by decide) (by decide) (by decide) [] [], by decide,
    by decide⟩

end MazeSolver

namespace MazeSolver

/-! ## Emitted dead ends are no intersections -/

theorem findDeadEndsFrom_new {W : Maze} (n i : Nat) (stack treated stack1 treated1 : List Nat)
    (h : findDeadEndsFrom W n i stack treated = .ok (stack1, treated1)) :
    ∀ d ∈ stack1, d ∈ stack ∨ (i ≤ d ∧ d < i + n ∧ isDeadEnd W d = some true) := by
  induction n generalizing i stack treated with
  | zero =>
    have e := Outcome.ok.inj h
    have e1 : stack = stack1 := congrArg Prod.fst e
    intro d hd
    rw [e1]
    exact Or.inl hd
  | succ n ih =>
    unfold findDeadEndsFrom at h
    cases hde : isDeadEnd W i with
    | none =>
      rw [hde] at h
      cases h
    | some b =>
      rw [hde] at h
      intro d hd
      cases b with
      | false =>
        rcases ih (i + 1) stack treated h d hd with h1 | ⟨a, b, c⟩
        · exact Or.inl h1
        · exact Or.inr ⟨by omega, by omega, c⟩
      | true =>
        simp only at h
        split_ifs at h with hin
        · rcases ih (i + 1) stack treated h d hd with h1 | ⟨a, b, c⟩
          · exact Or.inl h1
          · exact Or.inr ⟨by omega, by omega, c⟩
        · rcases ih (i + 1) (i :: stack) (i :: treated) h d hd with h1 | ⟨a, b, c⟩
          · rcases List.mem_cons.mp h1 with e | e
            · exact Or.inr ⟨by omega, by omega, by rw [e]; exact hde⟩
            · exact Or.inl e
          · exact Or.inr ⟨by omega, by omega, c⟩

theorem isIntersection_false_of_isDeadEnd {W : Maze} {d : Nat}
    (hde : isDeadEnd W d = some true) (h0 : d ≠ 0) (hl : d ≠ lastIndex W) :
    isIntersection d W = some false := by
  obtain ⟨s0, s1, s2, s3, e0, e1, e2, e3, hb⟩ := isDeadEnd_sides hde
  unfold isIntersection
  have hne : ¬ (d = 0 ∨ d = lastIndex W) := by
    rw [not_or]
    exact ⟨h0, hl⟩
  rw [if_neg hne, e0, e1, e2, e3]
  have hb' := of_decide_eq_true hb.symm
  simp only [Option.some.injEq, decide_eq_false_iff_not]
  split_ifs at hb' ⊢ <;> omega

theorem backtrackWalk_some_ne_uninitialised (N : Nat) (W : Maze) (fuel : Nat) (d : Direction)
    (cur prev : Nat) : backtrackWalk N W fuel (some d) cur prev ≠ .uninitialised := by
  induction fuel generalizing d cur prev with
  | zero =>
    intro h
    cases h
  | succ n ih =>
    rw [backtrackWalk_succ]
    cases hi : isIntersection cur W with
    | none =>
      intro h
      cases h
    | some b =>
      cases b with
      | true =>
        intro h
        cases h
      | false =>
        simp only
        rcases firstMove_cases N W cur prev with h1 | ⟨k, -, -, -, d', -, h1⟩ | ⟨h1, -⟩
        · rw [h1]
          intro h
          cases h
        · rw [h1]
          exact ih d' _ _
        · rw [h1]
          intro h
          cases h

theorem firstMove_of_sides {N : Nat} {W : Maze} {c : Nat} (p : Nat) {s0 s1 s2 s3 : Int}
    (e0 : side W c 0 = some s0) (e1 : side W c 1 = some s1) (e2 : side W c 2 = some s2)
    (e3 : side W c 3 = some s3) :
    firstMove N W c p = .exit1 ∨ ∃ m d, firstMove N W c p = .ok (m, d) := by
  by_cases c0 : s0 = 0 ∧ p ≠ usub c 1
  · exact Or.inr ⟨_, _, firstMove_take0 e0 c0⟩
  · by_cases c1 : s1 = 0 ∧ p ≠ usub c N
    · exact Or.inr ⟨_, _, firstMove_take1 e0 c0 e1 c1⟩
    · by_cases c2 : s2 = 0 ∧ p ≠ uadd c 1
      · exact Or.inr ⟨_, _, firstMove_take2 e0 c0 e1 c1 e2 c2⟩
      · by_cases c3 : s3 = 0 ∧ p ≠ uadd c N
        · exact Or.inr ⟨_, _, firstMove_take3 e0 c0 e1 c1 e2 c2 e3 c3⟩
        · exact Or.inl (firstMove_stuck e0 c0 e1 c1 e2 c2 e3 c3)

/-- C19: a cell that `findDeadEnds` pushes is no intersection of the same
grid: it is neither `0` nor the last cell and at most one of its sides is
Open. A walk started from it therefore ends through `exit(1)` at once or makes
a move, and it never builds its record from the unassigned local
`directionComingFrom`. -/
theorem emitted_not_intersection (stack P : List Nat) (walls : Maze) (stack1 P1 : List Nat)
    (h : findDeadEnds stack P walls = .ok (stack1, P1)) (d : Nat) (hd : d ∈ stack1)
    (hnew : d ∉ stack) :
    isIntersection d walls = some false ∧
    (∀ N fuel, backtrackOne fuel N walls d ≠ .uninitialised) ∧
    (∀ N fuel, backtrackOne (fuel + 1) N walls d = .exit1 ∨
      ∃ m dir, firstMove N walls d d = .ok (m, dir) ∧
        backtrackOne (fuel + 1) N walls d = backtrackWalk N walls fuel (some dir) m d) := by
  unfold findDeadEnds at h
  rcases findDeadEndsFrom_new _ 1 stack P stack1 P1 h d hd with h1 | ⟨a, b, hde⟩
  · exact absurd h1 hnew
  · have hi : isIntersection d walls = some false :=
      isIntersection_false_of_isDeadEnd hde (by omega) (by omega)
    obtain ⟨s0, s1, s2, s3, e0, e1, e2, e3, -⟩ := isDeadEnd_sides hde
    have hmove : ∀ N fuel, backtrackOne (fuel + 1) N walls d = .exit1 ∨
        ∃ m dir, firstMove N walls d d = .ok (m, dir) ∧
          backtrackOne (fuel + 1) N walls d = backtrackWalk N walls fuel (some dir) m d := by
      intro N fuel
      unfold backtrackOne
      rcases @firstMove_of_sides N walls d d s0 s1 s2 s3 e0 e1 e2 e3 with he | ⟨m, dir, hm⟩
      · left
        rw [backtrackWalk_succ, hi]
        simp only [he, Outcome.bind]
      · right
        exact ⟨m, dir, hm, backtrackWalk_move hi hm fuel none⟩
    refine ⟨hi, ?_, hmove⟩
    intro N fuel
    cases fuel with
    | zero =>
      intro h
      cases h
    | succ n =>
      rcases hmove N n with he | ⟨m, dir, -, he⟩
      · rw [he]
        intro h
        cases h
      · rw [he]
        exact backtrackWalk_some_ne_uninitialised N walls n dir m d

/-- C19, witness: on the 2 x 2 maze with a dead end at cell 2 the scan pushes
cell 2, which is no intersection; its walk moves to cell 3. -/
theorem emitted_not_intersection_witness :
    findDeadEnds [] [] branchGrid = .ok ([2], [2]) ∧
    (isIntersection 2 branchGrid = some false ∧
      (∀ N fuel, backtrackOne fuel N branchGrid 2 ≠ .uninitialised) ∧
      (∀ N fuel, backtrackOne (fuel + 1) N branchGrid 2 = .exit1 ∨
        ∃ m dir, firstMove N branchGrid 2 2 = .ok (m, dir) ∧
          backtrackOne (fuel + 1) N branchGrid 2 =
            backtrackWalk N branchGrid fuel (some dir) m 2)) ∧
    backtrackOne 2 2 branchGrid 2 = .ok ⟨.LEFT, 3⟩ :=
  ⟨by decide,
    emitted_not_intersection [] [] branchGrid [2] [2] (by decide) 2 (by decide) (by decide),
    by decide⟩

end MazeSolver

namespace MazeSolver

/-! ## The states of a backtrack walk -/

theorem walkAfter_succ (N : Nat) (W : Maze) (j : Nat) (s : Option Direction × Nat × Nat) :
    walkAfter N W (j + 1) s =
      match isIntersection s.2.1 W with
      | some false =>
        match firstMove N W s.2.1 s.2.2 with
        | .ok m => walkAfter N W j (some m.2, m.1, s.2.1)
        | _ => none
      | _ => none := rfl

theorem walkAfter_first {N : Nat} {W : Maze} {j : Nat} {s t : Option Direction × Nat × Nat}
    (h : walkAfter N W (j + 1) s = some t) :
    isIntersection s.2.1 W = some false ∧
      ∃ m d, firstMove N W s.2.1 s.2.2 = .ok (m, d) ∧
        walkAfter N W j (some d, m, s.2.1) = some t := by
  rw [walkAfter_succ] at h
  cases hi : isIntersection s.2.1 W with
  | none =>
    rw [hi] at h
    cases h
  | some b =>
    cases b with
    | true =>
      rw [hi] at h
      cases h
    | false =>
      rw [hi] at h
      simp only at h
      cases hm : firstMove N W s.2.1 s.2.2 with
      | ok m =>
        rw [hm] at h
        exact ⟨rfl, m.1, m.2, rfl, h⟩
      | exit1 =>
        rw [hm] at h
        cases h
      | outOfRange =>
        rw [hm] at h
        cases h
      | uninitialised =>
        rw [hm] at h
        cases h
      | running =>
        rw [hm] at h
        cases h

theorem walkAfter_one {N : Nat} {W : Maze} {s t : Option Direction × Nat × Nat}
    (h : walkAfter N W 1 s = some t) :
    isIntersection s.2.1 W = some false ∧
      ∃ m d, firstMove N W s.2.1 s.2.2 = .ok (m, d) ∧ t = (some d, m, s.2.1) := by
  obtain ⟨hi, m, d, hm, ht⟩ := walkAfter_first h
  exact ⟨hi, m, d, hm, (Option.some.inj ht).symm⟩

theorem walkAfter_move {N : Nat} {W : Maze} {cur prev m : Nat} {d : Direction}
    (hi : isIntersection cur W = some false) (hm : firstMove N W cur prev = .ok (m, d))
    (j : Nat) (dir : Option Direction) :
    walkAfter N W (j + 1) (dir, cur, prev) = walkAfter N W j (some d, m, cur) := by
  rw [walkAfter_succ]
  simp only [hi, hm]

theorem walkAfter_snoc (N : Nat) (W : Maze) (j : Nat) (s : Option Direction × Nat × Nat) :
    walkAfter N W (j + 1) s =
      match walkAfter N W j s with
      | none => none
      | some s1 => walkAfter N W 1 s1 := by
  induction j generalizing s with
  | zero => rfl
  | succ n ih =>
    rw [walkAfter_succ N W (n + 1), walkAfter_succ N W n]
    cases hi : isIntersection s.2.1 W with
    | none => rfl
    | some b =>
      cases b with
      | true => rfl
      | false =>
        simp only
        cases hm : firstMove N W s.2.1 s.2.2 with
        | ok m =>
          simp only
          exact ih _
        | exit1 => rfl
        | outOfRange => rfl
        | uninitialised => rfl
        | running => rfl

theorem walkAfter_last {N : Nat} {W : Maze} {j : Nat} {s t : Option Direction × Nat × Nat}
    (h : walkAfter N W (j + 1) s = some t) :
    ∃ s1, walkAfter N W j s = some s1 ∧ walkAfter N W 1 s1 = some t := by
  rw [walkAfter_snoc] at h
  cases hs : walkAfter N W j s with
  | none =>
    rw [hs] at h
    cases h
  | some s1 =>
    rw [hs] at h
    exact ⟨s1, rfl, h⟩

theorem walkAfter_prefix {N : Nat} {W : Maze} (j : Nat) {s t : Option Direction × Nat × Nat}
    (h : walkAfter N W j s = some t) :
    ∀ i, i < j → ∃ s1, walkAfter N W i s = some s1 ∧ isIntersection s1.2.1 W = some false := by
  induction j generalizing t with
  | zero =>
    intro i hi
    omega
  | succ n ih =>
    obtain ⟨s1, h1, h2⟩ := walkAfter_last h
    intro i hi
    by_cases e : i = n
    · rw [e]
      exact ⟨s1, h1, (walkAfter_one h2).1⟩
    · exact ih h1 i (by omega)

theorem target_lt (N c k : Nat) : target N c k < 4294967296 := by
  unfold target
  split_ifs
  · unfold usub UINT_RANGE
    omega
  · unfold usub UINT_RANGE
    omega
  · unfold uadd UINT_RANGE
    omega
  · unfold uadd UINT_RANGE
    omega

theorem walkAfter_cur_lt {N : Nat} {W : Maze} (j : Nat) {s t : Option Direction × Nat × Nat}
    (h : walkAfter N W j s = some t) (hs : s.2.1 < 4294967296) : t.2.1 < 4294967296 := by
  cases j with
  | zero =>
    have e : s = t := Option.some.inj h
    rw [← e]
    exact hs
  | succ n =>
    obtain ⟨s1, -, h2⟩ := walkAfter_last h
    obtain ⟨-, m, d, hm, ht⟩ := walkAfter_one h2
    obtain ⟨k, -, -, hk, -, -⟩ := firstMove_ok hm
    rw [ht, hk]
    exact target_lt N _ k

theorem target_opposite (N : Nat) {p k : Nat} (hp : p < 4294967296) (hk : k < 4) :
    target N (target N p k) (opposite k) = p := by
  interval_cases k
  · have e : opposite 0 = 2 := rfl
    rw [e, target_zero, target_two]
    unfold usub uadd UINT_RANGE
    omega
  · have e : opposite 1 = 3 := rfl
    rw [e, target_one, target_three]
    unfold usub uadd UINT_RANGE
    omega
  · have e : opposite 2 = 0 := rfl
    rw [e, target_two, target_zero]
    unfold usub uadd UINT_RANGE
    omega
  · have e : opposite 3 = 1 := rfl
    rw [e, target_three, target_one]
    unfold usub uadd UINT_RANGE
    omega

theorem backtrackWalk_walkAfter {N : Nat} {W : Maze} (j : Nat) {dir dir1 : Option Direction}
    {cur prev c p : Nat} (h : walkAfter N W j (dir, cur, prev) = some (dir1, c, p))
    (fuel : Nat) :
    backtrackWalk N W (j + fuel) dir cur prev = backtrackWalk N W fuel dir1 c p := by
  induction j generalizing dir cur prev with
  | zero =>
    have e : (dir, cur, prev) = (dir1, c, p) := Option.some.inj h
    cases e
    rw [Nat.zero_add]
  | succ n ih =>
    obtain ⟨hi, m, d, hm, ht⟩ := walkAfter_first h
    have e : n + 1 + fuel = n + fuel + 1 := by omega
    rw [e, backtrackWalk_move hi hm]
    exact ih ht

theorem backtrackWalk_ok_walkAfter {N : Nat} {W : Maze} (fuel : Nat) {dir : Option Direction}
    {cur prev : Nat} {r : NewDeadEnd} (h : backtrackWalk N W fuel dir cur prev = .ok r) :
    ∃ j p, walkAfter N W j (dir, cur, prev) = some (some r.direction, r.id, p) ∧
      isIntersection r.id W = some true := by
  induction fuel generalizing dir cur prev with
  | zero => cases h
  | succ n ih =>
    rw [backtrackWalk_succ] at h
    cases hi : isIntersection cur W with
    | none =>
      rw [hi] at h
      cases h
    | some b =>
      rw [hi] at h
      cases b with
      | true =>
        cases dir with
        | none => cases h
        | some d =>
          have e := Outcome.ok.inj h
          refine ⟨0, prev, ?_, ?_⟩
          · rw [← e]
            rfl
          · rw [← e]
            exact hi
      | false =>
        simp only at h
        obtain ⟨m, hm, hr⟩ := Outcome.bind_eq_ok h
        obtain ⟨j, p, hw, hint⟩ := ih hr
        exact ⟨j + 1, p, by rw [walkAfter_move hi hm]; exact hw, hint⟩

theorem drain_not_ok_of_exit1 (fuel N : Nat) (W : Maze) (d : Nat)
    (hd : backtrackOne fuel N W d = .exit1) (stack : List Nat) (hmem : d ∈ stack)
    (busy : Nat) (rs : List NewDeadEnd) : drain fuel N W stack busy ≠ .ok rs := by
  induction stack generalizing busy rs with
  | nil => cases hmem
  | cons a rest ih =>
    intro h
    unfold drain at h
    split_ifs at h
    rcases List.mem_cons.mp hmem with e | e
    · rw [← e, hd] at h
      cases h
    · cases ha : backtrackOne fuel N W a with
      | ok r =>
        rw [ha] at h
        obtain ⟨rs1, h1, -⟩ := Outcome.bind_eq_ok h
        exact ih e busy rs1 h1
      | running =>
        rw [ha] at h
        obtain ⟨rs1, -, h2⟩ := Outcome.bind_eq_ok h
        cases h2
      | exit1 =>
        rw [ha] at h
        cases h
      | outOfRange =>
        rw [ha] at h
        cases h
      | uninitialised =>
        rw [ha] at h
        cases h

theorem drain_top_exit1 (fuel N : Nat) (W : Maze) (d : Nat)
    (hd : backtrackOne fuel N W d = .exit1) (rest : List Nat) (busy : Nat)
    (hb : busy < NUM_THREADS) : drain fuel N W (d :: rest) busy = .exit1 := by
  unfold drain
  rw [if_neg (by omega), hd]

/-- C14: the record of a walk that ends normally. Started from the dead end
`d`, the walk makes `j + 1` moves over cells that are no intersections and
stops at the first cell `c = r.id` for which `isIntersection` holds; the last
move left the cell `p` through its Open side `k`, and the recorded side
`r.direction` is the side of `c` facing back: its neighbour on that side is
`p`. The recorded cell is not the dead end `d`. -/
theorem record_names_intersection_side (N : Nat) (walls : Maze) (fuel d : Nat)
    (hd : d < 4294967296) (r : NewDeadEnd) (h : backtrackOne fuel N walls d = .ok r) :
    ∃ j p k,
      walkAfter N walls (j + 1) (none, d, d) = some (some r.direction, r.id, p) ∧
      (∀ i, i ≤ j → ∃ s, walkAfter N walls i (none, d, d) = some s ∧
        isIntersection s.2.1 walls = some false) ∧
      isIntersection r.id walls = some true ∧
      (∃ s, walkAfter N walls j (none, d, d) = some s ∧ s.2.1 = p) ∧
      k < 4 ∧ side walls p k = some 0 ∧ r.id = target N p k ∧
      r.direction.toNat = opposite k ∧ target N r.id r.direction.toNat = p ∧ r.id ≠ d := by
  unfold backtrackOne at h
  obtain ⟨j0, p, hw, hint⟩ := backtrackWalk_ok_walkAfter fuel h
  cases j0 with
  | zero =>
    have e := Option.some.inj hw
    have e1 := congrArg Prod.fst e
    cases e1
  | succ j =>
    obtain ⟨s1, h1, h2⟩ := walkAfter_last hw
    obtain ⟨hi, m, dir, hm, ht⟩ := walkAfter_one h2
    have hdir : r.direction = dir := Option.some.inj (congrArg Prod.fst ht)
    have hid : r.id = m := congrArg (fun t => t.2.1) ht
    have hp : p = s1.2.1 := congrArg (fun t => t.2.2) ht
    obtain ⟨k, hk, hside, hmk, hdk, -⟩ := firstMove_ok hm
    have hplt : s1.2.1 < 4294967296 := walkAfter_cur_lt j h1 hd
    have hpre := walkAfter_prefix (j + 1) hw
    refine ⟨j, p, k, hw, fun i hi => hpre i (by omega), hint, ⟨s1, h1, hp.symm⟩, hk, ?_, ?_, ?_,
      ?_, ?_⟩
    · rw [hp]
      exact hside
    · rw [hid, hp]
      exact hmk
    · rw [hdir]
      exact hdk
    · rw [hid, hdir, hdk, hmk, hp]
      exact target_opposite N hplt hk
    · intro e
      obtain ⟨s0, hs0, hi0⟩ := hpre 0 (by omega)
      have e0 : (none, d, d) = s0 := Option.some.inj hs0
      rw [← e0] at hi0
      rw [e] at hint
      rw [hint] at hi0
      cases hi0

/-- C14, witness: on the 2 x 2 maze with a dead end at cell 2 the walk from
cell 2 makes one move, to the end cell 3, and records side Left of cell 3. -/
theorem record_names_intersection_side_witness :
    backtrackOne 2 2 branchGrid 2 = .ok ⟨.LEFT, 3⟩ ∧
    ∃ j p k,
      walkAfter 2 branchGrid (j + 1) (none, 2, 2) = some (some Direction.LEFT, 3, p) ∧
      (∀ i, i ≤ j → ∃ s, walkAfter 2 branchGrid i (none, 2, 2) = some s ∧
        isIntersection s.2.1 branchGrid = some false) ∧
      isIntersection 3 branchGrid = some true ∧
      (∃ s, walkAfter 2 branchGrid j (none, 2, 2) = some s ∧ s.2.1 = p) ∧
      k < 4 ∧ side branchGrid p k = some 0 ∧ 3 = target 2 p k ∧
      Direction.LEFT.toNat = opposite k ∧ target 2 3 Direction.LEFT.toNat = p ∧ 3 ≠ 2 :=
  ⟨by decide, record_names_intersection_side 2 branchGrid 2 2 (by decide) ⟨.LEFT, 3⟩ (by decide)⟩

theorem loopBody_top_exit1 (walkFuel N : Nat) (W : Maze) (P stack : List Nat) (d : Nat)
    (rest P1 : List Nat) (hf : findDeadEnds stack P W = .ok (d :: rest, P1))
    (hd : backtrackOne walkFuel N W d = .exit1) (assign : Nat → Nat) :
    loopBody walkFuel assign N W P stack = .exit1 := by
  unfold loopBody
  rw [hf]
  simp only [Outcome.bind]
  rw [drain_top_exit1 walkFuel N W d hd rest 0 (by decide)]

/-- C15: a walk that stands on a cell `cur` which is no intersection and none
of whose Open sides leads anywhere but to the previous cell ends through
`exit(1)` in that pass of its loop. So does the walk of the dead end `d` that
came to stand there after `j` moves. The workers then hand over no records,
wherever in the stack `d` was: the pass of the fixpoint loop that emitted `d`
applies no block, and with `d` popped first the pass and the solve end through
`exit(1)`. -/
theorem stuck_walk_exits (N : Nat) (walls : Maze) (cur prev : Nat)
    (hi : isIntersection cur walls = some false)
    (hstuck : ∀ k, k < 4 → side walls cur k = some 0 → target N cur k = prev) :
    (∀ fuel dir, backtrackWalk N walls (fuel + 1) dir cur prev = .exit1) ∧
    ∀ j d dir, walkAfter N walls j (none, d, d) = some (dir, cur, prev) →
      ∀ fuel, backtrackOne (j + (fuel + 1)) N walls d = .exit1 ∧
        (∀ stack busy rs, d ∈ stack → drain (j + (fuel + 1)) N walls stack busy ≠ .ok rs) ∧
        (∀ assign P stack found r, findDeadEnds stack P walls = .ok found → d ∈ found.1 →
          loopBody (j + (fuel + 1)) assign N walls P stack ≠ .ok r) ∧
        (∀ assign P stack rest P1, findDeadEnds stack P walls = .ok (d :: rest, P1) →
          loopBody (j + (fuel + 1)) assign N walls P stack = .exit1) ∧
        (∀ sched P rest P1, N = Nat.sqrt walls.length →
          findDeadEnds [] P walls = .ok (d :: rest, P1) →
          SolveMazeFrom (j + (fuel + 1)) sched P walls = .exit1) := by
  have hwalk : ∀ fuel dir, backtrackWalk N walls (fuel + 1) dir cur prev = .exit1 := by
    intro fuel dir
    rw [backtrackWalk_succ, hi]
    simp only
    obtain ⟨-, -, s0, s1, s2, s3, e0, e1, e2, e3, -⟩ := isIntersection_false_sides hi
    rcases @firstMove_of_sides N walls cur prev s0 s1 s2 s3 e0 e1 e2 e3 with he | ⟨m, d, hm⟩
    · rw [he]
      rfl
    · exfalso
      obtain ⟨k, hk, hside, hmk, -, hne⟩ := firstMove_ok hm
      exact hne (by rw [hmk]; exact (hstuck k hk hside).symm)
  refine ⟨hwalk, ?_⟩
  intro j d dir hw fuel
  have hone : backtrackOne (j + (fuel + 1)) N walls d = .exit1 := by
    unfold backtrackOne
    rw [backtrackWalk_walkAfter j hw (fuel + 1)]
    exact hwalk fuel dir
  refine ⟨hone,
    fun stack busy rs hmem => drain_not_ok_of_exit1 _ N walls d hone stack hmem busy rs, ?_,
    fun assign P stack rest P1 hf => loopBody_top_exit1 _ N walls P stack d rest P1 hf hone assign,
    ?_⟩
  · intro assign P stack found r hf hin hok
    unfold loopBody at hok
    obtain ⟨found1, hf1, h2⟩ := Outcome.bind_eq_ok hok
    obtain ⟨recs, hdr, -⟩ := Outcome.bind_eq_ok h2
    rw [hf] at hf1
    have e : found = found1 := Outcome.ok.inj hf1
    rw [e] at hin
    exact drain_not_ok_of_exit1 _ N walls d hone found1.1 hin 0 recs hdr
  · intro sched P rest P1 hN hf
    unfold SolveMazeFrom
    have e : j + (fuel + 1) = j + fuel + 1 := by omega
    rw [e, fixpointLoop_succ, ← hN, ← e]
    rw [loopBody_top_exit1 _ N walls P [] d rest P1 hf hone (sched 0)]
    rfl

/-- C15, witness: cell 2 of the 2 x 2 grid whose cell 2 has four Walls is
emitted by the scan and is no intersection; its walk has no move and ends
through `exit(1)`, and so does the solve. -/
theorem stuck_walk_exits_witness :
    isIntersection 2 grid2x2 = some false ∧
    findDeadEnds [] [] grid2x2 = .ok ([2], [2]) ∧
    ((∀ fuel dir, backtrackWalk 2 grid2x2 (fuel + 1) dir 2 2 = .exit1) ∧
    ∀ j d dir, walkAfter 2 grid2x2 j (none, d, d) = some (dir, 2, 2) →
      ∀ fuel, backtrackOne (j + (fuel + 1)) 2 grid2x2 d = .exit1 ∧
        (∀ stack busy rs, d ∈ stack → drain (j + (fuel + 1)) 2 grid2x2 stack busy ≠ .ok rs) ∧
        (∀ assign P stack found r, findDeadEnds stack P grid2x2 = .ok found → d ∈ found.1 →
          loopBody (j + (fuel + 1)) assign 2 grid2x2 P stack ≠ .ok r) ∧
        (∀ assign P stack rest P1, findDeadEnds stack P grid2x2 = .ok (d :: rest, P1) →
          loopBody (j + (fuel + 1)) assign 2 grid2x2 P stack = .exit1) ∧
        (∀ sched P rest P1, 2 = Nat.sqrt grid2x2.length →
          findDeadEnds [] P grid2x2 = .ok (d :: rest, P1) →
          SolveMazeFrom (j + (fuel + 1)) sched P grid2x2 = .exit1)) :=
  ⟨by decide, by decide,
    stuck_walk_exits 2 grid2x2 2 2 (by decide) (by
      intro k hk hs
      exfalso
      interval_cases k <;> simp [side, grid2x2] at hs)⟩

end MazeSolver

namespace MazeSolver

/-! ## The path construction walk -/

theorem pathAfter_succ (N : Nat) (W : Maze) (j : Nat) (s : Nat × Nat × List Int) :
    pathAfter N W (j + 1) s =
      if s.1 = lastIndex W then none
      else
        match firstMove N W s.1 s.2.1 with
        | .ok m => pathAfter N W j (m.1, s.1, s.2.2 ++ [(s.1 : Int)])
        | _ => none := rfl

theorem pathAfter_first {N : Nat} {W : Maze} {j : Nat} {s t : Nat × Nat × List Int}
    (h : pathAfter N W (j + 1) s = some t) :
    s.1 ≠ lastIndex W ∧ ∃ m d, firstMove N W s.1 s.2.1 = .ok (m, d) ∧
      pathAfter N W j (m, s.1, s.2.2 ++ [(s.1 : Int)]) = some t := by
  rw [pathAfter_succ] at h
  by_cases hl : s.1 = lastIndex W
  · rw [if_pos hl] at h
    cases h
  · rw [if_neg hl] at h
    refine ⟨hl, ?_⟩
    cases hm : firstMove N W s.1 s.2.1 with
    | ok m =>
      rw [hm] at h
      exact ⟨m.1, m.2, rfl, h⟩
    | exit1 =>
      rw [hm] at h
      cases h
    | outOfRange =>
      rw [hm] at h
      cases h
    | uninitialised =>
      rw [hm] at h
      cases h
    | running =>
      rw [hm] at h
      cases h

theorem pathWalk_move {N : Nat} {W : Maze} {cell prev m : Nat} {d : Direction}
    (hl : cell ≠ lastIndex W) (hm : firstMove N W cell prev = .ok (m, d)) (fuel : Nat)
    (acc : List Int) :
    pathWalk N W (fuel + 1) cell prev acc = pathWalk N W fuel m cell (acc ++ [(cell : Int)]) := by
  rw [pathWalk_succ, if_neg hl]
  simp only [hm, Outcome.bind]

theorem pathWalk_pathAfter {N : Nat} {W : Maze} (j : Nat) {cell prev c p : Nat}
    {acc acc1 : List Int} (h : pathAfter N W j (cell, prev, acc) = some (c, p, acc1))
    (fuel : Nat) :
    pathWalk N W (j + fuel) cell prev acc = pathWalk N W fuel c p acc1 := by
  induction j generalizing cell prev acc with
  | zero =>
    have e : (cell, prev, acc) = (c, p, acc1) := Option.some.inj h
    cases e
    rw [Nat.zero_add]
  | succ n ih =>
    obtain ⟨hl, m, d, hm, ht⟩ := pathAfter_first h
    have e : n + 1 + fuel = n + fuel + 1 := by omega
    rw [e, pathWalk_move hl hm]
    exact ih ht

theorem pathWalk_stuck {N : Nat} {W : Maze} {cell prev : Nat} (hl : cell ≠ lastIndex W)
    (hread : ∀ k, k < 4 → ∃ s, side W cell k = some s)
    (hstuck : ∀ k, k < 4 → side W cell k = some 0 → target N cell k = prev)
    (fuel : Nat) (acc : List Int) : pathWalk N W (fuel + 1) cell prev acc = .exit1 := by
  rw [pathWalk_succ, if_neg hl]
  obtain ⟨s0, e0⟩ := hread 0 (by omega)
  obtain ⟨s1, e1⟩ := hread 1 (by omega)
  obtain ⟨s2, e2⟩ := hread 2 (by omega)
  obtain ⟨s3, e3⟩ := hread 3 (by omega)
  rcases @firstMove_of_sides N W cell prev s0 s1 s2 s3 e0 e1 e2 e3 with he | ⟨m, d, hm⟩
  · rw [he]
    rfl
  · exfalso
    obtain ⟨k, hk, hside, hmk, -, hne⟩ := firstMove_ok hm
    exact hne (by rw [hmk]; exact (hstuck k hk hside).symm)

theorem pathWalk_cells {N : Nat} {W : Maze} (fuel : Nat) {cell prev : Nat} {acc path : List Int}
    (h : pathWalk N W fuel cell prev acc = .ok path) :
    ∃ rest : List Nat, path = acc ++ (cell :: rest).map (fun c : Nat => (c : Int)) ∧
      PathCells N W prev (cell :: rest) := by
  induction fuel generalizing cell prev acc with
  | zero => cases h
  | succ n ih =>
    rw [pathWalk_succ] at h
    by_cases hl : cell = lastIndex W
    · rw [if_pos hl] at h
      have e := Outcome.ok.inj h
      refine ⟨[], ?_, hl⟩
      rw [← e, hl]
      rfl
    · rw [if_neg hl] at h
      obtain ⟨m, hm, hr⟩ := Outcome.bind_eq_ok h
      obtain ⟨rest, hp, hc⟩ := ih hr
      obtain ⟨k, hk, hside, hmk, -, hne⟩ := @firstMove_ok N W cell prev m.1 m.2 hm
      refine ⟨m.1 :: rest, ?_, hl, ⟨k, hk, hside, hmk⟩, fun e => hne e.symm, hc⟩
      rw [hp]
      simp

theorem PathCells_facts {N : Nat} {W : Maze} (hpos : 0 < W.length)
    (hsmall : W.length < 2147483648) (cells : List Nat) (prev : Nat)
    (h : PathCells N W prev cells) :
    (∀ c ∈ cells, c < W.length) ∧
    List.Chain' (fun a b : Nat => a < W.length ∧ b < W.length ∧
      ∃ k, k < 4 ∧ side W a k = some 0 ∧ b = target N a k) cells ∧
    cells.getLast? = some (W.length - 1) ∧
    (∀ i a, cells[i]? = some a → i + 1 < cells.length → a ≠ W.length - 1) ∧
    (∀ b, cells[1]? = some b → b ≠ prev) ∧
    (∀ i a b, cells[i]? = some a → cells[i + 2]? = some b → a ≠ b) := by
  have hlast := lastIndex_eq hpos hsmall
  induction cells generalizing prev with
  | nil => exact absurd h (by simp [PathCells])
  | cons c tl ih =>
    cases tl with
    | nil =>
      have hc : c = lastIndex W := h
      rw [hlast] at hc
      refine ⟨?_, List.chain'_singleton c, by simp [hc], ?_, ?_, ?_⟩
      · intro x hx
        rw [List.mem_singleton] at hx
        omega
      · intro i a _ hi
        simp at hi
      · intro b hb
        simp at hb
      · intro i a b _ hb
        simp at hb
    | cons b rest =>
      obtain ⟨hl, ⟨k, hk, hside, hb⟩, hne, hrest⟩ :
          c ≠ lastIndex W ∧ (∃ k, k < 4 ∧ side W c k = some 0 ∧ b = target N c k) ∧ b ≠ prev ∧
            PathCells N W c (b :: rest) := h
      obtain ⟨h1, h2, h3, h4, h5, h6⟩ := ih c hrest
      have hc : c < W.length := side_some_lt hside
      have hbl : b < W.length := h1 b (by simp)
      refine ⟨?_, ?_, ?_, ?_, ?_, ?_⟩
      · intro x hx
        rcases List.mem_cons.mp hx with e | e
        · rw [e]
          exact hc
        · exact h1 x e
      · exact List.Chain'.cons ⟨hc, hbl, k, hk, hside, hb⟩ h2
      · rw [List.getLast?_cons_cons]
        exact h3
      · intro i a ha hi
        cases i with
        | zero =>
          have e : c = a := by simpa using ha
          rw [← e, ← hlast]
          exact hl
        | succ n =>
          have ha' : (b :: rest)[n]? = some a := by simpa using ha
          exact h4 n a ha' (by simp at hi ⊢; omega)
      · intro x hx
        have e : b = x := by simpa using hx
        rw [← e]
        exact hne
      · intro i a x ha hx
        cases i with
        | zero =>
          have e : c = a := by simpa using ha
          have hx' : (b :: rest)[1]? = some x := by simpa using hx
          rw [← e]
          exact fun e2 => h5 x hx' e2.symm
        | succ n =>
          have ha' : (b :: rest)[n]? = some a := by simpa using ha
          have hx' : (b :: rest)[n + 2]? = some x := by simpa using hx
          exact h6 n a x ha' hx'

theorem target_diff {N L a b k : Nat} (hN : L = N * N) (hL : L < 2147483648) (ha : a < L)
    (hb : b < L) (hk : k < 4) (h : b = target N a k) :
    (k = 0 ∧ (b : Int) - a = -1) ∨ (k = 1 ∧ (b : Int) - a = -(N : Int)) ∨
      (k = 2 ∧ (b : Int) - a = 1) ∨ (k = 3 ∧ (b : Int) - a = N) := by
  have hN1 : N < 65536 := by
    by_contra hge
    have h1 : 65536 * 65536 ≤ N * N := Nat.mul_le_mul (by omega) (by omega)
    omega
  interval_cases k
  · rw [target_zero] at h
    unfold usub UINT_RANGE at h
    omega
  · rw [target_one] at h
    unfold usub UINT_RANGE at h
    omega
  · rw [target_two] at h
    unfold uadd UINT_RANGE at h
    omega
  · rw [target_three] at h
    unfold uadd UINT_RANGE at h
    omega

theorem sideAt_natCast (W : Maze) (a k : Nat) : sideAt W (a : Int) k = side W a k := by
  unfold sideAt
  rw [if_pos (Int.ofNat_nonneg a), Int.toNat_ofNat]

/-- What a path returned by the path construction walk from cell `0` looks
like, on a grid of `N * N` cells, fewer than `2^31`. -/
theorem pathWalk_facts {N : Nat} {W : Maze} (hlen : W.length = N * N)
    (hsmall : W.length < 2147483648) {fuel : Nat} {path : List Int}
    (h : pathWalk N W fuel 0 0 [] = .ok path) :
    path.head? = some 0 ∧ path.getLast? = some ((W.length : Int) - 1) ∧
    (∀ i a, path[i]? = some a → i + 1 < path.length → a ≠ (W.length : Int) - 1) ∧
    List.Chain' (fun a b : Int =>
      (b - a = -1 ∧ sideAt W a 0 = some 0) ∨ (b - a = -(N : Int) ∧ sideAt W a 1 = some 0) ∨
      (b - a = 1 ∧ sideAt W a 2 = some 0) ∨ (b - a = N ∧ sideAt W a 3 = some 0)) path ∧
    (∀ i a b, path[i]? = some a → path[i + 2]? = some b → a ≠ b) := by
  obtain ⟨rest, hp, hc⟩ := pathWalk_cells fuel h
  rw [List.nil_append] at hp
  have hpos : 0 < W.length := by
    cases rest with
    | nil =>
      have h0 : 0 = lastIndex W := hc
      unfold lastIndex SIZE_RANGE at h0
      omega
    | cons b rest1 =>
      obtain ⟨-, ⟨k, -, hside, -⟩, -, -⟩ :
          0 ≠ lastIndex W ∧ (∃ k, k < 4 ∧ side W 0 k = some 0 ∧ b = target N 0 k) ∧ b ≠ 0 ∧
            PathCells N W 0 (b :: rest1) := hc
      exact side_some_lt hside
  obtain ⟨h1, h2, h3, h4, -, h6⟩ := PathCells_facts hpos hsmall (0 :: rest) 0 hc
  have hcast : ((W.length - 1 : Nat) : Int) = (W.length : Int) - 1 := by omega
  refine ⟨?_, ?_, ?_, ?_, ?_⟩
  · rw [hp]
    rfl
  · rw [hp, List.getLast?_map, h3, ← hcast]
    rfl
  · intro i a ha hi
    rw [hp, List.getElem?_map] at ha
    rw [hp, List.length_map] at hi
    cases hx : (0 :: rest)[i]? with
    | none =>
      rw [hx] at ha
      cases ha
    | some x =>
      rw [hx] at ha
      have e : (x : Int) = a := Option.some.inj ha
      have hne := h4 i x hx hi
      have hxl : x < W.length := by
        obtain ⟨hi1, he⟩ := List.getElem?_eq_some.mp hx
        rw [← he]
        exact h1 _ (List.getElem_mem _)
      omega
  · rw [hp, List.chain'_map]
    refine List.Chain'.imp ?_ h2
    intro a b ⟨ha, hb, k, hk, hside, hbk⟩
    rw [sideAt_natCast, sideAt_natCast, sideAt_natCast, sideAt_natCast]
    rcases target_diff hlen hsmall ha hb hk hbk with ⟨e, hd⟩ | ⟨e, hd⟩ | ⟨e, hd⟩ | ⟨e, hd⟩
    · rw [e] at hside
      exact Or.inl ⟨hd, hside⟩
    · rw [e] at hside
      exact Or.inr (Or.inl ⟨hd, hside⟩)
    · rw [e] at hside
      exact Or.inr (Or.inr (Or.inl ⟨hd, hside⟩))
    · rw [e] at hside
      exact Or.inr (Or.inr (Or.inr ⟨hd, hside⟩))
  · intro i a b ha hb
    rw [hp, List.getElem?_map] at ha hb
    cases hx : (0 :: rest)[i]? with
    | none =>
      rw [hx] at ha
      cases ha
    | some x =>
      cases hy : (0 :: rest)[i + 2]? with
      | none =>
        rw [hy] at hb
        cases hb
      | some y =>
        rw [hx] at ha
        rw [hy] at hb
        have e1 : (x : Int) = a := Option.some.inj ha
        have e2 : (y : Int) = b := Option.some.inj hb
        have hne := h6 i x y hx hy
        omega

/-- C16: on a grid of `N * N` cells (fewer than `2^31`, so that a cell index
is an `int`), a path that the path construction walk returns starts at `0`,
ends at `N * N - 1`, holds `N * N - 1` nowhere before its end, every
consecutive pair `(a, b)` differs by `-1`, `-N`, `+1` or `+N` with that side
of `a` Open in the grid, and `b` is never the cell two places before it. And
when the walk, after `j` moves, stands on a cell of the grid other than the
last one none of whose Open sides leads anywhere but to the previous cell, it
ends through `exit(1)`: no path is returned. -/
theorem pathWalk_path (N : Nat) (walls : Maze) (hlen : walls.length = N * N)
    (hsmall : walls.length < 2147483648) :
    (∀ fuel path, pathWalk N walls fuel 0 0 [] = .ok path →
      path.head? = some 0 ∧ path.getLast? = some (((N * N : Nat) : Int) - 1) ∧
      (∀ i a, path[i]? = some a → i + 1 < path.length → a ≠ ((N * N : Nat) : Int) - 1) ∧
      List.Chain' (fun a b : Int =>
        (b - a = -1 ∧ sideAt walls a 0 = some 0) ∨
        (b - a = -(N : Int) ∧ sideAt walls a 1 = some 0) ∨
        (b - a = 1 ∧ sideAt walls a 2 = some 0) ∨
        (b - a = N ∧ sideAt walls a 3 = some 0)) path ∧
      (∀ i a b, path[i]? = some a → path[i + 2]? = some b → a ≠ b)) ∧
    (∀ j cell prev acc, pathAfter N walls j (0, 0, []) = some (cell, prev, acc) →
      cell ≠ lastIndex walls → (∀ k, k < 4 → ∃ s, side walls cell k = some s) →
      (∀ k, k < 4 → side walls cell k = some 0 → target N cell k = prev) →
      ∀ fuel, pathWalk N walls (j + (fuel + 1)) 0 0 [] = .exit1) := by
  constructor
  · intro fuel path h
    have hf := pathWalk_facts hlen hsmall h
    rw [hlen] at hf
    exact hf
  · intro j cell prev acc hj hl hread hstuck fuel
    rw [pathWalk_pathAfter j hj (fuel + 1)]
    exact pathWalk_stuck hl hread hstuck fuel acc

/-- C16, witness: the 2 x 2 grid left when the dead end at cell 2 has been
blocked off; the walk returns `[0, 1, 3]`. -/
theorem pathWalk_path_witness :
    pathWalk 2 [[1, 1, 0, 1], [0, 1, 1, 0], [1, 1, 0, 1], [-1, 0, 1, 1]] 3 0 0 [] =
      .ok [0, 1, 3] ∧
    ((∀ fuel path,
      pathWalk 2 [[1, 1, 0, 1], [0, 1, 1, 0], [1, 1, 0, 1], [-1, 0, 1, 1]] fuel 0 0 [] =
        .ok path →
      path.head? = some 0 ∧ path.getLast? = some (((2 * 2 : Nat) : Int) - 1) ∧
      (∀ i a, path[i]? = some a → i + 1 < path.length → a ≠ ((2 * 2 : Nat) : Int) - 1) ∧
      List.Chain' (fun a b : Int =>
        (b - a = -1 ∧
          sideAt [[1, 1, 0, 1], [0, 1, 1, 0], [1, 1, 0, 1], [-1, 0, 1, 1]] a 0 = some 0) ∨
        (b - a = -((2 : Nat) : Int) ∧
          sideAt [[1, 1, 0, 1], [0, 1, 1, 0], [1, 1, 0, 1], [-1, 0, 1, 1]] a 1 = some 0) ∨
        (b - a = 1 ∧
          sideAt [[1, 1, 0, 1], [0, 1, 1, 0], [1, 1, 0, 1], [-1, 0, 1, 1]] a 2 = some 0) ∨
        (b - a = (2 : Nat) ∧
          sideAt [[1, 1, 0, 1], [0, 1, 1, 0], [1, 1, 0, 1], [-1, 0, 1, 1]] a 3 = some 0)) path ∧
      (∀ i a b, path[i]? = some a → path[i + 2]? = some b → a ≠ b)) ∧
    (∀ j cell prev acc,
      pathAfter 2 [[1, 1, 0, 1], [0, 1, 1, 0], [1, 1, 0, 1], [-1, 0, 1, 1]] j (0, 0, []) =
        some (cell, prev, acc) →
      cell ≠ lastIndex [[1, 1, 0, 1], [0, 1, 1, 0], [1, 1, 0, 1], [-1, 0, 1, 1]] →
      (∀ k, k < 4 → ∃ s,
        side [[1, 1, 0, 1], [0, 1, 1, 0], [1, 1, 0, 1], [-1, 0, 1, 1]] cell k = some s) →
      (∀ k, k < 4 →
        side [[1, 1, 0, 1], [0, 1, 1, 0], [1, 1, 0, 1], [-1, 0, 1, 1]] cell k = some 0 →
        target 2 cell k = prev) →
      ∀ fuel,
        pathWalk 2 [[1, 1, 0, 1], [0, 1, 1, 0], [1, 1, 0, 1], [-1, 0, 1, 1]] (j + (fuel + 1))
          0 0 [] = .exit1)) :=
  ⟨by decide,
    pathWalk_path 2 [[1, 1, 0, 1], [0, 1, 1, 0], [1, 1, 0, 1], [-1, 0, 1, 1]] (by decide)
      (by decide)⟩

end MazeSolver

namespace MazeSolver

/-! ## The solver only closes sides -/

theorem setSide_open {W W1 : Maze} {c k : Nat} (h : setSide W c k (-1) = some W1)
    {c1 k1 : Nat} (ho : side W1 c1 k1 = some 0) : side W c1 k1 = some 0 := by
  rw [setSide_side h c1 k1] at ho
  by_cases e : c1 = c ∧ k1 = k
  · rw [if_pos e] at ho
    cases ho
  · rw [if_neg e] at ho
    exact ho

theorem applyBlocks_open {W W1 : Maze} {recs : List NewDeadEnd}
    (h : applyBlocks W recs = some W1) {c k : Nat} (ho : side W1 c k = some 0) :
    side W c k = some 0 := by
  induction recs generalizing W with
  | nil =>
    cases h
    exact ho
  | cons r rest ih =>
    rw [applyBlocks_cons] at h
    cases hs : setSide W r.id r.direction.toNat (-1) with
    | none =>
      rw [hs] at h
      cases h
    | some W2 =>
      rw [hs] at h
      exact setSide_open hs (ih h)

theorem Reachable_open {N : Nat} {walls0 W : Maze} {P0 P : List Nat}
    (hr : Reachable N walls0 P0 W P) :
    W.length = walls0.length ∧ ∀ c k, side W c k = some 0 → side walls0 c k = some 0 := by
  induction hr with
  | start => exact ⟨rfl, fun _ _ h => h⟩
  | pass walkFuel assign W1 P1 r _ hbody ih =>
    obtain ⟨recs, -, -, -, ha, -⟩ := loopBody_ok_records hbody
    exact ⟨(applyBlocks_length ha).trans ih.1, fun c k h => ih.2 c k (applyBlocks_open ha h)⟩

theorem fixpointLoop_Reachable {N : Nat} {walls0 : Maze} {P0 : List Nat}
    (sched : Nat → Nat → Nat) (walkFuel fuel round : Nat) (flag : Bool) (W : Maze)
    (P : List Nat) (hr : Reachable N walls0 P0 W P) (s : Maze × List Nat)
    (h : fixpointLoop sched N walkFuel fuel round flag W P [] = .ok s) :
    Reachable N walls0 P0 s.1 s.2 := by
  induction fuel generalizing round W P with
  | zero => cases h
  | succ n ih =>
    cases flag with
    | true =>
      have e : fixpointLoop sched N walkFuel (n + 1) round true W P [] = .ok (W, P) := rfl
      rw [e] at h
      have e1 := Outcome.ok.inj h
      rw [← e1]
      exact hr
    | false =>
      rw [fixpointLoop_succ] at h
      obtain ⟨r, hbody, hrest⟩ := Outcome.bind_eq_ok h
      obtain ⟨recs, -, -, -, -, hd⟩ := loopBody_ok_records hbody
      rw [hd] at hrest
      exact ih (round + 1) r.walls r.treated
        (Reachable.pass walkFuel (sched round) W P r hr hbody) hrest

theorem validateSteps_of_chain (N : Nat) (hN : 2 ≤ N) (walls : Maze) (path : List Int)
    (h : List.Chain' (fun a b : Int =>
      (b - a = -1 ∧ sideAt walls a 0 = some 0) ∨ (b - a = -(N : Int) ∧ sideAt walls a 1 = some 0) ∨
      (b - a = 1 ∧ sideAt walls a 2 = some 0) ∨ (b - a = N ∧ sideAt walls a 3 = some 0)) path) :
    validateSteps N walls path = some true := by
  induction path with
  | nil => rfl
  | cons a tl ih =>
    cases tl with
    | nil => rfl
    | cons b rest =>
      rw [List.chain'_cons] at h
      have ih1 := ih h.2
      unfold validateSteps
      rcases h.1 with ⟨hd, hs⟩ | ⟨hd, hs⟩ | ⟨hd, hs⟩ | ⟨hd, hs⟩
      · rw [if_neg (by omega), if_pos hd, hs]
        simp only
        rw [if_neg (by decide)]
        exact ih1
      · rw [if_neg (by omega), if_neg (by omega), if_neg (by omega), if_pos (by omega), hs]
        simp only
        rw [if_neg (by decide)]
        exact ih1
      · rw [if_pos hd, hs]
        simp only
        rw [if_neg (by decide)]
        exact ih1
      · rw [if_neg (by omega), if_neg (by omega), if_pos hd, hs]
        simp only
        rw [if_neg (by decide)]
        exact ih1

theorem ValidatePath_of_pathWalk {N : Nat} {walls0 W : Maze} (hlen : walls0.length = N * N)
    (hN : 2 ≤ N) (hsmall : walls0.length < 2147483648) (hWlen : W.length = walls0.length)
    (hopen : ∀ c k, side W c k = some 0 → side walls0 c k = some 0) {fuel : Nat}
    {p : List Int} (h : pathWalk N W fuel 0 0 [] = .ok p) :
    ValidatePath N walls0 p = some true := by
  have hlenW : W.length = N * N := hWlen.trans hlen
  obtain ⟨h1, h2, -, h4, -⟩ := pathWalk_facts hlenW (by omega) h
  have hchain : List.Chain' (fun a b : Int =>
      (b - a = -1 ∧ sideAt walls0 a 0 = some 0) ∨
      (b - a = -(N : Int) ∧ sideAt walls0 a 1 = some 0) ∨
      (b - a = 1 ∧ sideAt walls0 a 2 = some 0) ∨ (b - a = N ∧ sideAt walls0 a 3 = some 0)) p := by
    refine List.Chain'.imp ?_ h4
    have hat : ∀ (a : Int) (k : Nat), sideAt W a k = some 0 → sideAt walls0 a k = some 0 := by
      intro a k hs
      unfold sideAt at hs ⊢
      by_cases ha : 0 ≤ a
      · rw [if_pos ha] at hs ⊢
        exact hopen _ _ hs
      · rw [if_neg ha] at hs
        cases hs
    intro a b hab
    rcases hab with ⟨hd, hs⟩ | ⟨hd, hs⟩ | ⟨hd, hs⟩ | ⟨hd, hs⟩
    · exact Or.inl ⟨hd, hat _ _ hs⟩
    · exact Or.inr (Or.inl ⟨hd, hat _ _ hs⟩)
    · exact Or.inr (Or.inr (Or.inl ⟨hd, hat _ _ hs⟩))
    · exact Or.inr (Or.inr (Or.inr ⟨hd, hat _ _ hs⟩))
  cases p with
  | nil => cases h1
  | cons first rest =>
    have hfirst : first = 0 := by
      have e : some first = some (0 : Int) := h1
      exact Option.some.inj e
    have hlast : (first :: rest).getLast (List.cons_ne_nil first rest) =
        (walls0.length : Int) - 1 := by
      have e := List.getLast?_eq_getLast (first :: rest) (List.cons_ne_nil first rest)
      rw [h2, hWlen] at e
      exact (Option.some.inj e).symm
    unfold ValidatePath
    simp only
    rw [if_neg (by rw [not_or, not_not, not_not]; exact ⟨hfirst, hlast⟩)]
    exact validateSteps_of_chain N hN walls0 _ hchain

theorem loopBody_branchGrid :
    loopBody 2 (fun _ => 0) 2 branchGrid [] [] =
      .ok ⟨[[1, 1, 0, 1], [0, 1, 1, 0], [1, 1, 0, 1], [-1, 0, 1, 1]], [2], [], [2],
        [⟨.LEFT, 3⟩]⟩ := by
  have h1 : findDeadEnds [] [] branchGrid = .ok ([2], [2]) := by decide
  have h2 : backtrackOne 2 2 branchGrid 2 = .ok ⟨.LEFT, 3⟩ := by decide
  have h3 : applyOrder (fun _ => 0) [(⟨.LEFT, 3⟩ : NewDeadEnd)] = [⟨.LEFT, 3⟩] := by decide
  have h4 : applyBlocks branchGrid [⟨.LEFT, 3⟩] =
      some [[1, 1, 0, 1], [0, 1, 1, 0], [1, 1, 0, 1], [-1, 0, 1, 1]] := by decide
  unfold loopBody
  rw [h1]
  simp only [Outcome.bind, drain, h2, h3, h4]
  rfl

theorem Reachable_branchGrid :
    Reachable 2 branchGrid [] [[1, 1, 0, 1], [0, 1, 1, 0], [1, 1, 0, 1], [-1, 0, 1, 1]] [2] :=
  Reachable.pass 2 (fun _ => 0) branchGrid []
    ⟨[[1, 1, 0, 1], [0, 1, 1, 0], [1, 1, 0, 1], [-1, 0, 1, 1]], [2], [], [2], [⟨.LEFT, 3⟩]⟩
    Reachable.start loopBody_branchGrid

/-- C18: soundness of the solver on any grid of `N * N` cells, `N ≥ 2`
(fewer than `2^31` cells, so that a cell index is an `int`), with no
hypothesis on its wall bits. Every grid `W` the fixpoint loop can stand at has
the size of the original grid and each of its Open sides is Open in the
original grid; a path that the path construction walk returns on `W` is
accepted by `ValidatePath` on the original grid; and so is a path that
`SolveMaze` returns. -/
theorem SolveMaze_sound (N : Nat) (walls0 : Maze) (P0 : List Nat) (hlen : walls0.length = N * N)
    (hN : 2 ≤ N) (hsmall : walls0.length < 2147483648) :
    (∀ W P, Reachable N walls0 P0 W P →
      W.length = walls0.length ∧
      (∀ c k, side W c k = some 0 → side walls0 c k = some 0) ∧
      ∀ fuel p, pathWalk N W fuel 0 0 [] = .ok p → ValidatePath N walls0 p = some true) ∧
    (∀ fuel sched p, SolveMazeFrom fuel sched P0 walls0 = .ok p →
      ValidatePath N walls0 p = some true) := by
  have hreach : ∀ W P, Reachable N walls0 P0 W P →
      W.length = walls0.length ∧
      (∀ c k, side W c k = some 0 → side walls0 c k = some 0) ∧
      ∀ fuel p, pathWalk N W fuel 0 0 [] = .ok p → ValidatePath N walls0 p = some true := by
    intro W P hr
    obtain ⟨h1, h2⟩ := Reachable_open hr
    exact ⟨h1, h2, fun fuel p h => ValidatePath_of_pathWalk hlen hN hsmall h1 h2 h⟩
  refine ⟨hreach, ?_⟩
  intro fuel sched p h
  unfold SolveMazeFrom at h
  obtain ⟨s, hloop, hpath⟩ := Outcome.bind_eq_ok h
  have hsq : Nat.sqrt walls0.length = N := by
    rw [hlen]
    exact Nat.sqrt_eq N
  rw [hsq] at hloop hpath
  have hr := fixpointLoop_Reachable sched fuel fuel 0 false walls0 P0 Reachable.start s hloop
  exact (hreach s.1 s.2 hr).2.2 fuel p hpath

/-- C18, witness: the 2 x 2 maze with a dead end at cell 2. One pass of the
loop blocks side Left of cell 3; on the grid it leaves the walk returns
`[0, 1, 3]`, which `ValidatePath` accepts on the original grid. -/
theorem SolveMaze_sound_witness :
    pathWalk 2 [[1, 1, 0, 1], [0, 1, 1, 0], [1, 1, 0, 1], [-1, 0, 1, 1]] 3 0 0 [] =
      .ok [0, 1, 3] ∧
    ValidatePath (2 : Nat) branchGrid [0, 1, 3] = some true ∧
    ((∀ W P, Reachable 2 branchGrid [] W P →
      W.length = branchGrid.length ∧
      (∀ c k, side W c k = some 0 → side branchGrid c k = some 0) ∧
      ∀ fuel p, pathWalk 2 W fuel 0 0 [] = .ok p →
        ValidatePath (2 : Nat) branchGrid p = some true) ∧
    (∀ fuel sched p, SolveMazeFrom fuel sched [] branchGrid = .ok p →
      ValidatePath (2 : Nat) branchGrid p = some true)) :=
  ⟨by decide,
    ((SolveMaze_sound 2 branchGrid [] (by decide) (by decide) (by decide)).1 _ _
      Reachable_branchGrid).2.2 3 [0, 1, 3] (by decide),
    SolveMaze_sound 2 branchGrid [] (by decide) (by decide) (by decide)⟩

end MazeSolver

namespace MazeSolver

/-! ## The traces of the walks of one round -/

theorem backtrackOne_trace {N : Nat} {W : Maze} {P : List Nat} {A : Nat → Prop}
    (inv : LoopInv N W P A) {d : Nat} (hde : isDeadEnd W d = some true) (h1 : 1 ≤ d)
    (h2 : d + 1 < W.length) (hP : d ∉ P) {fuel : Nat} {r : NewDeadEnd}
    (h : backtrackOne fuel N W d = .ok r) : ∃ tr, WalkTrace N W A d r tr := by
  have w0 := WalkInv_start inv hde h1 h2 hP
  have hi : isIntersection d W = some false := isIntersection_of_isDeadEnd hde h1 h2 inv.small
  unfold backtrackOne at h
  cases fuel with
  | zero => cases h
  | succ n =>
    rw [backtrackWalk_succ, hi] at h
    simp only at h
    obtain ⟨⟨m, dir⟩, hm, hrest⟩ := Outcome.bind_eq_ok h
    obtain ⟨k, w1⟩ := WalkInv_step inv w0 hi hm
    obtain ⟨v, kv, rest, pre, w2, hpre, hint⟩ := backtrackWalk_ok inv n w1 hrest
    obtain ⟨-, hid, d1, hd1, hd2⟩ := w2.pos
    have e : r.direction = d1 := Option.some.inj hd1
    refine ⟨(v, kv) :: rest, w2.trace, ⟨k, pre, hpre⟩, ⟨v, kv, rest, rfl, hid, ?_⟩, w2.alive, hint⟩
    rw [e]
    exact hd2

theorem isDeadEnd_true_of_unique {W : Maze} {c km : Nat} {b : Bool}
    (hd : isDeadEnd W c = some b) (hu : ∀ k, k < 4 → side W c k = some 0 → k = km) :
    b = true := by
  obtain ⟨s0, s1, s2, s3, e0, e1, e2, e3, hb⟩ := isDeadEnd_sides hd
  have h0 : s0 = 0 → 0 = km := fun e => hu 0 (by omega) (by rw [e0, e])
  have h1 : s1 = 0 → 1 = km := fun e => hu 1 (by omega) (by rw [e1, e])
  have h2 : s2 = 0 → 2 = km := fun e => hu 2 (by omega) (by rw [e2, e])
  have h3 : s3 = 0 → 3 = km := fun e => hu 3 (by omega) (by rw [e3, e])
  rw [hb, decide_eq_true_eq]
  by_cases c0 : s0 = 0 <;> by_cases c1 : s1 = 0 <;> by_cases c2 : s2 = 0 <;>
    by_cases c3 : s3 = 0 <;> simp only [c0, c1, c2, c3, ne_eq, not_true_eq_false,
      not_false_eq_true, if_true, if_false] <;> omega

theorem opposite_inj {k k' : Nat} (hk : k < 4) (hk' : k' < 4) (h : opposite k = opposite k') :
    k = k' := by
  rw [← opposite_opposite hk, ← opposite_opposite hk', h]

theorem TraceOK_unique {N : Nat} {W : Maze} {P : List Nat} {A : Nat → Prop}
    (inv : LoopInv N W P A) (tr1 tr2 : List (Nat × Nat)) (x : Nat × Nat)
    (h1 : TraceOK N W A (x :: tr1)) (h2 : TraceOK N W A (x :: tr2)) : tr1 = tr2 := by
  induction tr1 generalizing x tr2 with
  | nil =>
    cases tr2 with
    | nil => rfl
    | cons y r2 =>
      obtain ⟨v, km⟩ := x
      obtain ⟨p2, kp2⟩ := y
      obtain ⟨-, -, hde, -⟩ : A v ∧ isIntersection v W = some false ∧ isDeadEnd W v = some true ∧
          1 ≤ v ∧ v + 1 < W.length ∧ km < 4 ∧ side W v km = some 0 ∧
          (∀ k, k < 4 → side W v k = some 0 → k = km) := h1
      obtain ⟨-, -, hdf, -⟩ : A v ∧ isIntersection v W = some false ∧
          isDeadEnd W v = some false ∧ km < 4 ∧ side W v km = some 0 ∧ v = target N p2 kp2 ∧
          kp2 < 4 ∧ (∀ k, k < 4 → side W v k = some 0 → k = km ∨ k = opposite kp2) ∧
          TraceOK N W A ((p2, kp2) :: r2) := h2
      rw [hde] at hdf
      cases hdf
  | cons y r1 ih =>
    obtain ⟨v, km⟩ := x
    obtain ⟨p1, kp1⟩ := y
    obtain ⟨-, -, hdf, hkm, -, hv1, hkp1, hop1, ht1⟩ : A v ∧ isIntersection v W = some false ∧
        isDeadEnd W v = some false ∧ km < 4 ∧ side W v km = some 0 ∧ v = target N p1 kp1 ∧
        kp1 < 4 ∧ (∀ k, k < 4 → side W v k = some 0 → k = km ∨ k = opposite kp1) ∧
        TraceOK N W A ((p1, kp1) :: r1) := h1
    cases tr2 with
    | nil =>
      obtain ⟨-, -, hde, -⟩ : A v ∧ isIntersection v W = some false ∧
          isDeadEnd W v = some true ∧
          1 ≤ v ∧ v + 1 < W.length ∧ km < 4 ∧ side W v km = some 0 ∧
          (∀ k, k < 4 → side W v k = some 0 → k = km) := h2
      rw [hde] at hdf
      cases hdf
    | cons z r2 =>
      obtain ⟨p2, kp2⟩ := z
      obtain ⟨-, -, -, -, -, hv2, hkp2, hop2, ht2⟩ : A v ∧ isIntersection v W = some false ∧
          isDeadEnd W v = some false ∧ km < 4 ∧ side W v km = some 0 ∧ v = target N p2 kp2 ∧
          kp2 < 4 ∧ (∀ k, k < 4 → side W v k = some 0 → k = km ∨ k = opposite kp2) ∧
          TraceOK N W A ((p2, kp2) :: r2) := h2
      have hp1 := TraceOK_head ht1
      have hp2 := TraceOK_head ht2
      have hs1 := (inv.sound p1 hp1.1).2 kp1 hkp1 hp1.2.2.2
      have hs2 := (inv.sound p2 hp2.1).2 kp2 hkp2 hp2.2.2.2
      rw [← hv1] at hs1
      rw [← hv2] at hs2
      have hne1 : opposite kp1 ≠ km := by
        intro e
        have hu : ∀ k, k < 4 → side W v k = some 0 → k = km := by
          intro k hk ho
          rcases hop1 k hk ho with e1 | e1
          · exact e1
          · rw [e1, e]
        have := isDeadEnd_true_of_unique hdf hu
        cases this
      have hkk : opposite kp1 = opposite kp2 := by
        rcases hop2 (opposite kp1) (opposite_lt kp1) hs1.2.2.2.1 with e | e
        · exact absurd e hne1
        · exact e
      have hk : kp1 = kp2 := opposite_inj hkp1 hkp2 hkk
      have hp : p1 = p2 := by
        rw [← hs1.2.2.2.2, ← hs2.2.2.2.2, hkk]
      subst hk
      subst hp
      rw [ih r2 (p1, kp1) ht1 ht2]

theorem WalkTrace_open {N : Nat} {W : Maze} {P : List Nat} {A : Nat → Prop}
    (inv : LoopInv N W P A) {d : Nat} {r : NewDeadEnd} {tr : List (Nat × Nat)}
    (h : WalkTrace N W A d r tr) :
    side W r.id r.direction.toNat = some 0 ∧ r.id < W.length := by
  obtain ⟨ht, -, ⟨v, kv, rest, htr, hid, hdir⟩, hA, -⟩ := h
  rw [htr] at ht
  obtain ⟨hAv, -, hkv, hopen⟩ := TraceOK_head ht
  have hs := (inv.sound v hAv).2 kv hkv hopen
  rw [hid, hdir]
  exact ⟨hs.2.2.2.1, hs.1⟩

theorem WalkTrace_inj {N : Nat} {W : Maze} {P : List Nat} {A : Nat → Prop}
    (inv : LoopInv N W P A) {d1 d2 : Nat} {r : NewDeadEnd} {tr1 tr2 : List (Nat × Nat)}
    (h1 : WalkTrace N W A d1 r tr1) (h2 : WalkTrace N W A d2 r tr2) : d1 = d2 := by
  obtain ⟨ht1, ⟨k1, pre1, hl1⟩, ⟨v1, kv1, rest1, htr1, hid1, hdir1⟩, -, -⟩ := h1
  obtain ⟨ht2, ⟨k2, pre2, hl2⟩, ⟨v2, kv2, rest2, htr2, hid2, hdir2⟩, -, -⟩ := h2
  rw [htr1] at ht1
  rw [htr2] at ht2
  obtain ⟨hAv1, -, hkv1, hopen1⟩ := TraceOK_head ht1
  obtain ⟨hAv2, -, hkv2, hopen2⟩ := TraceOK_head ht2
  have hs1 := (inv.sound v1 hAv1).2 kv1 hkv1 hopen1
  have hs2 := (inv.sound v2 hAv2).2 kv2 hkv2 hopen2
  have hk : kv1 = kv2 := opposite_inj hkv1 hkv2 (by rw [← hdir1, ← hdir2])
  have hv : v1 = v2 := by
    rw [← hs1.2.2.2.2, ← hs2.2.2.2.2, ← hid1, ← hid2, hk]
  subst hk
  subst hv
  have hrest := TraceOK_unique inv rest1 rest2 (v1, kv1) ht1 ht2
  have e : pre1 ++ [(d1, k1)] = pre2 ++ [(d2, k2)] := by
    rw [← hl1, ← hl2, htr1, htr2, hrest]
  have e2 := List.append_inj' e rfl
  have e3 : (d1, k1) = (d2, k2) := List.head_eq_of_cons_eq e2.2
  exact congrArg Prod.fst e3

/-! ## What a completed pass of the loop body did -/

theorem findDeadEndsFrom_nodup {W : Maze} (n i : Nat) (stack treated stack1 treated1 : List Nat)
    (h : findDeadEndsFrom W n i stack treated = .ok (stack1, treated1))
    (hnd : stack.Nodup) (hlt : ∀ x ∈ stack, x < i) : stack1.Nodup := by
  induction n generalizing i stack treated with
  | zero =>
    have e := Outcome.ok.inj h
    have e1 : stack = stack1 := congrArg Prod.fst e
    rw [← e1]
    exact hnd
  | succ n ih =>
    unfold findDeadEndsFrom at h
    cases hde : isDeadEnd W i with
    | none =>
      rw [hde] at h
      cases h
    | some b =>
      rw [hde] at h
      have hlt1 : ∀ x ∈ stack, x < i + 1 := fun x hx => Nat.lt_succ_of_lt (hlt x hx)
      cases b with
      | false => exact ih (i + 1) stack treated h hnd hlt1
      | true =>
        simp only at h
        split_ifs at h with hin
        · exact ih (i + 1) stack treated h hnd hlt1
        · refine ih (i + 1) (i :: stack) (i :: treated) h ?_ ?_
          · rw [List.nodup_cons]
            exact ⟨fun hm => Nat.lt_irrefl i (hlt i hm), hnd⟩
          · intro x hx
            rcases List.mem_cons.mp hx with e | e
            · omega
            · exact hlt1 x e

theorem forall₂_imp_mem {α β : Type} {R S : α → β → Prop} {l1 : List α} {l2 : List β}
    (h : List.Forall₂ R l1 l2) (himp : ∀ a b, a ∈ l1 → R a b → S a b) :
    List.Forall₂ S l1 l2 := by
  induction h with
  | nil => exact List.Forall₂.nil
  | cons hab _ ih =>
    exact List.Forall₂.cons (himp _ _ (List.mem_cons_self _ _) hab)
      (ih (fun a b ha hr => himp a b (List.mem_cons_of_mem _ ha) hr))

theorem forall₂_nodup {α β : Type} {R : α → β → Prop} {l1 : List α} {l2 : List β}
    (h : List.Forall₂ R l1 l2) (hnd : l1.Nodup)
    (hinj : ∀ a a' b, R a b → R a' b → a = a') : l2.Nodup := by
  induction h with
  | nil => exact List.nodup_nil
  | @cons a b l1 l2 hab hrest ih =>
    rw [List.nodup_cons] at hnd ⊢
    refine ⟨?_, ih hnd.2⟩
    intro hb
    have hex : ∃ a', a' ∈ l1 ∧ R a' b := by
      clear ih hnd
      induction hrest with
      | nil => cases hb
      | @cons a1 b1 l3 l4 h1 _ ih2 =>
        rcases List.mem_cons.mp hb with e | e
        · exact ⟨a1, List.mem_cons_self _ _, by rw [e]; exact h1⟩
        · obtain ⟨a', ha', hr⟩ := ih2 e
          exact ⟨a', List.mem_cons_of_mem _ ha', hr⟩
    obtain ⟨a', ha', hr⟩ := hex
    have e := hinj a a' b hab hr
    rw [← e] at ha'
    exact hnd.1 ha'

theorem forall₂_mem_right {α β : Type} {R : α → β → Prop} {l1 : List α} {l2 : List β}
    (h : List.Forall₂ R l1 l2) {b : β} (hb : b ∈ l2) : ∃ a, a ∈ l1 ∧ R a b := by
  induction h with
  | nil => cases hb
  | @cons a1 b1 l3 l4 h1 _ ih =>
    rcases List.mem_cons.mp hb with e | e
    · exact ⟨a1, List.mem_cons_self _ _, by rw [e]; exact h1⟩
    · obtain ⟨a', ha', hr⟩ := ih e
      exact ⟨a', List.mem_cons_of_mem _ ha', hr⟩

theorem forall₂_mem_left {α β : Type} {R : α → β → Prop} {l1 : List α} {l2 : List β}
    (h : List.Forall₂ R l1 l2) {a : α} (ha : a ∈ l1) : ∃ b, b ∈ l2 ∧ R a b := by
  induction h with
  | nil => cases ha
  | @cons a1 b1 l3 l4 h1 _ ih =>
    rcases List.mem_cons.mp ha with e | e
    · exact ⟨b1, List.mem_cons_self _ _, by rw [e]; exact h1⟩
    · obtain ⟨b', hb', hr⟩ := ih e
      exact ⟨b', List.mem_cons_of_mem _ hb', hr⟩

/-- A completed pass of the loop body on a grid that satisfies the loop
invariant: the scan emitted exactly the dead ends not yet processed, each once,
every walk left a trace, and the records were applied to the grid. -/
theorem loopBody_walks {N : Nat} {W : Maze} {P : List Nat} {A : Nat → Prop}
    (inv : LoopInv N W P A) (h0 : 0 < W.length) {walkFuel : Nat} {assign : Nat → Nat}
    {r : Round} (hbody : loopBody walkFuel assign N W P [] = .ok r) :
    ∃ recs, applyBlocks W recs = some r.walls ∧ r.records = applyOrder assign recs ∧
      List.Forall₂ (fun d rec => ∃ tr, WalkTrace N W A d rec tr) r.emitted recs ∧
      (∀ d, d ∈ r.emitted ↔ 1 ≤ d ∧ d + 1 < W.length ∧ isDeadEnd W d = some true ∧ d ∉ P) ∧
      (∀ d, d ∈ r.treated ↔ d ∈ P ∨ d ∈ r.emitted) ∧ r.emitted.Nodup := by
  obtain ⟨recs, hdrain, hrec, hfind, happly, -⟩ := loopBody_ok_records hbody
  obtain ⟨stack1, treated1, hspec, hst, htr⟩ := findDeadEnds_spec inv.rows h0 inv.small [] P
  rw [hfind] at hspec
  have e := Outcome.ok.inj hspec
  have e1 : r.emitted = stack1 := congrArg Prod.fst e
  have e2 : r.treated = treated1 := congrArg Prod.snd e
  have hem : ∀ d, d ∈ r.emitted ↔
      1 ≤ d ∧ d + 1 < W.length ∧ isDeadEnd W d = some true ∧ d ∉ P := by
    intro d
    rw [e1, hst d]
    simp
  have hnd : r.emitted.Nodup := by
    unfold findDeadEnds at hfind
    exact findDeadEndsFrom_nodup _ 1 [] P _ _ hfind List.nodup_nil (fun x hx => by cases hx)
  refine ⟨recs, happly, hrec, ?_, hem, ?_, hnd⟩
  · refine forall₂_imp_mem (drain_ok_inv walkFuel N W r.emitted 0 recs hdrain) ?_
    intro d rec hd hone
    obtain ⟨h1, h2, hde, hP⟩ := (hem d).mp hd
    exact backtrackOne_trace inv hde h1 h2 hP hone
  · intro d
    rw [e2, htr d, hem d]

end MazeSolver

namespace MazeSolver

/-! ## The loop invariant is kept by a pass -/

theorem applyBlocks_rows {W W1 : Maze} {recs : List NewDeadEnd}
    (h : applyBlocks W recs = some W1) (hrows : ∀ row ∈ W, row.length = 4) :
    ∀ row ∈ W1, row.length = 4 := by
  induction recs generalizing W with
  | nil =>
    cases h
    exact hrows
  | cons r rest ih =>
    rw [applyBlocks_cons] at h
    cases hs : setSide W r.id r.direction.toNat (-1) with
    | none =>
      rw [hs] at h
      cases h
    | some W2 =>
      rw [hs] at h
      exact ih h (setSide_rows hs hrows)

theorem isDeadEnd_congr {W W1 : Maze} {c : Nat} (h : ∀ k, side W1 c k = side W c k) :
    isDeadEnd W1 c = isDeadEnd W c := by
  unfold isDeadEnd
  rw [h 0, h 1, h 2, h 3]

theorem applyBlocks_cell_unnamed {W W1 : Maze} {recs : List NewDeadEnd}
    (h : applyBlocks W recs = some W1) {c : Nat} (hno : ∀ r ∈ recs, r.id ≠ c) :
    isDeadEnd W1 c = isDeadEnd W c :=
  isDeadEnd_congr (fun k => applyBlocks_unnamed h c k (fun r hr e => hno r hr e.1))

/-- A completed pass of the loop body keeps the loop invariant: the cells of
the traces of its walks are cut off, the dead ends it emitted are processed. -/
theorem LoopInv_round {N : Nat} {W : Maze} {P : List Nat} {A : Nat → Prop}
    (inv : LoopInv N W P A) {walkFuel : Nat} {assign : Nat → Nat} {r : Round}
    (hbody : loopBody walkFuel assign N W P [] = .ok r) :
    ∃ A1, LoopInv N r.walls r.treated A1 := by
  have hlen : r.walls.length = W.length := loopBody_length hbody
  by_cases h0 : 0 < W.length
  · obtain ⟨recs, happly, -, hall, hem, htr, -⟩ := loopBody_walks inv h0 hbody
    have hrec : ∀ rec ∈ recs, ∃ d, d ∈ r.emitted ∧ ∃ tr, WalkTrace N W A d rec tr :=
      fun rec hr => forall₂_mem_right hall hr
    refine ⟨fun x => A x ∧ ¬ ∃ d rec tr, rec ∈ recs ∧ WalkTrace N W A d rec tr ∧
      x ∈ tr.map Prod.fst, ?_, ?_, ?_, ?_⟩
    · exact applyBlocks_rows happly inv.rows
    · rw [hlen]
      exact inv.small
    · intro c hc
      obtain ⟨hA, hcut⟩ := hc
      refine ⟨by rw [hlen]; exact (inv.sound c hA).1, ?_⟩
      intro k hk hopen1
      have hopen := applyBlocks_open happly hopen1
      obtain ⟨hlt, hne, hAt, hback, hret⟩ := (inv.sound c hA).2 k hk hopen
      refine ⟨by rw [hlen]; exact hlt, hne, ⟨hAt, ?_⟩, ?_, hret⟩
      · intro hex
        obtain ⟨d, rec, tr, hr, hwt, hmem⟩ := hex
        obtain ⟨⟨t, kt⟩, ht, ht1⟩ := List.mem_map.mp hmem
        simp only at ht1
        rw [ht1] at ht
        rcases TraceOK_open inv hwt.1 ht (opposite_lt k) hback with h1 | ⟨h1, h2⟩
        · rw [hret] at h1
          exact hcut ⟨d, rec, tr, hr, hwt, h1⟩
        · obtain ⟨v, kv, rest, htr1, hid, hdir⟩ := hwt.2.2.1
          rw [htr1] at h1
          simp only [List.head?_cons, Option.some.injEq, Prod.mk.injEq] at h1
          have hnamed := applyBlocks_named happly hr
          rw [hid, hdir, h1.1, h1.2, ← h2, hret, opposite_opposite hk, hopen1] at hnamed
          cases hnamed
      · rw [applyBlocks_unnamed happly _ _ ?_]
        · exact hback
        · intro rec hr hnm
          obtain ⟨d, -, tr, hwt⟩ := hrec rec hr
          obtain ⟨v, kv, rest, htr1, hid, hdir⟩ := hwt.2.2.1
          have hT := hwt.1
          rw [htr1] at hT
          obtain ⟨hAv, -, hkv, hopv⟩ := TraceOK_head hT
          have hsv := (inv.sound v hAv).2 kv hkv hopv
          have hk1 : kv = k := opposite_inj hkv hk (by rw [← hdir, hnm.2])
          have hv : v = c := by
            rw [← hsv.2.2.2.2, ← hid, hnm.1, hk1, hret]
          apply hcut
          refine ⟨d, rec, tr, hr, hwt, ?_⟩
          rw [htr1, ← hv]
          simp
    · intro c hnA h1 h2 hde
      rw [hlen] at h2
      rw [htr c]
      by_cases hA : A c
      · have hcut : ∃ d rec tr, rec ∈ recs ∧ WalkTrace N W A d rec tr ∧
            c ∈ tr.map Prod.fst := by
          by_contra hno
          exact hnA ⟨hA, hno⟩
        obtain ⟨d, rec, tr, hr, hwt, hmem⟩ := hcut
        obtain ⟨⟨t, kt⟩, ht, ht1⟩ := List.mem_map.mp hmem
        simp only at ht1
        rw [ht1] at ht
        have hic := (TraceOK_mem hwt.1 ht).2.1
        have hno : ∀ rec1 ∈ recs, rec1.id ≠ c := by
          intro rec1 hr1 e
          obtain ⟨d1, -, tr1, hwt1⟩ := hrec rec1 hr1
          have hi1 := hwt1.2.2.2.2
          rw [e, hic] at hi1
          cases hi1
        rw [applyBlocks_cell_unnamed happly hno] at hde
        by_cases hP : c ∈ P
        · exact Or.inl hP
        · exact Or.inr ((hem c).mpr ⟨h1, h2, hde, hP⟩)
      · have hno : ∀ rec1 ∈ recs, rec1.id ≠ c := by
          intro rec1 hr1 e
          obtain ⟨d1, -, tr1, hwt1⟩ := hrec rec1 hr1
          have hA1 := hwt1.2.2.2.1
          rw [e] at hA1
          exact hA hA1
        rw [applyBlocks_cell_unnamed happly hno] at hde
        exact Or.inl (inv.processed c hA h1 h2 hde)
  · have hz : r.walls.length = 0 := by omega
    refine ⟨fun _ => False, ?_, ?_, ?_, ?_⟩
    · intro row hrow
      rw [List.length_eq_zero.mp hz] at hrow
      cases hrow
    · omega
    · intro c hc
      exact absurd hc id
    · intro c _ _ h2
      omega

theorem Reachable_inv {N : Nat} {walls0 W : Maze} {P0 P : List Nat}
    (hcons : Consistent N walls0) (hr : Reachable N walls0 P0 W P) :
    ∃ A, LoopInv N W P A := by
  induction hr with
  | start => exact ⟨_, LoopInv_of_consistent hcons P0⟩
  | pass walkFuel assign W1 P1 r _ hbody ih =>
    obtain ⟨A, inv⟩ := ih
    exact LoopInv_round inv hbody

/-! ## Counting the Open sides -/

theorem count_set_open {row : List Int} {k : Nat} (h : row[k]? = some 0) :
    (row.set k (-1)).count 0 + 1 = row.count 0 := by
  induction row generalizing k with
  | nil => simp at h
  | cons a tl ih =>
    cases k with
    | zero =>
      have e : a = 0 := by simpa using h
      rw [e]
      simp
    | succ j =>
      have h1 : tl[j]? = some 0 := by simpa using h
      have := ih h1
      rw [List.set_cons_succ, List.count_cons, List.count_cons]
      omega

theorem sum_map_set {f : List Int → Nat} {W : Maze} {c : Nat} {row row1 : List Int}
    (h : W[c]? = some row) (hf : f row1 + 1 = f row) :
    ((W.set c row1).map f).sum + 1 = (W.map f).sum := by
  induction W generalizing c with
  | nil => simp at h
  | cons a tl ih =>
    cases c with
    | zero =>
      have e : a = row := by simpa using h
      rw [e]
      simp only [List.set_cons_zero, List.map_cons, List.sum_cons]
      omega
    | succ j =>
      have h1 : tl[j]? = some row := by simpa using h
      have := ih h1
      simp only [List.set_cons_succ, List.map_cons, List.sum_cons]
      omega

theorem setSide_openCount {W W1 : Maze} {c k : Nat} (h : setSide W c k (-1) = some W1)
    (ho : side W c k = some 0) : openCount W1 + 1 = openCount W := by
  unfold setSide at h
  unfold side at ho
  cases hrow : W[c]? with
  | none =>
    rw [hrow] at h
    cases h
  | some row =>
    rw [hrow] at h ho
    simp only at h ho
    by_cases hk : k < row.length
    · rw [if_pos hk] at h
      have e := Option.some.inj h
      rw [← e]
      unfold openCount
      exact sum_map_set hrow (count_set_open ho)
    · rw [if_neg hk] at h
      cases h

theorem record_ne {r r1 : NewDeadEnd} (h : r1 ≠ r) :
    ¬ (r1.id = r.id ∧ r1.direction.toNat = r.direction.toNat) := by
  intro e
  apply h
  cases r
  cases r1
  simp only at e
  rw [e.1, Direction_toNat_inj e.2]

theorem applyBlocks_openCount {W W1 : Maze} {recs : List NewDeadEnd} (hnd : recs.Nodup)
    (hopen : ∀ rec ∈ recs, side W rec.id rec.direction.toNat = some 0)
    (h : applyBlocks W recs = some W1) : openCount W1 + recs.length = openCount W := by
  induction recs generalizing W with
  | nil =>
    cases h
    rfl
  | cons r rest ih =>
    rw [applyBlocks_cons] at h
    cases hs : setSide W r.id r.direction.toNat (-1) with
    | none =>
      rw [hs] at h
      cases h
    | some W2 =>
      rw [hs] at h
      rw [List.nodup_cons] at hnd
      have h1 := setSide_openCount hs (hopen r (List.mem_cons_self _ _))
      have hopen2 : ∀ rec ∈ rest, side W2 rec.id rec.direction.toNat = some 0 := by
        intro rec hrec
        rw [setSide_side hs, if_neg (record_ne (fun e => hnd.1 (by rw [← e]; exact hrec)))]
        exact hopen rec (List.mem_cons_of_mem _ hrec)
      have h2 := ih hnd.2 hopen2 h
      rw [List.length_cons]
      omega

theorem applyBlocks_prefix_open {W Wpre : Maze} {recs pre post : List NewDeadEnd}
    {rec : NewDeadEnd} (hnd : recs.Nodup)
    (hopen : ∀ rec ∈ recs, side W rec.id rec.direction.toNat = some 0)
    (hsplit : recs = pre ++ rec :: post) (h : applyBlocks W pre = some Wpre) :
    side Wpre rec.id rec.direction.toNat = some 0 := by
  rw [hsplit] at hnd hopen
  rw [applyBlocks_unnamed h]
  · exact hopen rec (by simp)
  · intro r1 hr1
    apply record_ne
    intro e
    rw [e] at hr1
    have hd := (List.nodup_append.mp hnd).2.2
    exact hd hr1 (List.mem_cons_self _ _)

theorem loopBody_applied {walkFuel : Nat} {assign : Nat → Nat} {N : Nat} {W : Maze}
    {P : List Nat} {r : Round} (hbody : loopBody walkFuel assign N W P [] = .ok r) :
    applyBlocks W r.records = some r.walls := by
  obtain ⟨recs, -, hrec, -, happly, -⟩ := loopBody_ok_records hbody
  rw [hrec, applyBlocks_applyOrder]
  exact happly

/-- C10: round-monotonicity. Let the grid `walls` with processed set `treated`
be reachable by the fixpoint loop from a grid that meets the input contract on
wall bits (as every well-formed perfect maze does), and let a pass of the loop
body from it complete with at least one dead end emitted. Then every record
the block applier meets names a side that is Open at that moment, in the grid
the records before it have left; the pass closes as many sides as dead ends
were emitted, and the number of Open sides after it is strictly smaller than
before. -/
theorem round_closes_open_sides (N : Nat) (walls0 : Maze) (treated0 : List Nat)
    (hcons : Consistent N walls0) (walls : Maze) (treated : List Nat)
    (hreach : Reachable N walls0 treated0 walls treated) (walkFuel : Nat) (assign : Nat → Nat)
    (r : Round) (hbody : loopBody walkFuel assign N walls treated [] = .ok r)
    (hne : r.emitted ≠ []) :
    applyBlocks walls r.records = some r.walls ∧
    (∀ pre rec post wallsPre, r.records = pre ++ rec :: post →
      applyBlocks walls pre = some wallsPre →
      side wallsPre rec.id rec.direction.toNat = some 0) ∧
    r.records.length = r.emitted.length ∧
    openCount r.walls + r.emitted.length = openCount walls ∧
    openCount r.walls < openCount walls := by
  obtain ⟨A, inv⟩ := Reachable_inv hcons hreach
  have h0 : 0 < walls.length := by
    obtain ⟨-, -, -, hfind, -, -⟩ := loopBody_ok_records hbody
    cases hem : r.emitted with
    | nil => exact absurd hem hne
    | cons d rest =>
      unfold findDeadEnds at hfind
      rcases findDeadEndsFrom_new _ 1 [] treated _ _ hfind d (by rw [hem]; simp) with h1 | h1
      · cases h1
      · obtain ⟨s0, -, -, -, e0, -⟩ := isDeadEnd_sides h1.2.2
        exact Nat.lt_of_le_of_lt (Nat.zero_le _) (side_some_lt e0)
  obtain ⟨recs, happly, hrec, hall, -, -, hnd⟩ := loopBody_walks inv h0 hbody
  have hperm : r.records.Perm recs := by
    rw [hrec]
    exact applyOrder_perm assign recs
  have hndrecs : recs.Nodup :=
    forall₂_nodup hall hnd (fun d1 d2 rec h1 h2 => by
      obtain ⟨tr1, hw1⟩ := h1
      obtain ⟨tr2, hw2⟩ := h2
      exact WalkTrace_inj inv hw1 hw2)
  have hopen : ∀ rec ∈ recs, side walls rec.id rec.direction.toNat = some 0 := by
    intro rec hr
    obtain ⟨d, -, tr, hw⟩ := forall₂_mem_right hall hr
    exact (WalkTrace_open inv hw).1
  have hnd2 : r.records.Nodup := hperm.nodup_iff.mpr hndrecs
  have hopen2 : ∀ rec ∈ r.records, side walls rec.id rec.direction.toNat = some 0 :=
    fun rec hr => hopen rec (hperm.mem_iff.mp hr)
  have hlen : recs.length = r.emitted.length := (List.Forall₂.length_eq hall).symm
  have hcount := applyBlocks_openCount hndrecs hopen happly
  have hpos : 0 < r.emitted.length := List.length_pos.mpr hne
  refine ⟨loopBody_applied hbody, ?_, by rw [hperm.length_eq, hlen], by omega, by omega⟩
  intro pre rec post wallsPre hsplit hpre
  exact applyBlocks_prefix_open hnd2 hopen2 hsplit hpre

/-- C10, witness: the 2 x 2 maze with a dead end at cell 2. The pass emits
cell 2 and applies the one record `(3, Left)`: six Open sides before the pass,
five after it. -/
theorem round_closes_open_sides_witness :
    Consistent 2 branchGrid ∧ openCount branchGrid = 6 ∧
    openCount [[1, 1, 0, 1], [0, 1, 1, 0], [1, 1, 0, 1], [-1, 0, 1, 1]] = 5 ∧
    applyBlocks branchGrid [⟨.LEFT, 3⟩] =
      some [[1, 1, 0, 1], [0, 1, 1, 0], [1, 1, 0, 1], [-1, 0, 1, 1]] ∧
    (∀ pre rec post wallsPre, [(⟨.LEFT, 3⟩ : NewDeadEnd)] = pre ++ rec :: post →
      applyBlocks branchGrid pre = some wallsPre →
      side wallsPre rec.id rec.direction.toNat = some 0) ∧
    [(⟨.LEFT, 3⟩ : NewDeadEnd)].length = [2].length ∧
    openCount [[1, 1, 0, 1], [0, 1, 1, 0], [1, 1, 0, 1], [-1, 0, 1, 1]] + [2].length =
      openCount branchGrid ∧
    openCount [[1, 1, 0, 1], [0, 1, 1, 0], [1, 1, 0, 1], [-1, 0, 1, 1]] <
      openCount branchGrid :=
  ⟨by decide, by decide, by decide,
    round_closes_open_sides 2 branchGrid [] (by decide) branchGrid [] Reachable.start 2
      (fun _ => 0)
      ⟨[[1, 1, 0, 1], [0, 1, 1, 0], [1, 1, 0, 1], [-1, 0, 1, 1]], [2], [], [2], [⟨.LEFT, 3⟩]⟩
      loopBody_branchGrid (by decide)⟩

end MazeSolver
